import Mathlib

/-!
# EnergyPlus `OutputFiles.cc`: the custom `{fmt}` argument formatter

A shallow embedding of `custom_arg_formatter`, with the `'T'` legacy-G directive and the
`'R'` rounding-compatible directive, and of the two `vprint` overloads.

Modelling conventions.

* `Real64` is a binary64 value, kept as a sign flag and an exact rational magnitude, so
  that `+0.0` and `-0.0` are different values that compare equal. A magnitude of
  `2 ^ 1024` or more stands for an infinity. NaN is outside the model: where binary64
  arithmetic gives NaN (`0 * ∞`, `0 / 0`, `∞ / ∞`, `∞ - ∞`) the model gives the zero
  or the infinity that the definitions below say.
* Floating-point literals of the source are the binary64 values the compiler stores
  for them.
* The operations `*`, `/` and `+` round their exact result to binary64 (to nearest, ties
  to even), overflow to infinity and keep an infinite operand infinite; `std::round`,
  `std::abs`, `std::nextafter` and the comparisons are exact, as in binary64.
* The functions `std::log10` and `std::pow` of the C library, whose last digit the
  language does not fix, are a parameter `lib` of the formatter. `libm` is an executable
  model of them, used for concrete renderings.
* `int` fields are `Int`; `static_cast<int>` truncates toward zero and is not bounded;
  a `std::string` is a `List Char`.
* The `{fmt}` library writer `basic_writer::write(double, specs)` is a parameter `bw`
  of the formatter; `fmt_write` is an executable model of it, used for concrete
  renderings.
* The template pass `fmt::vformat_to` of the library is a parameter of `vprint`.
-/

namespace EnergyPlus

/-! ## Values -/

/-- A `Real64` (binary64) value: sign flag and exact magnitude. -/
structure Real64 where
  /-- sign bit: `true` for negative values and for `-0.0` -/
  neg : Bool
  /-- magnitude `|value|` -/
  mag : ℚ
  /-- the magnitude is not negative -/
  mag_nonneg : 0 ≤ mag

namespace Real64

/-- The real number a value denotes (both zeros denote `0`). -/
def toRat (v : Real64) : ℚ := if v.neg then -v.mag else v.mag

/-- The value with sign flag `s` and magnitude `|q|`. -/
def mk_abs (s : Bool) (q : ℚ) : Real64 := ⟨s, |q|, abs_nonneg q⟩

/-- Unary minus: flips the sign bit. -/
def negate (v : Real64) : Real64 := ⟨!v.neg, v.mag, v.mag_nonneg⟩

/-- `std::abs`: clears the sign bit. -/
def abs (v : Real64) : Real64 := ⟨false, v.mag, v.mag_nonneg⟩

/-- A value is one that binary64 stores exactly: `m * 2 ^ e` with `m < 2 ^ 53` and
`-1074 ≤ e ≤ 971`. -/
def IsBinary64 (v : Real64) : Prop :=
  ∃ m : ℕ, ∃ e : ℤ, m < 2 ^ 53 ∧ -1074 ≤ e ∧ e ≤ 971 ∧ v.mag = (m : ℚ) * (2 : ℚ) ^ e

/-- The magnitude that stands for infinity. -/
def infinity_mag : ℚ := 2 ^ 1024

/-- Position of the leading bit of a natural number, by repeated halving (`fuel` bounds
the number of halvings). -/
def leading_bit : ℕ → ℕ → ℕ
  | 0, _ => 0
  | fuel + 1, n => if n < 2 then 0 else leading_bit fuel (n / 2) + 1

/-- Position of the leading bit of a positive rational: `⌊log2 q⌋`. -/
def floor_log2 (q : ℚ) : ℤ :=
  let k : ℤ := (leading_bit q.num.natAbs q.num.natAbs : ℤ) - (leading_bit q.den q.den : ℤ)
  if (2 : ℚ) ^ k ≤ q then k else k - 1

/-- Spacing of binary64 values just above the magnitude `q`. -/
def ulp_above (q : ℚ) : ℚ := (2 : ℚ) ^ (max (floor_log2 q) (-1022) - 52)

/-- Nearest natural number of a rational that is not negative, halfway cases to even. -/
def ties_to_even (q : ℚ) : ℕ :=
  let f := ⌊q⌋.toNat
  let r := q - f
  if r < 1 / 2 then f else if 1 / 2 < r then f + 1 else if f % 2 = 0 then f else f + 1

/-- Rounding of a magnitude to binary64 in the default rounding mode, to nearest with
ties to even: the nearest multiple of the spacing at `q`, or infinity when that
multiple is `2 ^ 1024` or more. -/
def to_binary64 (q : ℚ) : ℚ :=
  if q ≤ 0 then 0
  else if infinity_mag ≤ (ties_to_even (q / ulp_above q) : ℚ) * ulp_above q then infinity_mag
  else (ties_to_even (q / ulp_above q) : ℚ) * ulp_above q

/-- The infinity with sign flag `s`. -/
def infinity (s : Bool) : Real64 := ⟨s, infinity_mag, by unfold infinity_mag; positivity⟩

/-- Product `a * b`, rounded to binary64: a product with a zero is a zero, a product
with an infinity is an infinity (zero times infinity, a NaN, is outside the model). -/
def mul (a b : Real64) : Real64 :=
  if a.mag = 0 ∨ b.mag = 0 then ⟨xor a.neg b.neg, 0, le_refl 0⟩
  else if infinity_mag ≤ a.mag ∨ infinity_mag ≤ b.mag then infinity (xor a.neg b.neg)
  else mk_abs (xor a.neg b.neg) (to_binary64 (a.mag * b.mag))

/-- Quotient `a / b`, rounded to binary64: a zero divided by anything is a zero, a
division by a zero and a division of an infinity is an infinity, a finite value divided
by an infinity is a zero (`0 / 0` and `∞ / ∞`, both NaN, are outside the model). -/
def div (a b : Real64) : Real64 :=
  if a.mag = 0 then ⟨xor a.neg b.neg, 0, le_refl 0⟩
  else if b.mag = 0 ∨ infinity_mag ≤ a.mag then infinity (xor a.neg b.neg)
  else if infinity_mag ≤ b.mag then ⟨xor a.neg b.neg, 0, le_refl 0⟩
  else mk_abs (xor a.neg b.neg) (to_binary64 (a.mag / b.mag))

/-- Sum `a + b`, rounded to binary64: a sum with an infinity is that infinity (`∞ - ∞`,
a NaN, is outside the model), and an exact zero sum is `+0.0` unless both operands are
negative. -/
def add (a b : Real64) : Real64 :=
  if infinity_mag ≤ a.mag then a
  else if infinity_mag ≤ b.mag then b
  else if a.toRat + b.toRat = 0 then ⟨a.neg && b.neg, 0, le_refl 0⟩
  else mk_abs (decide (a.toRat + b.toRat < 0)) (to_binary64 |a.toRat + b.toRat|)

/-- The literal of a natural number. -/
def ofNat (n : ℕ) : Real64 := ⟨false, n, Nat.cast_nonneg n⟩

/-- `std::round`: nearest integer, halfway cases away from zero; the sign is kept. -/
def round (v : Real64) : Real64 :=
  ⟨v.neg, ((⌊v.mag + 1 / 2⌋.toNat : ℕ) : ℚ), Nat.cast_nonneg _⟩

/-- `static_cast<int>`: the integer part, truncated toward zero. -/
def trunc (v : Real64) : ℤ := if v.neg then -⌊v.mag⌋ else ⌊v.mag⌋

/-- Spacing of binary64 values just below the magnitude `q` (for `0 < q`). -/
def ulp_below (q : ℚ) : ℚ :=
  let k := floor_log2 q
  if q = (2 : ℚ) ^ k ∧ -1022 < k then (2 : ℚ) ^ (k - 53) else (2 : ℚ) ^ (max k (-1022) - 52)

/-- `std::nextafter(v, 1.0)` on binary64 values: the adjacent binary64 value in the
direction of `1`. -/
def nextafter_one (v : Real64) : Real64 :=
  if v.toRat = 1 then v
  else if v.mag = 0 then ⟨false, (2 : ℚ) ^ (-1074 : ℤ), by positivity⟩
  else if v.neg = false ∧ v.mag < 1 then mk_abs false (v.mag + ulp_above v.mag)
  else mk_abs v.neg (v.mag - ulp_below v.mag)

end Real64

/-! ## The C library -/

/-- The two functions of the C library the formatter calls. -/
structure math_library where
  /-- `std::log10` -/
  log10 : Real64 → Real64
  /-- `std::pow(10, n)` for an `int` exponent `n` -/
  pow10 : ℤ → Real64

namespace libm_model

/-- The constant `ln 2`, to 36 decimal places. -/
def ln_two : ℚ := 693147180559945309417232121458176568 / 10 ^ 36

/-- The constant `ln 10`, to 36 decimal places. -/
def ln_ten : ℚ := 2302585092994045684017991454684364208 / 10 ^ 36

/-- The series `2 * (z + z^3 / 3 + z^5 / 5 + ...)` of `ln ((1 + z) / (1 - z))`, cut
after `terms` terms. -/
def log_series (z : ℚ) (terms : ℕ) : ℚ :=
  2 * (List.range terms).foldl (fun acc i => acc + z ^ (2 * i + 1) / ((2 * i + 1 : ℕ) : ℚ)) 0

/-- The natural logarithm of a positive rational, to about thirty decimal places:
`q = g * 2 ^ k` with `1 ≤ g < 2`, and `ln g` by the series at `z = (g - 1) / (g + 1)`. -/
def ln (q : ℚ) : ℚ :=
  let k := Real64.floor_log2 q
  let g := q / (2 : ℚ) ^ k
  (k : ℚ) * ln_two + log_series ((g - 1) / (g + 1)) 32

/-- Modelled from the spec: `std::log10` of the C library, which the repository calls
but does not contain, for the "`log10(|value|)`" of the spec. The model is the binary64
value nearest to the decimal logarithm (computed to about thirty decimal places before
it is rounded), minus infinity at zero. A C library may differ from it in the last
place. -/
def log10 (x : Real64) : Real64 :=
  if x.mag = 0 then ⟨true, Real64.infinity_mag, by unfold Real64.infinity_mag; positivity⟩
  else if Real64.infinity_mag ≤ x.mag then
    ⟨false, Real64.infinity_mag, by unfold Real64.infinity_mag; positivity⟩
  else
    Real64.mk_abs (decide (x.mag < 1)) (Real64.to_binary64 |ln x.mag / ln_ten|)

/-- Modelled from the spec: `std::pow(10, n)` of the C library, which the repository
calls but does not contain, for the "`10^precision`" of the spec: the binary64 value
nearest to the power of ten. -/
def pow10 (n : ℤ) : Real64 := Real64.mk_abs false (Real64.to_binary64 ((10 : ℚ) ^ n))

end libm_model

/-- The executable model of the C library. -/
def libm : math_library := ⟨libm_model.log10, libm_model.pow10⟩

/-! ## Literals of the source, as binary64 values -/

/-- The literal `0.099999999999999995` of `should_be_fixed_output`: binary64 stores
`0x1.9999999999999p-4 = 7205759403792793 / 2 ^ 56`, the value just below the one it
stores for `0.1`. -/
def literal_0_099999999999999995 : ℚ := 7205759403792793 / 2 ^ 56

/-! ## Format specification -/

/-- The fields of `fmt::format_specs` the formatter reads or writes. -/
structure format_specs where
  /-- minimum field width -/
  width : ℤ
  /-- precision; negative when the directive gives none -/
  precision : ℤ
  /-- presentation type character -/
  type : Char
  /-- alternate form flag `#` -/
  alt : Bool
  deriving DecidableEq, Repr

/-- A default-constructed `fmt::format_specs`. -/
def default_specs : format_specs := ⟨0, -1, Char.ofNat 0, false⟩

/-- How a call can fail to produce a result in the model. -/
inductive Fault where
  /-- the recursion budget of the model ran out -/
  | out_of_fuel
  /-- an iterator was moved or dereferenced outside its string -/
  | out_of_bounds
  deriving DecidableEq, Repr

deriving instance DecidableEq for Except

/-! ## The library writer -/

namespace fmtlib

/-- Nearest natural number of a rational that is not negative, halfway cases to even. -/
def round_half_even (q : ℚ) : ℕ :=
  let f := ⌊q⌋.toNat
  let r := q - f
  if r < 1 / 2 then f else if 1 / 2 < r then f + 1 else if f % 2 = 0 then f else f + 1

/-- Decimal digits of `n`, with zeros in front up to `len` characters. -/
def zero_padded (len : ℕ) (n : ℕ) : List Char :=
  List.replicate (len - (Nat.toDigits 10 n).length) '0' ++ Nat.toDigits 10 n

/-- The decimal point, shown when there are fraction digits or the alternate form is
asked for. -/
def point (p : ℕ) (alt : Bool) : List Char := if 0 < p ∨ alt = true then ['.'] else []

/-- Unsigned fixed notation of a magnitude with `p` fraction digits. -/
def fixed_body (mag : ℚ) (p : ℕ) (alt : Bool) : List Char :=
  let ds := zero_padded (p + 1) (round_half_even (mag * 10 ^ p))
  ds.take (ds.length - p) ++ point p alt ++ ds.drop (ds.length - p)

/-- Decimal exponent `⌊log10 q⌋` of a positive rational. -/
def floor_log10 (q : ℚ) : ℤ :=
  if 1 ≤ q then ((Nat.toDigits 10 ⌊q⌋.toNat).length : ℤ) - 1
  else
    let k : ℤ := (Nat.toDigits 10 ⌊1 / q⌋.toNat).length - 1
    if 1 ≤ q * 10 ^ k then -k else -(k + 1)

/-- Unsigned exponential notation of a magnitude with `p` fraction digits: one digit,
the point, `p` digits, the exponent character, the exponent sign and at least two
exponent digits. -/
def exp_body (mag : ℚ) (p : ℕ) (alt : Bool) (e_char : Char) : List Char :=
  let e0 : ℤ := if mag = 0 then 0 else floor_log10 mag
  let n0 := round_half_even (mag / 10 ^ (e0 - p))
  let carry := decide (10 ^ (p + 1) ≤ n0)
  let n := if carry then n0 / 10 else n0
  let e := if carry then e0 + 1 else e0
  let ds := zero_padded (p + 1) n
  ds.take 1 ++ point p alt ++ ds.drop 1 ++
    [e_char, if e < 0 then '-' else '+'] ++ zero_padded 2 e.natAbs

/-- Right alignment in a field: spaces in front up to `width` characters. -/
def pad_left (width : ℤ) (s : List Char) : List Char :=
  List.replicate (width.toNat - s.length) ' ' ++ s

/-- The sign character of a value. -/
def sign_chars (v : Real64) : List Char := if v.neg then ['-'] else []

/-- The text of an infinity: upper case for the upper-case presentation types. -/
def infinity_body (type : Char) : List Char :=
  if type = 'F' ∨ type = 'E' then "INF".toList else "inf".toList

/-- Modelled from the spec: the library writer `fmt::internal::basic_writer::write`
for a `double` and a spec, which the repository calls but does not contain. It is the
"standard fixed-point notation" (types `F`, `f`) and "standard exponential notation"
(types `E`, `e`) of the spec: the exactly rounded decimal digits (halfway cases to
even), a `-` for a set sign bit, six fraction digits when the precision is absent,
right-aligned with spaces in the field width and never truncated. Other presentation
types are not modelled and give no characters. -/
def fmt_write (specs : format_specs) (value : Real64) : List Char :=
  let p : ℕ := if specs.precision < 0 then 6 else specs.precision.toNat
  if specs.type = 'F' ∨ specs.type = 'f' then
    pad_left specs.width (sign_chars value ++
      (if Real64.infinity_mag ≤ value.mag then infinity_body specs.type
        else fixed_body value.mag p specs.alt))
  else if specs.type = 'E' ∨ specs.type = 'e' then
    pad_left specs.width (sign_chars value ++
      (if Real64.infinity_mag ≤ value.mag then infinity_body specs.type
        else exp_body value.mag p specs.alt specs.type))
  else []

end fmtlib

namespace custom_arg_formatter

/-! ## The helpers of `custom_arg_formatter` -/

/-- Source `should_be_fixed_output`, lines 85-88. -/
def should_be_fixed_output (value : Real64) : Bool :=
  (decide (value.toRat ≥ literal_0_099999999999999995) ||
      decide (value.toRat ≤ -literal_0_099999999999999995)) ||
    decide (value.toRat = 0) || decide (value.toRat = -0)

/-- The expression `static_cast<int>(std::log10(std::abs(value)))`. -/
def log10_int (lib : math_library) (value : Real64) : ℤ :=
  (lib.log10 value.abs).trunc

/-- Source `fixed_will_fit`, lines 90-97. -/
def fixed_will_fit (lib : math_library) (value : Real64) (places : ℤ) : Bool :=
  if value.toRat < 1 ∧ value.toRat > -1 then true
  else decide (log10_int lib value < places)

/-- Source `write_to_string`, lines 99-118: the library writer run on a fresh string. -/
def write_to_string (bw : format_specs → Real64 → List Char) (value : Real64)
    (specs : format_specs) : List Char :=
  [] ++ bw specs value

/-- Source `write_string`, lines 120-126: the characters are appended one at a time,
untouched by any spec. -/
def write_string (out : List Char) (str : List Char) : List Char :=
  str.foldl (fun acc c => acc ++ [c]) out

/-- Lines 134-152: the spec as the fixed branch of `'T'` leaves it for the recursive
call. -/
def legacy_fixed_specs (lib : math_library) (specs : format_specs) (value : Real64) :
    format_specs :=
  let s : format_specs := { specs with type := 'F' }
  -- account for alignment with E formatted
  let s : format_specs := { s with width := s.width - 4 }
  let s : format_specs :=
    if value.toRat = 0 then { s with precision := s.precision - 1 }
    else if value.toRat < 1 ∧ value.toRat > -1 then s
    else
      let order_of_magnitude : ℤ := if value.toRat = 0 then 1 else log10_int lib value
      { s with precision := s.precision - (order_of_magnitude + 1) }
  if s.precision ≤ 0 then { s with width := s.width - 1, precision := 0 } else s

/-- Lines 180-184: the iterator arithmetic on the rendered string. `begin` is moved
`anchor` places from the start; the characters at `anchor` and `anchor + 1` are
exchanged, then those at `anchor + 2` and `anchor + 3`, and `'0'` is stored at
`anchor + 1`. Leaving the string is a fault. -/
def leading_zero_swap (str : List Char) (anchor : ℤ) : Except Fault (List Char) :=
  if 0 ≤ anchor ∧ anchor + 3 < str.length then
    let a := anchor.toNat
    let s1 := (str.set a (str.getD (a + 1) ' ')).set (a + 1) (str.getD a ' ')
    let s2 := (s1.set (a + 2) (s1.getD (a + 3) ' ')).set (a + 3) (s1.getD (a + 2) ' ')
    .ok (s2.set (a + 1) '0')
  else .error Fault.out_of_bounds

/-- The test `std::isdigit(c)` in the "C" locale. -/
def isdigit (c : Char) : Bool := decide ('0' ≤ c ∧ c ≤ '9')

/-- Lines 214-219: a `'0'` is inserted two characters before the end when the third
character from the end is not a digit. -/
def pad_exponent (str : List Char) : List Char :=
  if str.length > 3 then
    if !isdigit (str.getD (str.length - 3) ' ') then
      str.take (str.length - 2) ++ "0".toList ++ str.drop (str.length - 2)
    else str
  else str

/-- Lines 189-200: the value the `'R'` directive renders from, pushed up a tad. -/
def adjusted_value (lib : math_library) (value : Real64) (precision : ℤ) : Real64 :=
  let fixed_output := should_be_fixed_output value
  if value.toRat ≠ 0 then
    if fixed_output then value.add (lib.pow10 (-(precision + 10)))
    else value.nextafter_one
  else value

/-- Lines 203-204: `std::round(adjusted * magnitude) / magnitude`. -/
def rounded_value (lib : math_library) (adjusted : Real64) (precision : ℤ) : Real64 :=
  let magnitude := lib.pow10 precision
  ((adjusted.mul magnitude).round).div magnitude

/-! ## `custom_arg_formatter::operator()(Real64)` -/

/-- Source `operator()(Real64)`, lines 128-226, for a formatter that holds a spec.
The result is the text appended to the output and the spec as the call leaves it.
`fuel` bounds the depth of the recursion `(*this)(value)`. -/
def call_specs (lib : math_library) (bw : format_specs → Real64 → List Char) :
    ℕ → format_specs → Real64 → Except Fault (List Char × format_specs)
  | 0, _, _ => .error Fault.out_of_fuel
  | fuel + 1, specs, value =>
    if specs.type = 'T' then
      if should_be_fixed_output value && fixed_will_fit lib value (specs.width - 5) then
        let specs := legacy_fixed_specs lib specs value
        match call_specs lib bw fuel specs value with
        | .error e => .error e
        | .ok (out, specs) =>
          -- When precision hit 0, add . to match Fortran formatting
          let out := if specs.precision = 0 then write_string out ".".toList else out
          -- write the last 4 chars
          .ok (write_string out "    ".toList, specs)
      else
        let specs : format_specs := { specs with type := 'E' }
        -- 0 pad the end
        let specs : format_specs := { specs with alt := true }
        -- reduce the precision to get rounding behavior
        let specs : format_specs := { specs with precision := specs.precision - 1 }
        -- multiply by 10 to get the exponent we want
        let str := write_to_string bw (value.mul (Real64.ofNat 10)) specs
        match leading_zero_swap str (specs.width - (specs.precision + 8)) with
        | .error e => .error e
        | .ok str => .ok (write_string [] str, specs)
    else if specs.type = 'R' then
      let adjusted := adjusted_value lib value specs.precision
      if should_be_fixed_output value then
        let rounded := rounded_value lib adjusted specs.precision
        let specs : format_specs := { specs with type := 'F' }
        call_specs lib bw fuel specs rounded
      else
        let specs : format_specs := { specs with type := 'E' }
        let str := write_to_string bw adjusted specs
        .ok (write_string [] (pad_exponent str), specs)
    else .ok (bw specs value, specs)

/-- Source `operator()(Real64)`, lines 128-226: without a spec the call goes straight
to `arg_formatter::operator()`, which writes with default specs. -/
def call (lib : math_library) (bw : format_specs → Real64 → List Char) (fuel : ℕ) :
    Option format_specs → Real64 → Except Fault (List Char × Option format_specs)
  | none, value => .ok (bw default_specs value, none)
  | some specs, value =>
    match call_specs lib bw fuel specs value with
    | .error e => .error e
    | .ok (out, specs) => .ok (out, some specs)

end custom_arg_formatter

/-! ## `vprint` -/

/-- A thrown `fmt::format_error`: the text of `what()` and, when the exception was
thrown with a nested one (`std::throw_with_nested`), the text of that cause. -/
structure format_error where
  /-- the message `what()` -/
  what : List Char
  /-- the message of the nested exception, if there is one -/
  nested : Option (List Char)
  deriving DecidableEq, Repr

/-- Outcome of the library's template pass `fmt::vformat_to<custom_arg_formatter>` on a
buffer that starts empty: the characters in the buffer when the pass returned or threw,
and the `fmt::format_error` it threw, if any. -/
structure pass_result where
  /-- content of the `fmt::memory_buffer` -/
  buffer : List Char
  /-- the exception that left the pass -/
  thrown : Option format_error
  deriving DecidableEq, Repr

/-- The text `fmt::format("Error with format, '{}', passed {} args", format_str, count)`. -/
def error_message (format_str : List Char) (count : ℕ) : List Char :=
  "Error with format, '".toList ++ format_str ++ "', passed ".toList ++
    Nat.toDigits 10 count ++ " args".toList

/-- Source `vprint(std::ostream &, ...)`, lines 229-239. The template pass is the
parameter `vformat_to`. The result is the content of the stream `os` after the call and
the exception that left the call, if any. -/
def vprint_stream {Args : Type} (vformat_to : List Char → Args → pass_result)
    (os : List Char) (format_str : List Char) (args : Args) (count : ℕ) :
    List Char × Option format_error :=
  let pass := vformat_to format_str args
  match pass.thrown with
  | some _ => (os, some ⟨error_message format_str count, none⟩)
  | none => (os ++ pass.buffer, none)

/-- Source `vprint(fmt::string_view, ...)`, lines 241-251: the string overload. -/
def vprint_string {Args : Type} (vformat_to : List Char → Args → pass_result)
    (format_str : List Char) (args : Args) (count : ℕ) : Except format_error (List Char) :=
  let pass := vformat_to format_str args
  match pass.thrown with
  | some _ => .error ⟨error_message format_str count, none⟩
  | none => .ok pass.buffer

/-! ## Concrete values used in the examples -/

/-- The value `+0.0`. -/
def positive_zero : Real64 := ⟨false, 0, le_refl 0⟩

/-- The value `-0.0`. -/
def negative_zero : Real64 := ⟨true, 0, le_refl 0⟩

/-- The binary64 value of the literal `123.456`, `0x1.edd2f1a9fbe77p+6`. -/
def value_123_456 : Real64 := ⟨false, 8687443681197687 / 2 ^ 46, by positivity⟩

/-- The binary64 value of the literal `3.14159`, `0x1.921f9f01b866ep+1`. -/
def value_3_14159 : Real64 := ⟨false, 3537115888337719 / 2 ^ 50, by positivity⟩

/-- The binary64 value `0x1.9999999999999p-4`, the largest one below `0.1`. -/
def value_below_tenth : Real64 := ⟨false, 7205759403792793 / 2 ^ 56, by positivity⟩

/-- The binary64 value `1.5`. -/
def value_one_and_half : Real64 := ⟨false, 3 / 2, by norm_num⟩

/-- The binary64 value `2 ^ -400`, about `3.87e-121`. -/
def value_two_pow_minus_400 : Real64 := ⟨false, 1 / 2 ^ 400, by positivity⟩

/-- The binary64 value `0.125 - 2 ^ -45 = 0.12499999999997158`. -/
def value_below_eighth : Real64 := ⟨false, 1 / 8 - 1 / 2 ^ 45, by norm_num⟩

/-- The binary64 value `0.125`. -/
def value_eighth : Real64 := ⟨false, 1 / 8, by norm_num⟩

/-- The binary64 value `0.03125`. -/
def value_thirty_second : Real64 := ⟨false, 1 / 32, by norm_num⟩

/-- The binary64 value `123456789.0`. -/
def value_123456789 : Real64 := ⟨false, 123456789, by norm_num⟩

/-- The binary64 value `123.0`. -/
def value_123 : Real64 := ⟨false, 123, by norm_num⟩

/-- The binary64 value `-20000.125`. -/
def value_minus_20000_125 : Real64 := ⟨true, 160001 / 8, by norm_num⟩

/-- The spec of the directive `{:#10.2T}`, with the alternate-form flag. -/
def specs_T_alt_10_2 : format_specs := ⟨10, 2, 'T', true⟩

/-- The spec of the directive `{:10.2T}`. -/
def specs_T_10_2 : format_specs := ⟨10, 2, 'T', false⟩

/-- The spec of the directive `{:10.8T}`. -/
def specs_T_10_8 : format_specs := ⟨10, 8, 'T', false⟩

/-- The spec of the directive `{:8.3f}`. -/
def specs_f_8_3 : format_specs := ⟨8, 3, 'f', false⟩

/-- A template pass that wrote `x = ` and then threw "argument index out of range". -/
def pass_index_error (_ : List Char) (_ : Unit) : pass_result :=
  ⟨"x = ".toList, some ⟨"argument index out of range".toList, none⟩⟩

/-- A template pass that wrote nothing and threw "invalid type specifier". -/
def pass_type_error (_ : List Char) (_ : Unit) : pass_result :=
  ⟨[], some ⟨"invalid type specifier".toList, none⟩⟩

/-- A template pass that succeeded and wrote ` 0.000    `. -/
def pass_success (_ : List Char) (_ : Unit) : pass_result :=
  ⟨" 0.000    ".toList, none⟩

/-- The template text `{:10.4T}`. -/
def template_T_10_4 : List Char := "\x7b:10.4T\x7d".toList

/-- The spec of the directive `{:10.4T}`. -/
def specs_T_10_4 : format_specs := ⟨10, 4, 'T', false⟩

/-- The spec of the directive `{:14.6T}`. -/
def specs_T_14_6 : format_specs := ⟨14, 6, 'T', false⟩

/-- The spec of the directive `{:.2R}`. -/
def specs_R_2 : format_specs := ⟨0, 2, 'R', false⟩

/-- The spec of the directive `{:.3R}`. -/
def specs_R_3 : format_specs := ⟨0, 3, 'R', false⟩

/-- The spec of the directive `{:10.4R}`. -/
def specs_R_10_4 : format_specs := ⟨10, 4, 'R', false⟩

/-- The spec of the directive `{:10.2R}`. -/
def specs_R_10_2 : format_specs := ⟨10, 2, 'R', false⟩

/-- The largest binary64 value below `10^6`, `999999.9999999999`. -/
def value_below_million : Real64 := ⟨false, 10 ^ 6 - 1 / 2 ^ 33, by norm_num⟩

/-- The largest binary64 value below `10^3`, `999.9999999999999`. -/
def value_below_thousand : Real64 := ⟨false, 10 ^ 3 - 1 / 2 ^ 43, by norm_num⟩

/-- The spec of the directive `{:11.4T}`. -/
def specs_T_11_4 : format_specs := ⟨11, 4, 'T', false⟩

/-- The binary64 value `-0.125`. -/
def value_minus_eighth : Real64 := ⟨true, 1 / 8, by norm_num⟩

/-- The spec of the directive `{:14.6R}`. -/
def specs_R_14_6 : format_specs := ⟨14, 6, 'R', false⟩

/-- The binary64 value `0.0123456`. -/
def value_0_0123456 : Real64 := ⟨false, 7116753863637145 / 2 ^ 59, by positivity⟩

/-- The spec of the directive `{:12.0T}`. -/
def specs_T_12_0 : format_specs := ⟨12, 0, 'T', false⟩

/-- The spec of the directive `{:12.4T}`. -/
def specs_T_12_4 : format_specs := ⟨12, 4, 'T', false⟩

/-- The binary64 value `35224.585` (stored as `35224.58499999999912688508629798889160...`). -/
def value_35224_585 : Real64 := ⟨false, 4841230098885509 / 2 ^ 37, by positivity⟩

/-- The binary64 value `100000000000000.125`. -/
def value_1e14_eighth : Real64 := ⟨false, 10 ^ 14 + 1 / 8, by positivity⟩

/-! ## The specification's notions -/

/-- "Fixed fits" in the words of the specification: the magnitude is below `1.0`, or
`floor(log10(|value|))` is below the requested width minus the overhead of `5`. -/
def spec_fixed_fits (v : Real64) (W : ℤ) : Prop :=
  |v.toRat| < 1 ∨ ⌊Real.logb 10 |(v.toRat : ℝ)|⌋ < W - 5

/-- The precision decrement `k` in the words of the specification: `1` for a zero,
`0` for a magnitude strictly between `0` and `1`, and `floor(log10(|value|)) + 1`, the
integer-digit count, otherwise. -/
def spec_precision_decrement (v : Real64) (k : ℤ) : Prop :=
  (v.toRat = 0 ∧ k = 1) ∨ (v.toRat ≠ 0 ∧ |v.toRat| < 1 ∧ k = 0) ∨
    (1 ≤ |v.toRat| ∧ k = ⌊Real.logb 10 |(v.toRat : ℝ)|⌋ + 1)

/-- Rounding to `P` decimal places by standard round-half-up, in the words of the
specification: `floor(v * 10^P + 1/2) / 10^P`. -/
def spec_round_half_up (v : Real64) (P : ℤ) : ℚ :=
  (⌊v.toRat * (10 : ℚ) ^ P + 1 / 2⌋ : ℚ) / (10 : ℚ) ^ P

/-- The exponent field of a token: the digits it ends with (those after the exponent
character and its sign). -/
def exponent_digits (token : List Char) : List Char :=
  (token.reverse.takeWhile custom_arg_formatter.isdigit).reverse

/-- The digit sequence of a token: its digits in order, everything else left out. -/
def digit_sequence (token : List Char) : List Char :=
  token.filter custom_arg_formatter.isdigit

/-- The library writer pads, and never truncates: a fixed rendering has the length of
its unpadded form or the field width, whichever is larger. -/
def pads_to_width (bw : format_specs → Real64 → List Char) : Prop :=
  ∀ (specs : format_specs) (v : Real64), specs.type = 'F' →
    (bw specs v).length = max specs.width.toNat (bw { specs with width := 0 } v).length

/-- The fit test as the program computes it: the magnitude is below `1.0`, or the
integer part of the library's binary64 `log10(|value|)` is below the requested width
minus the overhead of `5`. -/
def fixed_fits_binary64 (lib : math_library) (v : Real64) (W : ℤ) : Prop :=
  |v.toRat| < 1 ∨ (lib.log10 v.abs).trunc < W - 5

/-- The precision decrement `k` as the program computes it: `1` for a zero, `0` for a
magnitude strictly between `0` and `1`, and the integer part of the library's binary64
`log10(|value|)`, plus one, otherwise. -/
def binary64_precision_decrement (lib : math_library) (v : Real64) (k : ℤ) : Prop :=
  (v.toRat = 0 ∧ k = 1) ∨ (v.toRat ≠ 0 ∧ |v.toRat| < 1 ∧ k = 0) ∨
    (1 ≤ |v.toRat| ∧ k = (lib.log10 v.abs).trunc + 1)

/-- The library's binary64 logarithm of `|value|` has the integer part of the real
logarithm: its rounding has not carried it up to the next integer. -/
def log10_floor_exact (lib : math_library) (v : Real64) : Prop :=
  ⌊(lib.log10 v.abs).toRat⌋ = ⌊Real.logb 10 |(v.toRat : ℝ)|⌋

/-- The binary64 value nearest to the rational `q`, with sign flag `s`. -/
def nearest_binary64 (s : Bool) (q : ℚ) : Real64 :=
  Real64.mk_abs s (Real64.to_binary64 |q|)

/-- The nudge of the `'R'` directive, the library's `10^-(P+10)`, scaled by `10^P`. -/
def scaled_nudge (lib : math_library) (P : ℤ) : ℚ :=
  (lib.pow10 (-(P + 10))).toRat * (10 : ℚ) ^ P

/-- A bound on the distance the two binary64 roundings of the fixed path of the `'R'`
directive can move the product `(v + 10^-(P+10)) * 10^P`: half the spacing of binary64
values at the sum, scaled by `10^P`, plus half the spacing at the largest magnitude the
product of the rounded sum can have. -/
def rounding_slack (lib : math_library) (v : Real64) (P : ℤ) : ℚ :=
  let s := |v.toRat + (lib.pow10 (-(P + 10))).toRat|
  let u := Real64.ulp_above s / 2
  u * (10 : ℚ) ^ P + Real64.ulp_above ((s + u) * (10 : ℚ) ^ P) / 2

/-- A bound on the magnitude of the rounded product `(v + 10^-(P+10)) * 10^P` and of the
integer `std::round` makes of it. -/
def product_bound (lib : math_library) (v : Real64) (P : ℤ) : ℚ :=
  let s := |v.toRat + (lib.pow10 (-(P + 10))).toRat|
  let u := Real64.ulp_above s / 2
  (s + u) * (10 : ℚ) ^ P + Real64.ulp_above ((s + u) * (10 : ℚ) ^ P) / 2 + 1 / 2

/-- The conditions under which the scaling by `10^P` on the fixed path of the `'R'`
directive can be followed in exact arithmetic: `0 ≤ P ≤ 22` and the library computes
`10^P`, a binary64 value, exactly; the nudge is positive and below `|v|`; `v` is finite
and the product cannot overflow. -/
def scaling_conditions (lib : math_library) (v : Real64) (P : ℤ) : Prop :=
  0 ≤ P ∧ P ≤ 22 ∧ (lib.pow10 P).neg = false ∧ (lib.pow10 P).mag = (10 : ℚ) ^ P ∧
    0 < (lib.pow10 (-(P + 10))).toRat ∧ (lib.pow10 (-(P + 10))).toRat < v.mag ∧
    v.mag < Real64.infinity_mag ∧ product_bound lib v P < Real64.infinity_mag

/-- The conditions under which the nudge and the two binary64 roundings of the fixed
path of the `'R'` directive leave round-half-up of `v * 10^P` as it is: the scaling
conditions, and the fractional part `f` of `v * 10^P + 1/2` has `f + nudge * 10^P` above
the rounding slack and `f + nudge * 10^P + slack` below `1` (`v * 10^P` is not within
the nudge and the slack below a halfway point, nor within the slack above one). -/
def half_up_conditions (lib : math_library) (v : Real64) (P : ℤ) : Prop :=
  scaling_conditions lib v P ∧
    rounding_slack lib v P <
      Int.fract (v.toRat * (10 : ℚ) ^ P + 1 / 2) + scaled_nudge lib P ∧
    Int.fract (v.toRat * (10 : ℚ) ^ P + 1 / 2) + scaled_nudge lib P +
      rounding_slack lib v P < 1

/-- The conditions under which the nudge of the `'R'` directive survives the two
binary64 roundings of its fixed path: the scaling conditions, and the nudge scaled by
`10^P` exceeds the rounding slack and, together with the slack, stays below `1`. -/
def nudge_survives (lib : math_library) (v : Real64) (P : ℤ) : Prop :=
  scaling_conditions lib v P ∧ rounding_slack lib v P < scaled_nudge lib P ∧
    scaled_nudge lib P + rounding_slack lib v P < 1

/-- The character with a minus sign replaced by a space. -/
def blank_minus (c : Char) : Char := if c = '-' then ' ' else c

/-! ## Basic facts about values -/

namespace Real64

theorem abs_toRat (v : Real64) : |v.toRat| = v.mag := by
  unfold toRat
  split
  · rw [abs_neg, abs_of_nonneg v.mag_nonneg]
  · exact abs_of_nonneg v.mag_nonneg

theorem toRat_eq_zero_iff (v : Real64) : v.toRat = 0 ↔ v.mag = 0 := by
  rw [← abs_eq_zero, abs_toRat]

theorem toRat_negate (v : Real64) : v.negate.toRat = -v.toRat := by
  unfold toRat negate
  cases v.neg <;> simp

theorem mag_negate (v : Real64) : v.negate.mag = v.mag := rfl

theorem toRat_lt_one_iff (v : Real64) : (v.toRat < 1 ∧ v.toRat > -1) ↔ v.mag < 1 := by
  rw [← abs_toRat, abs_lt]
  constructor
  · rintro ⟨h1, h2⟩; exact ⟨h2, h1⟩
  · rintro ⟨h1, h2⟩; exact ⟨h2, h1⟩

end Real64

/-- The stored literal is the binary64 value nearest to the decimal
`0.099999999999999995`: no multiple of `2 ^ -56`, the spacing of binary64 values
between `1/16` and `1/8`, is nearer. -/
theorem literal_0_099999999999999995_nearest (k : ℤ) :
    |literal_0_099999999999999995 - 19999999999999999 / 200000000000000000| ≤
      |(k : ℚ) / 2 ^ 56 - 19999999999999999 / 200000000000000000| := by
  unfold literal_0_099999999999999995
  rw [abs_of_nonpos (by norm_num)]
  rcases le_or_lt k 7205759403792793 with h | h
  · have hk : (k : ℚ) ≤ 7205759403792793 := by exact_mod_cast h
    have h1 : (k : ℚ) / 2 ^ 56 ≤ 7205759403792793 / 2 ^ 56 :=
      div_le_div_of_nonneg_right hk (by positivity)
    rw [abs_of_nonpos (by linarith [show (7205759403792793 : ℚ) / 2 ^ 56 -
      19999999999999999 / 200000000000000000 ≤ 0 by norm_num])]
    linarith
  · have hk : (7205759403792794 : ℚ) ≤ k := by exact_mod_cast h
    have h1 : (7205759403792794 : ℚ) / 2 ^ 56 ≤ (k : ℚ) / 2 ^ 56 :=
      div_le_div_of_nonneg_right hk (by positivity)
    have h2 : (0 : ℚ) ≤ 7205759403792794 / 2 ^ 56 - 19999999999999999 / 200000000000000000 := by
      norm_num
    rw [abs_of_nonneg (by linarith)]
    have h3 : -((7205759403792793 : ℚ) / 2 ^ 56 - 19999999999999999 / 200000000000000000) ≤
        7205759403792794 / 2 ^ 56 - 19999999999999999 / 200000000000000000 := by norm_num
    linarith

namespace custom_arg_formatter

/-! ## Eligibility -/

theorem should_be_fixed_output_eq (v : Real64) :
    should_be_fixed_output v = true ↔ literal_0_099999999999999995 ≤ v.mag ∨ v.mag = 0 := by
  have hlit : (0 : ℚ) < literal_0_099999999999999995 := by
    unfold literal_0_099999999999999995; positivity
  have hm := v.mag_nonneg
  unfold should_be_fixed_output
  simp only [Bool.or_eq_true, decide_eq_true_eq, ge_iff_le, neg_zero]
  unfold Real64.toRat
  cases v.neg
  · simp only [Bool.false_eq_true, if_false]
    constructor
    · rintro (((h | h) | h) | h)
      · exact Or.inl h
      · exact Or.inr (by linarith)
      · exact Or.inr h
      · exact Or.inr h
    · rintro (h | h)
      · exact Or.inl (Or.inl (Or.inl h))
      · exact Or.inr h
  · simp only [if_true]
    constructor
    · rintro (((h | h) | h) | h)
      · exact Or.inr (by linarith)
      · exact Or.inl (by linarith)
      · exact Or.inr (by linarith)
      · exact Or.inr (by linarith)
    · rintro (h | h)
      · exact Or.inl (Or.inl (Or.inr (by linarith)))
      · exact Or.inr (by linarith)

/-- C3 (amended). A value is eligible for fixed notation exactly when its magnitude is
at least the binary64 value of the literal `0.099999999999999995`, which is
`7205759403792793 / 2 ^ 56` and lies below `0.1`, or the value is a zero of either
sign. -/
theorem should_be_fixed_output_iff (v : Real64) :
    should_be_fixed_output v = true ↔
      |v.toRat| ≥ 7205759403792793 / 2 ^ 56 ∨ v.toRat = 0 := by
  rw [should_be_fixed_output_eq, Real64.abs_toRat, Real64.toRat_eq_zero_iff]
  rfl

/-- C3 (counterexample). The binary64 value `0x1.9999999999999p-4` is eligible for
fixed notation although its magnitude is below `0.1` and it is not zero. -/
theorem should_be_fixed_output_below_tenth :
    value_below_tenth.IsBinary64 ∧
      ¬ (should_be_fixed_output value_below_tenth = true ↔
          (|value_below_tenth.toRat| ≥ 1 / 10 ∨ value_below_tenth.toRat = 0)) := by
  refine ⟨⟨7205759403792793, -56, by norm_num, by norm_num, by norm_num, ?_⟩, ?_⟩
  · show (7205759403792793 : ℚ) / 2 ^ 56 = _
    norm_num [zpow_neg]
  · intro h
    have h1 : should_be_fixed_output value_below_tenth = true := by decide!
    rcases h.mp h1 with h2 | h2
    · rw [Real64.abs_toRat] at h2
      have : value_below_tenth.mag = 7205759403792793 / 2 ^ 56 := rfl
      rw [this] at h2
      norm_num at h2
    · rw [Real64.toRat_eq_zero_iff] at h2
      have : value_below_tenth.mag = 7205759403792793 / 2 ^ 56 := rfl
      rw [this] at h2
      norm_num at h2

/-! ## The decimal order of magnitude -/

theorem trunc_eq_floor (x : Real64) (h : 0 ≤ x.toRat) : x.trunc = ⌊x.toRat⌋ := by
  unfold Real64.trunc
  unfold Real64.toRat at h ⊢
  cases hs : x.neg
  · simp
  · simp only [hs, if_true] at h ⊢
    have hz : x.mag = 0 := le_antisymm (by linarith) x.mag_nonneg
    simp [hz]

theorem abs_cast_toRat (v : Real64) : |(v.toRat : ℝ)| = ((v.mag : ℚ) : ℝ) := by
  rw [← Rat.cast_abs, Real64.abs_toRat]

/-- The floor of the decimal logarithm of a rational that lies between two consecutive
powers of ten. -/
theorem floor_logb_eq (q : ℚ) (k : ℕ) (h1 : (10 : ℚ) ^ k ≤ q) (h2 : q < (10 : ℚ) ^ (k + 1)) :
    ⌊Real.logb 10 (q : ℝ)⌋ = k := by
  have hq0 : (0 : ℚ) < q := lt_of_lt_of_le (by positivity) h1
  have hq : (0 : ℝ) < (q : ℝ) := by exact_mod_cast hq0
  have h1r : (10 : ℝ) ^ k ≤ (q : ℝ) := by exact_mod_cast h1
  have h2r : (q : ℝ) < (10 : ℝ) ^ (k + 1) := by exact_mod_cast h2
  rw [Int.floor_eq_iff]
  constructor
  · rw [Real.le_logb_iff_rpow_le (by norm_num) hq]
    have : (10 : ℝ) ^ (((k : ℤ) : ℝ)) = (10 : ℝ) ^ k := by
      rw [Int.cast_natCast, Real.rpow_natCast]
    rw [this]; exact h1r
  · rw [Real.logb_lt_iff_lt_rpow (by norm_num) hq]
    have : (10 : ℝ) ^ (((k : ℤ) : ℝ) + 1) = (10 : ℝ) ^ (k + 1) := by
      rw [Int.cast_natCast, ← Nat.cast_add_one, Real.rpow_natCast]
    rw [this]; exact h2r

/-- Where the library's logarithm has the integer part of the real one, the truncated
logarithm of the source is the floor of the real decimal logarithm. -/
theorem log10_int_eq_floor_logb (lib : math_library) (v : Real64) (h : 1 ≤ v.mag)
    (hex : log10_floor_exact lib v) :
    log10_int lib v = ⌊Real.logb 10 |(v.toRat : ℝ)|⌋ := by
  have h1 : (1 : ℝ) ≤ |(v.toRat : ℝ)| := by
    rw [abs_cast_toRat]; exact_mod_cast h
  have hlog : 0 ≤ Real.logb 10 |(v.toRat : ℝ)| := Real.logb_nonneg (by norm_num) h1
  have hfl : 0 ≤ ⌊(lib.log10 v.abs).toRat⌋ := by
    rw [hex]; exact Int.floor_nonneg.mpr hlog
  unfold log10_int
  rw [trunc_eq_floor _ (Int.floor_nonneg.mp hfl)]
  exact hex

/-- The test of `fixed_will_fit`, unfolded. -/
theorem fixed_will_fit_iff (lib : math_library) (v : Real64) (places : ℤ) :
    fixed_will_fit lib v places = true ↔ |v.toRat| < 1 ∨ log10_int lib v < places := by
  unfold fixed_will_fit
  simp only [Real64.toRat_lt_one_iff, Real64.abs_toRat]
  by_cases h : v.mag < 1
  · simp [h]
  · rw [if_neg h, decide_eq_true_eq]
    constructor
    · exact fun hlt => Or.inr hlt
    · rintro (hlt | hlt)
      · exact absurd hlt h
      · exact hlt

/-- The fit test of the program is the fit test of the specification where the
library's logarithm has the integer part of the real one. -/
theorem fixed_fits_binary64_iff_spec (lib : math_library) (v : Real64) (W : ℤ)
    (hex : log10_floor_exact lib v) :
    fixed_fits_binary64 lib v W ↔ spec_fixed_fits v W := by
  unfold fixed_fits_binary64 spec_fixed_fits
  by_cases h : |v.toRat| < 1
  · simp [h]
  · have h1 : 1 ≤ v.mag := by rw [← Real64.abs_toRat]; exact not_lt.mp h
    have := log10_int_eq_floor_logb lib v h1 hex
    unfold log10_int at this
    rw [this]

/-- The precision decrement of the program is that of the specification where the
library's logarithm has the integer part of the real one. -/
theorem binary64_precision_decrement_iff_spec (lib : math_library) (v : Real64) (k : ℤ)
    (hex : log10_floor_exact lib v) :
    binary64_precision_decrement lib v k ↔ spec_precision_decrement v k := by
  unfold binary64_precision_decrement spec_precision_decrement
  by_cases h : 1 ≤ |v.toRat|
  · have h1 : 1 ≤ v.mag := by rw [← Real64.abs_toRat]; exact h
    have := log10_int_eq_floor_logb lib v h1 hex
    unfold log10_int at this
    rw [this]
  · simp [h]

/-! ## Unfolding `operator()` -/

theorem write_string_eq (out str : List Char) : write_string out str = out ++ str := by
  unfold write_string
  induction str generalizing out with
  | nil => simp
  | cons c cs ih => simp [List.foldl_cons, ih]

theorem legacy_fixed_specs_type (lib : math_library) (specs : format_specs) (v : Real64) :
    (legacy_fixed_specs lib specs v).type = 'F' := by
  unfold legacy_fixed_specs
  simp only
  split_ifs <;> rfl

theorem legacy_fixed_specs_alt (lib : math_library) (specs : format_specs) (v : Real64) :
    (legacy_fixed_specs lib specs v).alt = specs.alt := by
  unfold legacy_fixed_specs
  simp only
  split_ifs <;> rfl

/-- A spec whose type is neither `'T'` nor `'R'` goes to the library writer as it is. -/
theorem call_specs_standard (lib : math_library) (bw : format_specs → Real64 → List Char)
    (fuel : ℕ) (specs : format_specs) (v : Real64) (hT : specs.type ≠ 'T') (hR : specs.type ≠ 'R') :
    call_specs lib bw (fuel + 1) specs v = .ok (bw specs v, specs) := by
  simp [call_specs, hT, hR]

/-- The fixed branch of the `'T'` directive. -/
theorem call_specs_legacy_fixed (lib : math_library) (bw : format_specs → Real64 → List Char)
    (fuel : ℕ) (specs : format_specs) (v : Real64) (hT : specs.type = 'T')
    (hfix : (should_be_fixed_output v && fixed_will_fit lib v (specs.width - 5)) = true) :
    call_specs lib bw (fuel + 2) specs v =
      .ok (bw (legacy_fixed_specs lib specs v) v ++
            (if (legacy_fixed_specs lib specs v).precision = 0 then ".".toList else []) ++
            "    ".toList,
          legacy_fixed_specs lib specs v) := by
  have hstd := call_specs_standard lib bw fuel (legacy_fixed_specs lib specs v) v
    (by rw [legacy_fixed_specs_type]; decide) (by rw [legacy_fixed_specs_type]; decide)
  rw [call_specs]
  simp only [hT, hfix, if_true, hstd, write_string_eq]
  split_ifs <;> simp

/-- The exponential branch of the `'T'` directive. -/
theorem call_specs_legacy_exponential (lib : math_library) (bw : format_specs → Real64 → List Char)
    (fuel : ℕ) (specs : format_specs) (v : Real64) (hT : specs.type = 'T')
    (hexp : (should_be_fixed_output v && fixed_will_fit lib v (specs.width - 5)) = false) :
    call_specs lib bw (fuel + 1) specs v =
      (leading_zero_swap
          (bw { specs with type := 'E', alt := true, precision := specs.precision - 1 }
            (v.mul (Real64.ofNat 10)))
          (specs.width - (specs.precision - 1 + 8))).map
        (fun str => (str, { specs with type := 'E', alt := true,
                                        precision := specs.precision - 1 })) := by
  rw [call_specs]
  simp only [hT, hexp, if_true, write_string_eq, write_to_string, List.nil_append]
  cases leading_zero_swap _ _ <;> rfl

/-- The fixed branch of the `'R'` directive. -/
theorem call_specs_rounding_fixed (lib : math_library) (bw : format_specs → Real64 → List Char)
    (fuel : ℕ) (specs : format_specs) (v : Real64) (hR : specs.type = 'R')
    (hfix : should_be_fixed_output v = true) :
    call_specs lib bw (fuel + 2) specs v =
      .ok (bw { specs with type := 'F' }
            (rounded_value lib (adjusted_value lib v specs.precision) specs.precision),
          { specs with type := 'F' }) := by
  have hT : specs.type ≠ 'T' := by rw [hR]; decide
  rw [call_specs]
  simp only [hT, hR, hfix, if_true, if_false]
  exact call_specs_standard lib bw fuel { specs with type := 'F' } _
    (show 'F' ≠ 'T' by decide) (show 'F' ≠ 'R' by decide)

/-- The exponential branch of the `'R'` directive. -/
theorem call_specs_rounding_exponential (lib : math_library) (bw : format_specs → Real64 → List Char)
    (fuel : ℕ) (specs : format_specs) (v : Real64) (hR : specs.type = 'R')
    (hexp : should_be_fixed_output v = false) :
    call_specs lib bw (fuel + 1) specs v =
      .ok (pad_exponent (bw { specs with type := 'E' } (adjusted_value lib v specs.precision)),
          { specs with type := 'E' }) := by
  have hT : specs.type ≠ 'T' := by rw [hR]; decide
  rw [call_specs]
  simp [hT, hR, hexp, write_string_eq, write_to_string]

/-! ## The adjusted spec of the fixed branch -/

theorem legacy_fixed_specs_width (lib : math_library) (specs : format_specs) (v : Real64) :
    (legacy_fixed_specs lib specs v).width =
      if (legacy_fixed_specs lib specs v).precision = 0 then specs.width - 5
      else specs.width - 4 := by
  unfold legacy_fixed_specs
  simp only
  split_ifs <;> simp_all <;> omega

theorem legacy_fixed_specs_eq (lib : math_library) (specs : format_specs) (v : Real64) (k : ℤ)
    (hk : binary64_precision_decrement lib v k) :
    legacy_fixed_specs lib specs v =
      ⟨if specs.precision - k > 0 then specs.width - 4 else specs.width - 5,
        max 0 (specs.precision - k), 'F', specs.alt⟩ := by
  have hord : legacy_fixed_specs lib specs v =
      (if specs.precision - k ≤ 0 then
        ⟨specs.width - 4 - 1, 0, 'F', specs.alt⟩
      else ⟨specs.width - 4, specs.precision - k, 'F', specs.alt⟩ : format_specs) := by
    unfold legacy_fixed_specs
    rcases hk with ⟨h0, rfl⟩ | ⟨h0, h1, rfl⟩ | ⟨h1, rfl⟩
    · simp only [h0, if_true]
    · have hlt := (Real64.toRat_lt_one_iff v).mpr (by rw [← Real64.abs_toRat]; exact h1)
      simp only [h0, if_false, hlt, and_self, if_true, sub_zero]
    · have hmag : 1 ≤ v.mag := by rw [← Real64.abs_toRat]; exact h1
      have h0 : v.toRat ≠ 0 := by
        intro h; rw [Real64.toRat_eq_zero_iff] at h; rw [h] at hmag; norm_num at hmag
      have hlt : ¬ (v.toRat < 1 ∧ v.toRat > -1) := by
        rw [Real64.toRat_lt_one_iff]; exact not_lt.mpr hmag
      simp only [h0, if_false, hlt, log10_int]
  rw [hord]
  by_cases h : specs.precision - k ≤ 0
  · rw [if_pos h, if_neg (by omega), max_eq_left h]
    congr 1
    omega
  · rw [if_neg h, if_pos (by omega), max_eq_right (by omega)]

theorem fmt_write_pads_to_width : pads_to_width fmtlib.fmt_write := by
  intro specs v hF
  unfold fmtlib.fmt_write
  simp only [hF, true_or, if_true, fmtlib.pad_left, List.length_append, List.length_replicate,
    Int.toNat_zero, Nat.zero_sub, zero_add]
  omega

/-! ## Claims about the `'T'` directive -/

/-- C1 (amended). Whenever the legacy-G directive takes the fixed path and the unpadded
standard fixed-point rendering at the adjusted precision is no longer than the working
width (for a library writer that pads and never truncates), the call returns a token
whose length is the original requested width. -/
theorem legacy_fixed_width (lib : math_library) (bw : format_specs → Real64 → List Char)
    (fuel : ℕ) (specs : format_specs) (v : Real64) (hT : specs.type = 'T')
    (hfix : (should_be_fixed_output v && fixed_will_fit lib v (specs.width - 5)) = true)
    (hpad : pads_to_width bw)
    (hroom : ((bw { legacy_fixed_specs lib specs v with width := 0 } v).length : ℤ) ≤
      (legacy_fixed_specs lib specs v).width) :
    ∃ out s, call_specs lib bw (fuel + 2) specs v = .ok (out, s) ∧
      (out.length : ℤ) = specs.width := by
  refine ⟨_, _, call_specs_legacy_fixed lib bw fuel specs v hT hfix, ?_⟩
  have hlen := hpad (legacy_fixed_specs lib specs v) v (legacy_fixed_specs_type lib specs v)
  have hw := legacy_fixed_specs_width lib specs v
  dsimp only at hroom hlen
  simp only [List.length_append, hlen]
  split_ifs at hw ⊢ with h0 <;> simp <;> omega

/-- C1 (witness). `0.0` at width 10 and precision 4: the unpadded `0.000` has five
characters, the working width is six, and the token has ten. -/
theorem legacy_fixed_width_witness :
    ∃ out s,
      call_specs libm fmtlib.fmt_write 2 ⟨10, 4, 'T', false⟩ positive_zero = .ok (out, s) ∧
      (out.length : ℤ) = 10 :=
  legacy_fixed_width libm fmtlib.fmt_write 0 ⟨10, 4, 'T', false⟩ positive_zero rfl (by decide!)
    fmt_write_pads_to_width (by decide!)

/-- C1 (counterexample). `1.5` at width 10 and precision 8 takes the fixed path; the
adjusted precision is 7 and the working width 6, the standard rendering `1.5000000` has
nine characters, and the token, that rendering followed by four spaces, has thirteen
characters, not ten. -/
theorem legacy_fixed_width_overflow :
    (should_be_fixed_output value_one_and_half &&
        fixed_will_fit libm value_one_and_half ((10 : ℤ) - 5)) = true ∧
      call_specs libm fmtlib.fmt_write 2 ⟨10, 8, 'T', false⟩ value_one_and_half =
        .ok ("1.5000000    ".toList, ⟨6, 7, 'F', false⟩) ∧
      ("1.5000000    ".toList).length = 13 := by
  decide!

/-- At `123.456` the modelled library's logarithm, about `2.0915`, has the integer part
of the real one. -/
theorem log10_floor_exact_123_456 : log10_floor_exact libm value_123_456 := by
  have hr : ⌊Real.logb 10 |(value_123_456.toRat : ℝ)|⌋ = ((2 : ℕ) : ℤ) := by
    rw [abs_cast_toRat]
    exact floor_logb_eq _ 2 (by decide!) (by decide!)
  unfold log10_floor_exact
  rw [hr]
  decide!

/-- C2 (amended). Under the legacy-G directive the fixed path is taken exactly when the
value is fixed-eligible and fixed fits, where fixed fits when `|v| < 1.0` or the integer
part of the library's binary64 `log10(|v|)` is below `W - 5`; this is the test
`floor(log10(|v|)) < W - 5` wherever the library's logarithm has the integer part of the
real one. The call then returns the fixed branch's token, and in every other case it
returns what the exponential branch produces. -/
theorem legacy_mode_selection (lib : math_library) (bw : format_specs → Real64 → List Char)
    (fuel : ℕ) (specs : format_specs) (v : Real64) (hT : specs.type = 'T') :
    ((should_be_fixed_output v && fixed_will_fit lib v (specs.width - 5)) = true ↔
        (should_be_fixed_output v = true ∧ fixed_fits_binary64 lib v specs.width)) ∧
      (log10_floor_exact lib v →
        (fixed_fits_binary64 lib v specs.width ↔ spec_fixed_fits v specs.width)) ∧
      ((should_be_fixed_output v = true ∧ fixed_fits_binary64 lib v specs.width) →
        call_specs lib bw (fuel + 2) specs v =
          .ok (bw (legacy_fixed_specs lib specs v) v ++
                (if (legacy_fixed_specs lib specs v).precision = 0 then ".".toList else []) ++
                "    ".toList,
              legacy_fixed_specs lib specs v)) ∧
      (¬ (should_be_fixed_output v = true ∧ fixed_fits_binary64 lib v specs.width) →
        call_specs lib bw (fuel + 2) specs v =
          (leading_zero_swap
              (bw { specs with type := 'E', alt := true, precision := specs.precision - 1 }
                (v.mul (Real64.ofNat 10)))
              (specs.width - (specs.precision - 1 + 8))).map
            (fun str => (str, { specs with type := 'E', alt := true,
                                            precision := specs.precision - 1 }))) := by
  have hiff : (should_be_fixed_output v && fixed_will_fit lib v (specs.width - 5)) = true ↔
      (should_be_fixed_output v = true ∧ fixed_fits_binary64 lib v specs.width) := by
    rw [Bool.and_eq_true, fixed_will_fit_iff]
    rfl
  refine ⟨hiff, fixed_fits_binary64_iff_spec lib v specs.width,
    fun h => call_specs_legacy_fixed lib bw fuel specs v hT (hiff.mpr h), fun h => ?_⟩
  have hexp : (should_be_fixed_output v && fixed_will_fit lib v (specs.width - 5)) = false := by
    rw [← Bool.not_eq_true]
    exact fun hc => h (hiff.mp hc)
  exact call_specs_legacy_exponential lib bw (fuel + 1) specs v hT hexp

/-- C2 (witness). `123.456` with the directive `{:14.6T}`: the library's logarithm has
the integer part `2` of the real one, `2 < 14 - 5`, so fixed fits in the words of the
specification and the call returns the fixed branch's token. -/
theorem legacy_mode_selection_witness :
    log10_floor_exact libm value_123_456 ∧ spec_fixed_fits value_123_456 specs_T_14_6.width ∧
      call_specs libm fmtlib.fmt_write (0 + 2) specs_T_14_6 value_123_456 =
        .ok ("   123.456    ".toList, ⟨10, 3, 'F', false⟩) :=
  have hspec : spec_fixed_fits value_123_456 specs_T_14_6.width := by
    refine Or.inr ?_
    rw [abs_cast_toRat, floor_logb_eq _ 2 (by decide!) (by decide!)]
    decide
  ⟨log10_floor_exact_123_456, hspec,
    ((legacy_mode_selection libm fmtlib.fmt_write 0 specs_T_14_6 value_123_456 rfl).2.2.1
      ⟨by decide!,
        ((legacy_mode_selection libm fmtlib.fmt_write 0 specs_T_14_6 value_123_456 rfl).2.1
          log10_floor_exact_123_456).mpr hspec⟩).trans (by decide!)⟩

/-- C2 (counterexample). `999999.9999999999`, the largest binary64 value below `10^6`,
with the directive `{:11.4T}`: the value is fixed-eligible and `floor(log10(|v|)) = 5` is
below `11 - 5`, so fixed fits in the words of the specification; the binary64
logarithm is `6.0`, the test of the source fails, and the exponential branch writes
`" 0.1000E+07"`. -/
theorem legacy_mode_selection_log10_rounded_up :
    value_below_million.IsBinary64 ∧ should_be_fixed_output value_below_million = true ∧
      spec_fixed_fits value_below_million specs_T_11_4.width ∧
      (libm.log10 value_below_million.abs).toRat = 6 ∧
      fixed_will_fit libm value_below_million (specs_T_11_4.width - 5) = false ∧
      call libm fmtlib.fmt_write 2 (some specs_T_11_4) value_below_million =
        .ok (" 0.1000E+07".toList, some ⟨11, 3, 'E', true⟩) := by
  refine ⟨⟨8589934591999999, -33, by norm_num, by norm_num, by norm_num, ?_⟩, by decide!, ?_,
    by decide!, by decide!, by decide!⟩
  · show (10 : ℚ) ^ 6 - 1 / 2 ^ 33 = ((8589934591999999 : ℕ) : ℚ) * (2 : ℚ) ^ (-33 : ℤ)
    rw [zpow_neg]
    norm_num
  · refine Or.inr ?_
    rw [abs_cast_toRat, floor_logb_eq _ 5 (by decide!) (by decide!)]
    decide

/-- C4 (amended). On the fixed path of the legacy-G directive the token is the
library's fixed rendering of the value at working width `W'` and precision `P'`, then
`.` when `P' = 0`, then four spaces, where `P' = max(0, P - k)`, `W' = W - 4` when
`P - k > 0` and `W - 5` otherwise, and `k` is `1` for a zero, `0` for `0 < |v| < 1` and
the integer part of the library's binary64 `log10(|v|)`, plus one, otherwise; this `k`
is the specification's `floor(log10(|v|)) + 1` wherever the library's logarithm has
the integer part of the real one. With the modelled library, `0.0` at width 10 and
precision 4 gives `" 0.000    "` and `123.456` at width 14 and precision 6 gives
`"   123.456    "`. -/
theorem legacy_fixed_rendering :
    (∀ (lib : math_library) (bw : format_specs → Real64 → List Char) (fuel : ℕ)
        (specs : format_specs) (v : Real64) (k : ℤ), specs.type = 'T' →
        (should_be_fixed_output v && fixed_will_fit lib v (specs.width - 5)) = true →
        binary64_precision_decrement lib v k →
        call_specs lib bw (fuel + 2) specs v =
          .ok (bw ⟨if specs.precision - k > 0 then specs.width - 4 else specs.width - 5,
                    max 0 (specs.precision - k), 'F', specs.alt⟩ v ++
                (if max 0 (specs.precision - k) = 0 then ".".toList else []) ++
                "    ".toList,
              ⟨if specs.precision - k > 0 then specs.width - 4 else specs.width - 5,
                max 0 (specs.precision - k), 'F', specs.alt⟩)) ∧
      (∀ (lib : math_library) (v : Real64) (k : ℤ), log10_floor_exact lib v →
        (binary64_precision_decrement lib v k ↔ spec_precision_decrement v k)) ∧
      call libm fmtlib.fmt_write 2 (some specs_T_10_4) positive_zero =
        .ok (" 0.000    ".toList, some ⟨6, 3, 'F', false⟩) ∧
      call libm fmtlib.fmt_write 2 (some specs_T_14_6) value_123_456 =
        .ok ("   123.456    ".toList, some ⟨10, 3, 'F', false⟩) := by
  refine ⟨?_, binary64_precision_decrement_iff_spec, by decide!, by decide!⟩
  intro lib bw fuel specs v k hT hfix hk
  have h := call_specs_legacy_fixed lib bw fuel specs v hT hfix
  rw [legacy_fixed_specs_eq lib specs v k hk] at h
  exact h

/-- C4 (witness). `123.456` with the directive `{:14.6T}`: the library's logarithm has
the integer part of the real one, the specification's decrement is
`k = floor(log10(123.456)) + 1 = 3`, and the token is the rendering at width `10` and
precision `3`, followed by four spaces. -/
theorem legacy_fixed_rendering_witness :
    spec_precision_decrement value_123_456 3 ∧
      call_specs libm fmtlib.fmt_write (0 + 2) specs_T_14_6 value_123_456 =
        .ok (fmtlib.fmt_write ⟨10, 3, 'F', false⟩ value_123_456 ++ "    ".toList,
          ⟨10, 3, 'F', false⟩) ∧
      fmtlib.fmt_write ⟨10, 3, 'F', false⟩ value_123_456 = "   123.456".toList :=
  have hspec : spec_precision_decrement value_123_456 3 := by
    refine Or.inr (Or.inr ⟨by decide!, ?_⟩)
    rw [abs_cast_toRat, floor_logb_eq _ 2 (by decide!) (by decide!)]
    decide
  ⟨hspec,
    (legacy_fixed_rendering.1 libm fmtlib.fmt_write 0 specs_T_14_6 value_123_456 3 rfl
      (by decide!)
      ((legacy_fixed_rendering.2.1 libm value_123_456 3
        log10_floor_exact_123_456).mpr hspec)).trans (by decide!),
    by decide!⟩

/-- C4 (counterexample). `999.9999999999999`, the largest binary64 value below `10^3`,
with the directive `{:14.6T}` takes the fixed path. The specification's decrement is
`k = floor(log10(|v|)) + 1 = 3`, for the token `"  1000.000    "` (width `10`,
precision `3`); the binary64 logarithm is `3.0`, the source takes `k = 4`, and the
token is `"   1000.00    "` (precision `2`). -/
theorem legacy_fixed_rendering_log10_rounded_up :
    value_below_thousand.IsBinary64 ∧
      (should_be_fixed_output value_below_thousand &&
        fixed_will_fit libm value_below_thousand (specs_T_14_6.width - 5)) = true ∧
      spec_precision_decrement value_below_thousand 3 ∧
      (libm.log10 value_below_thousand.abs).toRat = 3 ∧
      call libm fmtlib.fmt_write 2 (some specs_T_14_6) value_below_thousand =
        .ok ("   1000.00    ".toList, some ⟨10, 2, 'F', false⟩) ∧
      fmtlib.fmt_write ⟨10, 3, 'F', false⟩ value_below_thousand ++ "    ".toList =
        "  1000.000    ".toList := by
  refine ⟨⟨8796093022207999, -43, by norm_num, by norm_num, by norm_num, ?_⟩, by decide!, ?_,
    by decide!, by decide!, by decide!⟩
  · show (10 : ℚ) ^ 3 - 1 / 2 ^ 43 = ((8796093022207999 : ℕ) : ℚ) * (2 : ℚ) ^ (-43 : ℤ)
    rw [zpow_neg]
    norm_num
  · refine Or.inr (Or.inr ⟨by decide!, ?_⟩)
    rw [abs_cast_toRat, floor_logb_eq _ 2 (by decide!) (by decide!)]
    decide

/-- C5 (failing input). The binary64 value `2 ^ -400` with the directive `{:12.4T}` is
selected for exponential notation, `P = 4 ≥ 1` and `W = 12 ≥ P + 7`; the library renders
`10 * v` as `"  3.873E-120"`, and the swap on fixed positions, which assumes a two-digit
exponent, produces `" 308.73E-120"`: three integer digits before the point instead of
the single forced `0`. -/
theorem legacy_exponential_three_digit_exponent :
    value_two_pow_minus_400.IsBinary64 ∧
      (should_be_fixed_output value_two_pow_minus_400 &&
        fixed_will_fit libm value_two_pow_minus_400 ((12 : ℤ) - 5)) = false ∧
      fmtlib.fmt_write ⟨12, 3, 'E', true⟩ (value_two_pow_minus_400.mul (Real64.ofNat 10)) =
        "  3.873E-120".toList ∧
      call libm fmtlib.fmt_write 2 (some ⟨12, 4, 'T', false⟩) value_two_pow_minus_400 =
        .ok (" 308.73E-120".toList, some ⟨12, 3, 'E', true⟩) := by
  refine ⟨⟨1, -400, by norm_num, by norm_num, by norm_num, ?_⟩, by decide!, by decide!,
    by decide!⟩
  show (1 : ℚ) / 2 ^ 400 = ((1 : ℕ) : ℚ) * (2 : ℚ) ^ (-400 : ℤ)
  rw [zpow_neg, Nat.cast_one, one_mul, one_div]
  norm_cast

/-! ## Rounding to binary64 -/

theorem leading_bit_eq_log (fuel n : ℕ) (h : n ≤ fuel) :
    Real64.leading_bit fuel n = Nat.log 2 n := by
  induction fuel generalizing n with
  | zero =>
    have : n = 0 := Nat.le_zero.mp h
    subst this
    simp [Real64.leading_bit]
  | succ fuel ih =>
    unfold Real64.leading_bit
    split
    · rename_i hlt
      exact (Nat.log_of_lt hlt).symm
    · rename_i hge
      have hge : 2 ≤ n := Nat.le_of_not_lt hge
      have hdiv : n / 2 ≤ fuel := by omega
      rw [ih (n / 2) hdiv, Nat.log_of_one_lt_of_le (by norm_num) hge]

/-- The position of the leading bit of a positive rational brackets it between two
consecutive powers of two. -/
theorem floor_log2_spec (q : ℚ) (hq : 0 < q) :
    (2 : ℚ) ^ Real64.floor_log2 q ≤ q ∧ q < (2 : ℚ) ^ (Real64.floor_log2 q + 1) := by
  have hnum : 0 < q.num := Rat.num_pos.mpr hq
  have ha0 : q.num.natAbs ≠ 0 := by omega
  have hb0 : q.den ≠ 0 := q.den_nz
  have hacast : ((q.num.natAbs : ℕ) : ℚ) = (q.num : ℚ) := by
    rw [Nat.cast_natAbs, abs_of_pos hnum]
  have hqd : q = ((q.num.natAbs : ℕ) : ℚ) / ((q.den : ℕ) : ℚ) := by
    rw [hacast]; exact (Rat.num_div_den q).symm
  have hbpos : (0 : ℚ) < ((q.den : ℕ) : ℚ) := by exact_mod_cast Nat.pos_of_ne_zero hb0
  have ha1 : ((2 : ℚ) ^ Nat.log 2 q.num.natAbs) ≤ ((q.num.natAbs : ℕ) : ℚ) := by
    exact_mod_cast Nat.pow_log_le_self 2 ha0
  have ha2 : ((q.num.natAbs : ℕ) : ℚ) < (2 : ℚ) ^ (Nat.log 2 q.num.natAbs + 1) := by
    exact_mod_cast Nat.lt_pow_succ_log_self (by norm_num) q.num.natAbs
  have hb1 : ((2 : ℚ) ^ Nat.log 2 q.den) ≤ ((q.den : ℕ) : ℚ) := by
    exact_mod_cast Nat.pow_log_le_self 2 hb0
  have hb2 : ((q.den : ℕ) : ℚ) < (2 : ℚ) ^ (Nat.log 2 q.den + 1) := by
    exact_mod_cast Nat.lt_pow_succ_log_self (by norm_num) q.den
  set la := Nat.log 2 q.num.natAbs with hla
  set lb := Nat.log 2 q.den with hlb
  have h2 : (2 : ℚ) ≠ 0 := by norm_num
  -- the two outer bounds
  have hup : q < (2 : ℚ) ^ (((la : ℤ) - (lb : ℤ)) + 1) := by
    have e : (2 : ℚ) ^ (((la : ℤ) - (lb : ℤ)) + 1) = (2 : ℚ) ^ (la + 1) / (2 : ℚ) ^ lb := by
      rw [show ((la : ℤ) - (lb : ℤ)) + 1 = ((la + 1 : ℕ) : ℤ) - ((lb : ℕ) : ℤ) by push_cast; ring,
        zpow_sub₀ h2, zpow_natCast, zpow_natCast]
    rw [e, hqd, div_lt_div_iff₀ hbpos (by positivity)]
    calc ((q.num.natAbs : ℕ) : ℚ) * (2 : ℚ) ^ lb
        < (2 : ℚ) ^ (la + 1) * (2 : ℚ) ^ lb := by
          exact mul_lt_mul_of_pos_right ha2 (by positivity)
      _ ≤ (2 : ℚ) ^ (la + 1) * ((q.den : ℕ) : ℚ) := by
          exact mul_le_mul_of_nonneg_left hb1 (by positivity)
  have hlow : (2 : ℚ) ^ (((la : ℤ) - (lb : ℤ)) - 1) ≤ q := by
    have e : (2 : ℚ) ^ (((la : ℤ) - (lb : ℤ)) - 1) = (2 : ℚ) ^ la / (2 : ℚ) ^ (lb + 1) := by
      rw [show ((la : ℤ) - (lb : ℤ)) - 1 = ((la : ℕ) : ℤ) - ((lb + 1 : ℕ) : ℤ) by push_cast; ring,
        zpow_sub₀ h2, zpow_natCast, zpow_natCast]
    rw [e, hqd, div_le_div_iff₀ (by positivity) hbpos]
    calc (2 : ℚ) ^ la * ((q.den : ℕ) : ℚ)
        ≤ (2 : ℚ) ^ la * (2 : ℚ) ^ (lb + 1) := by
          exact mul_le_mul_of_nonneg_left hb2.le (by positivity)
      _ ≤ ((q.num.natAbs : ℕ) : ℚ) * (2 : ℚ) ^ (lb + 1) := by
          exact mul_le_mul_of_nonneg_right ha1 (by positivity)
  unfold Real64.floor_log2
  simp only [leading_bit_eq_log _ _ (le_refl _)]
  rw [← hla, ← hlb]
  split
  · rename_i hk
    exact ⟨hk, hup⟩
  · rename_i hk
    refine ⟨hlow, ?_⟩
    rw [sub_add_cancel]
    exact not_le.mp hk

theorem floor_log2_mono (q r : ℚ) (hq : 0 < q) (h : q ≤ r) :
    Real64.floor_log2 q ≤ Real64.floor_log2 r := by
  have h1 := (floor_log2_spec q hq).1
  have h2 := (floor_log2_spec r (lt_of_lt_of_le hq h)).2
  have h3 : (2 : ℚ) ^ Real64.floor_log2 q < (2 : ℚ) ^ (Real64.floor_log2 r + 1) :=
    lt_of_le_of_lt (le_trans h1 h) h2
  have := (zpow_lt_zpow_iff_right₀ (by norm_num : (1 : ℚ) < 2)).mp h3
  omega

theorem ulp_above_pos (q : ℚ) : 0 < Real64.ulp_above q := by
  unfold Real64.ulp_above
  positivity

theorem ulp_above_mono (q r : ℚ) (hq : 0 < q) (h : q ≤ r) :
    Real64.ulp_above q ≤ Real64.ulp_above r := by
  unfold Real64.ulp_above
  apply zpow_le_zpow_right₀ (by norm_num)
  have := floor_log2_mono q r hq h
  omega

theorem ties_to_even_error (t : ℚ) (ht : 0 ≤ t) :
    |((Real64.ties_to_even t : ℕ) : ℚ) - t| ≤ 1 / 2 := by
  have hf : (0 : ℤ) ≤ ⌊t⌋ := Int.floor_nonneg.mpr ht
  have hcast : ((⌊t⌋.toNat : ℕ) : ℚ) = (⌊t⌋ : ℚ) := by
    have : ((⌊t⌋.toNat : ℕ) : ℤ) = ⌊t⌋ := Int.toNat_of_nonneg hf
    exact_mod_cast congrArg (Int.cast : ℤ → ℚ) this
  have h1 : (⌊t⌋ : ℚ) ≤ t := Int.floor_le t
  have h2 : t < (⌊t⌋ : ℚ) + 1 := Int.lt_floor_add_one t
  unfold Real64.ties_to_even
  simp only [hcast]
  rw [abs_le]
  split_ifs <;> push_cast <;> simp only [hcast] <;> constructor <;> linarith

/-- Rounding a positive magnitude to binary64 moves it by at most half the spacing,
unless the result overflows. -/
theorem to_binary64_error (q : ℚ) (hq : 0 < q)
    (hfin : q + Real64.ulp_above q / 2 < Real64.infinity_mag) :
    |Real64.to_binary64 q - q| ≤ Real64.ulp_above q / 2 := by
  have hu := ulp_above_pos q
  have ht : 0 ≤ q / Real64.ulp_above q := div_nonneg hq.le hu.le
  have herr := ties_to_even_error _ ht
  have hmul : |((Real64.ties_to_even (q / Real64.ulp_above q) : ℕ) : ℚ) * Real64.ulp_above q - q|
      ≤ Real64.ulp_above q / 2 := by
    have e : ((Real64.ties_to_even (q / Real64.ulp_above q) : ℕ) : ℚ) * Real64.ulp_above q - q =
        (((Real64.ties_to_even (q / Real64.ulp_above q) : ℕ) : ℚ) - q / Real64.ulp_above q) *
          Real64.ulp_above q := by
      field_simp
    rw [e, abs_mul, abs_of_pos hu]
    calc _ ≤ 1 / 2 * Real64.ulp_above q := mul_le_mul_of_nonneg_right herr hu.le
      _ = Real64.ulp_above q / 2 := by ring
  have hlt : ¬ Real64.infinity_mag ≤
      ((Real64.ties_to_even (q / Real64.ulp_above q) : ℕ) : ℚ) * Real64.ulp_above q := by
    rw [not_le]
    have := (abs_le.mp hmul).2
    linarith
  unfold Real64.to_binary64
  rw [if_neg (not_le.mpr hq), if_neg hlt]
  exact hmul

theorem to_binary64_zero : Real64.to_binary64 0 = 0 := by
  unfold Real64.to_binary64; simp

theorem to_binary64_nonneg (q : ℚ) : 0 ≤ Real64.to_binary64 q := by
  unfold Real64.to_binary64
  split_ifs
  · exact le_refl 0
  · unfold Real64.infinity_mag; positivity
  · exact mul_nonneg (Nat.cast_nonneg _) (ulp_above_pos q).le

/-! ## The value rendered by the `'R'` directive -/

theorem real64_eq (a b : Real64) (hn : a.neg = b.neg) (hm : a.mag = b.mag) : a = b := by
  cases a; cases b
  simp only at hn hm
  subst hn; subst hm
  rfl

theorem toRat_of_neg (a : Real64) (h : a.neg = true) : a.toRat = -a.mag := by
  unfold Real64.toRat; simp [h]

theorem toRat_of_not_neg (a : Real64) (h : a.neg = false) : a.toRat = a.mag := by
  unfold Real64.toRat; simp [h]

theorem adjusted_value_fixed (lib : math_library) (v : Real64) (P : ℤ) (hne : v.toRat ≠ 0)
    (hfix : should_be_fixed_output v = true) :
    adjusted_value lib v P = v.add (lib.pow10 (-(P + 10))) := by
  unfold adjusted_value
  simp only [hne, ne_eq, not_false_eq_true, if_true, hfix]

theorem adjusted_value_exponential (lib : math_library) (v : Real64) (P : ℤ)
    (hexp : should_be_fixed_output v = false) :
    adjusted_value lib v P = v.nextafter_one := by
  have hne : v.toRat ≠ 0 := by
    intro h
    have : should_be_fixed_output v = true := by
      unfold should_be_fixed_output
      simp [h]
    rw [hexp] at this
    exact Bool.false_ne_true this
  unfold adjusted_value
  simp only [hne, ne_eq, not_false_eq_true, if_true, hexp]
  rfl

/-- The number denoted by a value built from the sign of `s` and a magnitude. -/
theorem toRat_mk_abs_sign (s x : ℚ) (hx : 0 ≤ x) :
    (Real64.mk_abs (decide (s < 0)) x).toRat = if s < 0 then -x else x := by
  unfold Real64.mk_abs Real64.toRat
  simp only [abs_of_nonneg hx, decide_eq_true_eq]

/-- `std::round` gives the integer `n` on a value strictly within one half of it. -/
theorem round_toRat_eq (p : Real64) (n : ℤ) (h1 : (n : ℚ) - 1 / 2 < p.toRat)
    (h2 : p.toRat < (n : ℚ) + 1 / 2) : p.round.toRat = n := by
  have hnn : (0 : ℤ) ≤ ⌊p.mag + 1 / 2⌋ :=
    Int.floor_nonneg.mpr (by have := p.mag_nonneg; linarith)
  have hcast : ((⌊p.mag + 1 / 2⌋.toNat : ℕ) : ℚ) = (⌊p.mag + 1 / 2⌋ : ℚ) := by
    have : ((⌊p.mag + 1 / 2⌋.toNat : ℕ) : ℤ) = ⌊p.mag + 1 / 2⌋ := Int.toNat_of_nonneg hnn
    exact_mod_cast congrArg (Int.cast : ℤ → ℚ) this
  cases hs : p.neg
  · have ht := toRat_of_not_neg p hs
    rw [ht] at h1 h2
    have hfl : ⌊p.mag + 1 / 2⌋ = n := by
      rw [Int.floor_eq_iff]; constructor <;> linarith
    unfold Real64.round Real64.toRat
    simp only [hs, Bool.false_eq_true, if_false]
    rw [hcast, hfl]
  · have ht := toRat_of_neg p hs
    rw [ht] at h1 h2
    have hfl : ⌊p.mag + 1 / 2⌋ = -n := by
      rw [Int.floor_eq_iff]; push_cast; constructor <;> linarith
    unfold Real64.round Real64.toRat
    simp only [hs, if_true]
    rw [hcast, hfl]
    push_cast
    ring

/-- A value that denotes a positive number is positive and has that number as its
magnitude. -/
theorem mag_of_toRat_pos (e : Real64) (h : 0 < e.toRat) : e.neg = false ∧ e.mag = e.toRat := by
  cases hs : e.neg
  · exact ⟨rfl, (toRat_of_not_neg e hs).symm⟩
  · rw [toRat_of_neg e hs] at h
    have := e.mag_nonneg
    linarith

/-- The binary64 sum of two finite values whose exact sum is not zero lies within half
the spacing of the exact sum. -/
theorem add_error (a b : Real64) (ha : a.mag < Real64.infinity_mag)
    (hb : b.mag < Real64.infinity_mag) (hs : a.toRat + b.toRat ≠ 0)
    (hfin : |a.toRat + b.toRat| + Real64.ulp_above |a.toRat + b.toRat| / 2
      < Real64.infinity_mag) :
    |(a.add b).toRat - (a.toRat + b.toRat)| ≤ Real64.ulp_above |a.toRat + b.toRat| / 2 := by
  have hpos : 0 < |a.toRat + b.toRat| := abs_pos.mpr hs
  have herr := to_binary64_error _ hpos hfin
  unfold Real64.add
  rw [if_neg (not_le.mpr ha), if_neg (not_le.mpr hb), if_neg hs,
    toRat_mk_abs_sign _ _ (to_binary64_nonneg _)]
  by_cases hneg : a.toRat + b.toRat < 0
  · rw [if_pos hneg]
    rw [abs_of_neg hneg] at herr ⊢
    rw [abs_le] at herr ⊢
    constructor <;> linarith [herr.1, herr.2]
  · rw [if_neg hneg]
    rw [abs_of_nonneg (not_lt.mp hneg)] at herr ⊢
    exact herr

/-- The number denoted by a product by a positive value, both finite. -/
theorem toRat_mul (a m : Real64) (hm : m.neg = false) (ha : a.mag < Real64.infinity_mag)
    (hmf : m.mag < Real64.infinity_mag) :
    (a.mul m).toRat =
      if a.neg then -Real64.to_binary64 (a.mag * m.mag)
      else Real64.to_binary64 (a.mag * m.mag) := by
  have hnn := to_binary64_nonneg (a.mag * m.mag)
  unfold Real64.mul
  by_cases hz : a.mag = 0 ∨ m.mag = 0
  · have h0 : a.mag * m.mag = 0 := by
      rcases hz with h | h <;> rw [h] <;> simp
    rw [if_pos hz, h0, to_binary64_zero]
    unfold Real64.toRat
    simp
  · rw [if_neg hz, if_neg (by rw [not_or]; exact ⟨not_le.mpr ha, not_le.mpr hmf⟩)]
    unfold Real64.mk_abs Real64.toRat
    simp only [hm, Bool.xor_false, abs_of_nonneg hnn]

/-- The binary64 product by a positive value, both finite, lies within half the spacing
of the exact product, the spacing taken at any bound `B` of the exact product. -/
theorem mul_error (a m : Real64) (hm : m.neg = false) (ha : a.mag < Real64.infinity_mag)
    (hmf : m.mag < Real64.infinity_mag) (B : ℚ) (hB : a.mag * m.mag ≤ B)
    (hfin : B + Real64.ulp_above B / 2 < Real64.infinity_mag) :
    |(a.mul m).toRat - a.toRat * m.toRat| ≤ Real64.ulp_above B / 2 := by
  have hmt := toRat_of_not_neg m hm
  have hu := ulp_above_pos B
  have hq : 0 ≤ a.mag * m.mag := mul_nonneg a.mag_nonneg m.mag_nonneg
  have herr : |Real64.to_binary64 (a.mag * m.mag) - a.mag * m.mag|
      ≤ Real64.ulp_above B / 2 := by
    rcases hq.eq_or_lt with h0 | hpos
    · rw [← h0, to_binary64_zero, sub_zero, abs_zero]
      linarith
    · have hmono := ulp_above_mono _ _ hpos hB
      have := to_binary64_error _ hpos (by linarith)
      linarith
  rw [toRat_mul a m hm ha hmf]
  cases hs : a.neg
  · rw [toRat_of_not_neg a hs, hmt]
    simp only [Bool.false_eq_true, if_false]
    exact herr
  · rw [toRat_of_neg a hs, hmt]
    simp only [if_true]
    rw [abs_le] at herr ⊢
    constructor <;> linarith [herr.1, herr.2]

/-- Under the scaling conditions the nudged value is finite and lies within half the
spacing of the exact sum. -/
theorem nudged_error (lib : math_library) (v : Real64) (P : ℤ)
    (h : scaling_conditions lib v P) :
    |(v.add (lib.pow10 (-(P + 10)))).toRat - (v.toRat + (lib.pow10 (-(P + 10))).toRat)| ≤
        Real64.ulp_above |v.toRat + (lib.pow10 (-(P + 10))).toRat| / 2 ∧
      v.toRat + (lib.pow10 (-(P + 10))).toRat ≠ 0 := by
  obtain ⟨hP, hP22, hmn, hmm, he0, he1, hvfin, hfin⟩ := h
  have hM1 : (1 : ℚ) ≤ (10 : ℚ) ^ P := by
    have : (10 : ℚ) ^ (0 : ℤ) ≤ (10 : ℚ) ^ P := zpow_le_zpow_right₀ (by norm_num) hP
    simpa using this
  have hs : v.toRat + (lib.pow10 (-(P + 10))).toRat ≠ 0 := by
    cases hv : v.neg
    · rw [toRat_of_not_neg v hv]; have := v.mag_nonneg; linarith
    · rw [toRat_of_neg v hv]; linarith
  have hefin : (lib.pow10 (-(P + 10))).mag < Real64.infinity_mag := by
    rw [(mag_of_toRat_pos _ he0).2]; linarith
  unfold product_bound at hfin
  simp only at hfin
  have hspos : 0 < |v.toRat + (lib.pow10 (-(P + 10))).toRat| := abs_pos.mpr hs
  have hupos := ulp_above_pos |v.toRat + (lib.pow10 (-(P + 10))).toRat|
  have hU2pos := ulp_above_pos
    ((|v.toRat + (lib.pow10 (-(P + 10))).toRat| +
      Real64.ulp_above |v.toRat + (lib.pow10 (-(P + 10))).toRat| / 2) * (10 : ℚ) ^ P)
  have hsu : |v.toRat + (lib.pow10 (-(P + 10))).toRat| +
      Real64.ulp_above |v.toRat + (lib.pow10 (-(P + 10))).toRat| / 2 ≤
      (|v.toRat + (lib.pow10 (-(P + 10))).toRat| +
        Real64.ulp_above |v.toRat + (lib.pow10 (-(P + 10))).toRat| / 2) * (10 : ℚ) ^ P := by
    have : 0 ≤ |v.toRat + (lib.pow10 (-(P + 10))).toRat| +
      Real64.ulp_above |v.toRat + (lib.pow10 (-(P + 10))).toRat| / 2 := by linarith
    nlinarith
  exact ⟨add_error v _ hvfin hefin hs (by linarith), hs⟩

/-- The rounded product of the fixed path of the `'R'` directive lies within the
rounding slack of the exact `(v + nudge) * 10^P`. -/
theorem product_error (lib : math_library) (v : Real64) (P : ℤ)
    (h : scaling_conditions lib v P) :
    |((v.add (lib.pow10 (-(P + 10)))).mul (lib.pow10 P)).toRat -
        (v.toRat * (10 : ℚ) ^ P + scaled_nudge lib P)| ≤ rounding_slack lib v P := by
  obtain ⟨hadd, hs⟩ := nudged_error lib v P h
  obtain ⟨hP, hP22, hmn, hmm, he0, he1, hvfin, hfin⟩ := h
  have hM1 : (1 : ℚ) ≤ (10 : ℚ) ^ P := by
    have : (10 : ℚ) ^ (0 : ℤ) ≤ (10 : ℚ) ^ P := zpow_le_zpow_right₀ (by norm_num) hP
    simpa using this
  have hM0 : (0 : ℚ) < (10 : ℚ) ^ P := lt_of_lt_of_le one_pos hM1
  have hMfin : (10 : ℚ) ^ P < Real64.infinity_mag := by
    have h1 : (10 : ℚ) ^ P ≤ (10 : ℚ) ^ (22 : ℤ) := zpow_le_zpow_right₀ (by norm_num) hP22
    have h2 : (10 : ℚ) ^ (22 : ℤ) < (2 : ℚ) ^ (1024 : ℤ) := by norm_num
    have e : Real64.infinity_mag = (2 : ℚ) ^ (1024 : ℤ) := (zpow_natCast (2 : ℚ) 1024).symm
    rw [e]; linarith
  have hmt : (lib.pow10 P).toRat = (10 : ℚ) ^ P := by
    rw [toRat_of_not_neg _ hmn, hmm]
  unfold product_bound at hfin
  unfold rounding_slack scaled_nudge
  simp only at hfin ⊢
  set e := (lib.pow10 (-(P + 10))).toRat with he
  set s := |v.toRat + e| with hsdef
  set u := Real64.ulp_above s / 2 with hu
  set M := (10 : ℚ) ^ P with hM
  set a := v.add (lib.pow10 (-(P + 10))) with ha
  have hspos : 0 < s := abs_pos.mpr hs
  have hupos : 0 < u := by have := ulp_above_pos s; rw [hu]; linarith
  have hU2pos := ulp_above_pos ((s + u) * M)
  have hsu : s + u ≤ (s + u) * M := by
    have : 0 ≤ s + u := by linarith
    nlinarith
  have hamag : a.mag ≤ s + u := by
    rw [← Real64.abs_toRat a]
    have h1 : |a.toRat| ≤ |a.toRat - (v.toRat + e)| + |v.toRat + e| := by
      have := abs_add (a.toRat - (v.toRat + e)) (v.toRat + e)
      simpa using this
    linarith
  have hafin : a.mag < Real64.infinity_mag := by linarith
  have hprod_le : a.mag * M ≤ (s + u) * M := mul_le_mul_of_nonneg_right hamag hM0.le
  have hmul := mul_error a (lib.pow10 P) hmn hafin (by rw [hmm]; exact hMfin) ((s + u) * M)
    (by rw [hmm]; exact hprod_le) (by linarith)
  rw [hmt] at hmul
  have hsplit : (a.mul (lib.pow10 P)).toRat - (v.toRat * M + e * M) =
      ((a.mul (lib.pow10 P)).toRat - a.toRat * M) + (a.toRat - (v.toRat + e)) * M := by ring
  rw [hsplit]
  calc |((a.mul (lib.pow10 P)).toRat - a.toRat * M) + (a.toRat - (v.toRat + e)) * M|
      ≤ |(a.mul (lib.pow10 P)).toRat - a.toRat * M| + |(a.toRat - (v.toRat + e)) * M| :=
        abs_add _ _
    _ ≤ Real64.ulp_above ((s + u) * M) / 2 + u * M := by
        rw [abs_mul, abs_of_pos hM0]
        have := mul_le_mul_of_nonneg_right hadd hM0.le
        linarith
    _ = u * M + Real64.ulp_above ((s + u) * M) / 2 := by ring

/-- Under the scaling conditions the magnitude of the rounded product is below the
product bound, less one half. -/
theorem product_mag_le (lib : math_library) (v : Real64) (P : ℤ)
    (h : scaling_conditions lib v P) :
    ((v.add (lib.pow10 (-(P + 10)))).mul (lib.pow10 P)).mag + 1 / 2 ≤ product_bound lib v P := by
  have herr := product_error lib v P h
  obtain ⟨hP, hP22, hmn, hmm, he0, he1, hvfin, hfin⟩ := h
  have hM0 : (0 : ℚ) < (10 : ℚ) ^ P := zpow_pos (by norm_num) P
  unfold rounding_slack scaled_nudge at herr
  unfold product_bound
  simp only at herr ⊢
  rw [← Real64.abs_toRat]
  have h1 : |((v.add (lib.pow10 (-(P + 10)))).mul (lib.pow10 P)).toRat| ≤
      |((v.add (lib.pow10 (-(P + 10)))).mul (lib.pow10 P)).toRat -
        (v.toRat * (10 : ℚ) ^ P + (lib.pow10 (-(P + 10))).toRat * (10 : ℚ) ^ P)| +
      |v.toRat * (10 : ℚ) ^ P + (lib.pow10 (-(P + 10))).toRat * (10 : ℚ) ^ P| := by
    have := abs_add (((v.add (lib.pow10 (-(P + 10)))).mul (lib.pow10 P)).toRat -
        (v.toRat * (10 : ℚ) ^ P + (lib.pow10 (-(P + 10))).toRat * (10 : ℚ) ^ P))
      (v.toRat * (10 : ℚ) ^ P + (lib.pow10 (-(P + 10))).toRat * (10 : ℚ) ^ P)
    simpa using this
  have h2 : |v.toRat * (10 : ℚ) ^ P + (lib.pow10 (-(P + 10))).toRat * (10 : ℚ) ^ P| =
      |v.toRat + (lib.pow10 (-(P + 10))).toRat| * (10 : ℚ) ^ P := by
    rw [← add_mul, abs_mul, abs_of_pos hM0]
  rw [h2] at h1
  linarith

/-- Under the conditions `half_up_conditions` the integer that `std::round` returns on
the fixed path of the `'R'` directive is `floor(v * 10^P + 1/2)`. -/
theorem round_product_eq_half_up (lib : math_library) (v : Real64) (P : ℤ)
    (h : half_up_conditions lib v P) :
    (((v.add (lib.pow10 (-(P + 10)))).mul (lib.pow10 P)).round).toRat =
      ⌊v.toRat * (10 : ℚ) ^ P + 1 / 2⌋ := by
  obtain ⟨hsc, h0, h1⟩ := h
  have herr := product_error lib v P hsc
  rw [abs_le] at herr
  have hfl := Int.floor_add_fract (v.toRat * (10 : ℚ) ^ P + 1 / 2)
  apply round_toRat_eq
  · linarith [herr.1]
  · linarith [herr.2]

/-- The sign of the nudged value is the sign of the value when the value is finite and
the nudge is positive and below the magnitude. -/
theorem add_neg_eq (v e : Real64) (he0 : 0 < e.toRat) (he1 : e.toRat < v.mag)
    (hv : v.mag < Real64.infinity_mag) : (v.add e).neg = v.neg := by
  have hs : v.toRat + e.toRat ≠ 0 := by
    cases hv : v.neg
    · rw [toRat_of_not_neg v hv]; have := v.mag_nonneg; linarith
    · rw [toRat_of_neg v hv]; linarith
  have hefin : e.mag < Real64.infinity_mag := by
    rw [(mag_of_toRat_pos e he0).2]; linarith
  unfold Real64.add
  rw [if_neg (not_le.mpr hv), if_neg (not_le.mpr hefin), if_neg hs]
  unfold Real64.mk_abs
  simp only
  cases hv : v.neg
  · rw [toRat_of_not_neg v hv, decide_eq_false_iff_not]
    have := v.mag_nonneg; linarith
  · rw [toRat_of_neg v hv, decide_eq_true_eq]
    linarith

/-- Under the conditions `half_up_conditions` the value rendered by the fixed path of
the `'R'` directive is the binary64 value nearest to `v` rounded half-up to `P` decimal
places, with the sign of `v`. -/
theorem rounded_value_eq_nearest (lib : math_library) (v : Real64) (P : ℤ)
    (h : half_up_conditions lib v P) :
    rounded_value lib (v.add (lib.pow10 (-(P + 10)))) P =
      nearest_binary64 v.neg (spec_round_half_up v P) := by
  have hk := round_product_eq_half_up lib v P h
  have hbound := product_mag_le lib v P h.1
  obtain ⟨⟨hP, hP22, hmn, hmm, he0, he1, hvfin, hfin⟩, h0, h1⟩ := h
  have hM0 : (0 : ℚ) < (10 : ℚ) ^ P := zpow_pos (by norm_num) P
  have hMfin : (10 : ℚ) ^ P < Real64.infinity_mag := by
    have h1 : (10 : ℚ) ^ P ≤ (10 : ℚ) ^ (22 : ℤ) := zpow_le_zpow_right₀ (by norm_num) hP22
    have h2 : (10 : ℚ) ^ (22 : ℤ) < (2 : ℚ) ^ (1024 : ℤ) := by norm_num
    have e : Real64.infinity_mag = (2 : ℚ) ^ (1024 : ℤ) := (zpow_natCast (2 : ℚ) 1024).symm
    rw [e]; linarith
  have hsign := add_neg_eq v (lib.pow10 (-(P + 10))) he0 he1 hvfin
  have hmag : (((v.add (lib.pow10 (-(P + 10)))).mul (lib.pow10 P)).round).mag =
      |((⌊v.toRat * (10 : ℚ) ^ P + 1 / 2⌋ : ℤ) : ℚ)| := by
    rw [← hk, Real64.abs_toRat]
  have hkfin : (((v.add (lib.pow10 (-(P + 10)))).mul (lib.pow10 P)).round).mag <
      Real64.infinity_mag := by
    have hnn : (0 : ℤ) ≤ ⌊((v.add (lib.pow10 (-(P + 10)))).mul (lib.pow10 P)).mag + 1 / 2⌋ :=
      Int.floor_nonneg.mpr (by
        have := ((v.add (lib.pow10 (-(P + 10)))).mul (lib.pow10 P)).mag_nonneg
        linarith)
    have hcast : ((⌊((v.add (lib.pow10 (-(P + 10)))).mul (lib.pow10 P)).mag + 1 / 2⌋.toNat : ℕ)
        : ℚ) = (⌊((v.add (lib.pow10 (-(P + 10)))).mul (lib.pow10 P)).mag + 1 / 2⌋ : ℚ) := by
      have := Int.toNat_of_nonneg hnn
      exact_mod_cast congrArg (Int.cast : ℤ → ℚ) this
    show ((⌊((v.add (lib.pow10 (-(P + 10)))).mul (lib.pow10 P)).mag + 1 / 2⌋.toNat : ℕ) : ℚ) < _
    rw [hcast]
    have := Int.floor_le (((v.add (lib.pow10 (-(P + 10)))).mul (lib.pow10 P)).mag + 1 / 2)
    linarith
  have hneg : (((v.add (lib.pow10 (-(P + 10)))).mul (lib.pow10 P)).round).neg = v.neg := by
    show ((v.add (lib.pow10 (-(P + 10)))).mul (lib.pow10 P)).neg = v.neg
    unfold Real64.mul
    split_ifs <;> simp only [Real64.mk_abs, Real64.infinity, hmn, Bool.xor_false] <;> exact hsign
  unfold rounded_value Real64.div nearest_binary64 spec_round_half_up
  simp only
  by_cases hz : (((v.add (lib.pow10 (-(P + 10)))).mul (lib.pow10 P)).round).mag = 0
  · rw [if_pos hz]
    have hn0 : ((⌊v.toRat * (10 : ℚ) ^ P + 1 / 2⌋ : ℤ) : ℚ) = 0 := by
      rw [hz] at hmag
      exact abs_eq_zero.mp hmag.symm
    apply real64_eq
    · simp only [Real64.mk_abs, hneg, hmn, Bool.xor_false]
    · simp only [Real64.mk_abs, hn0, zero_div, abs_zero, to_binary64_zero]
  · rw [if_neg hz, if_neg (by
      rw [not_or]
      exact ⟨by rw [hmm]; exact hM0.ne', not_le.mpr hkfin⟩),
      if_neg (by rw [hmm]; exact not_le.mpr hMfin), hneg, hmn, Bool.xor_false, hmag, hmm,
      abs_div, abs_of_pos hM0]

/-! ## Claims about the `'R'` directive -/

/-- C6 (amended). For a non-zero fixed-eligible value the rounding-compatible directive
returns the library's fixed rendering, at the requested width and precision `P` and with
no trailing pad, of the binary64 value `r = std::round(a * 10^P) / 10^P`, where `a` is
the binary64 sum `v + 10^-(P+10)` and the product and the quotient are rounded to
binary64. Under the conditions `half_up_conditions` (`0 ≤ P ≤ 22` and `10^P` exact, no
overflow, and `v * 10^P` neither within the nudge and the rounding slack below a halfway
point nor within the slack above one) `r` is the binary64 value nearest to `v` rounded
half-up to `P` decimal places. With the modelled library, `3.14159` at precision 2 gives
`"3.14"`. -/
theorem rounding_fixed_rendering :
    (∀ (lib : math_library) (bw : format_specs → Real64 → List Char) (fuel : ℕ)
        (specs : format_specs) (v : Real64), specs.type = 'R' → v.toRat ≠ 0 →
        should_be_fixed_output v = true →
        ∃ r : Real64,
          call_specs lib bw (fuel + 2) specs v =
            .ok (bw { specs with type := 'F' } r, { specs with type := 'F' }) ∧
          r = (((v.add (lib.pow10 (-(specs.precision + 10)))).mul
                (lib.pow10 specs.precision)).round).div (lib.pow10 specs.precision) ∧
          (half_up_conditions lib v specs.precision →
            r = nearest_binary64 v.neg (spec_round_half_up v specs.precision))) ∧
      call libm fmtlib.fmt_write 2 (some specs_R_2) value_3_14159 =
        .ok ("3.14".toList, some ⟨0, 2, 'F', false⟩) := by
  refine ⟨?_, by decide!⟩
  intro lib bw fuel specs v hR hne hfix
  have hcall := call_specs_rounding_fixed lib bw fuel specs v hR hfix
  rw [adjusted_value_fixed lib v _ hne hfix] at hcall
  exact ⟨_, hcall, rfl, fun h => rounded_value_eq_nearest lib v specs.precision h⟩

/-- The modelled library computes `10^P` exactly for `0 ≤ P ≤ 22`, the powers of ten
that are binary64 values. -/
theorem libm_pow10_exact (P : ℤ) (h0 : 0 ≤ P) (h1 : P ≤ 22) :
    (libm.pow10 P).neg = false ∧ (libm.pow10 P).mag = (10 : ℚ) ^ P := by
  interval_cases P <;> decide!

/-- The conditions `half_up_conditions` at `3.14159` and precision 2. -/
theorem half_up_conditions_3_14159 : half_up_conditions libm value_3_14159 2 := by
  unfold half_up_conditions scaling_conditions
  decide!

/-- C6 (witness). `3.14159` with the directive `{:.2R}`: the conditions hold, the value
rounded half-up to two places is `3.14`, and the token is the rendering `"3.14"` of the
binary64 value nearest to it. -/
theorem rounding_fixed_rendering_witness :
    half_up_conditions libm value_3_14159 2 ∧ spec_round_half_up value_3_14159 2 = 314 / 100 ∧
      ∃ r : Real64,
        call_specs libm fmtlib.fmt_write (0 + 2) specs_R_2 value_3_14159 =
          .ok (fmtlib.fmt_write { specs_R_2 with type := 'F' } r,
            { specs_R_2 with type := 'F' }) ∧
        r = nearest_binary64 false (314 / 100) ∧
        fmtlib.fmt_write { specs_R_2 with type := 'F' } r = "3.14".toList :=
  ⟨half_up_conditions_3_14159, by decide!,
    (rounding_fixed_rendering.1 libm fmtlib.fmt_write 0 specs_R_2 value_3_14159 rfl
      (by decide!) (by decide!)).elim
      (fun r hr => ⟨r, hr.1,
        (hr.2.2 half_up_conditions_3_14159).trans
          (by rw [show spec_round_half_up value_3_14159 specs_R_2.precision = 314 / 100 by
            decide!]; rfl),
        by rw [hr.2.2 half_up_conditions_3_14159]; decide!⟩)⟩

/-- C6 (counterexample). The binary64 value `0.125 - 2^-45` is non-zero and
fixed-eligible; at precision 2 the directive gives `"0.13"`, while the value rounded
half-up to two places is `0.12`, whose standard rendering is `"0.12"`. The binary64
value `35224.585`, which is below the decimal `35224.585`, is rounded half-up to
`35224.58`; its product by `100` rounds to the halfway point `3522458.5`, and the
directive gives `"35224.59"`. -/
theorem rounding_fixed_not_half_up :
    value_below_eighth.IsBinary64 ∧ value_below_eighth.toRat ≠ 0 ∧
      should_be_fixed_output value_below_eighth = true ∧
      call libm fmtlib.fmt_write 2 (some specs_R_2) value_below_eighth =
        .ok ("0.13".toList, some ⟨0, 2, 'F', false⟩) ∧
      spec_round_half_up value_below_eighth 2 = 12 / 100 ∧
      fmtlib.fmt_write ⟨0, 2, 'F', false⟩
          (nearest_binary64 false (spec_round_half_up value_below_eighth 2)) =
        "0.12".toList ∧
      should_be_fixed_output value_35224_585 = true ∧
      spec_round_half_up value_35224_585 2 = 3522458 / 100 ∧
      ((adjusted_value libm value_35224_585 2).mul (libm.pow10 2)).toRat = 3522458 + 1 / 2 ∧
      call libm fmtlib.fmt_write 2 (some specs_R_2) value_35224_585 =
        .ok ("35224.59".toList, some ⟨0, 2, 'F', false⟩) := by
  refine ⟨⟨4398046511103, -45, by norm_num, by norm_num, by norm_num, ?_⟩, by decide!,
    by decide!, by decide!, by decide!, by decide!, by decide!, by decide!, by decide!,
    by decide!⟩
  show (1 : ℚ) / 8 - 1 / 2 ^ 45 = ((4398046511103 : ℕ) : ℚ) * (2 : ℚ) ^ (-45 : ℤ)
  rw [zpow_neg]
  norm_num

/-! ## The exponent post-processing -/

theorem pad_exponent_insert (pre : List Char) (s d1 d2 : Char) (hpre : pre ≠ [])
    (hs : isdigit s = false) :
    pad_exponent (pre ++ [s, d1, d2]) = pre ++ [s, '0', d1, d2] := by
  have hlen : 0 < pre.length := List.length_pos.mpr hpre
  unfold pad_exponent
  have h3 : (pre ++ [s, d1, d2]).length = pre.length + 3 := by simp
  have hget : (pre ++ [s, d1, d2]).getD (pre.length + 3 - 3) ' ' = s := by
    simp only [Nat.add_sub_cancel, List.getD_eq_getElem?_getD,
      List.getElem?_append_right (le_refl _), Nat.sub_self]
    rfl
  have htake : (pre ++ [s, d1, d2]).take (pre.length + 3 - 2) = pre ++ [s] := by
    rw [show pre.length + 3 - 2 = pre.length + 1 by omega, List.take_append]
    rfl
  have hdrop : (pre ++ [s, d1, d2]).drop (pre.length + 3 - 2) = [d1, d2] := by
    rw [show pre.length + 3 - 2 = pre.length + 1 by omega, List.drop_append]
    rfl
  rw [h3, if_pos (by omega), hget, hs, htake, hdrop]
  simp

theorem pad_exponent_keep (pre : List Char) (d0 d1 d2 : Char) (hd : isdigit d0 = true) :
    pad_exponent (pre ++ [d0, d1, d2]) = pre ++ [d0, d1, d2] := by
  unfold pad_exponent
  have h3 : (pre ++ [d0, d1, d2]).length = pre.length + 3 := by simp
  have hget : (pre ++ [d0, d1, d2]).getD (pre.length + 3 - 3) ' ' = d0 := by
    simp only [Nat.add_sub_cancel, List.getD_eq_getElem?_getD,
      List.getElem?_append_right (le_refl _), Nat.sub_self]
    rfl
  rw [h3, hget, hd]
  simp

theorem exponent_digits_of_sign (pre : List Char) (s : Char) (ds : List Char)
    (hs : isdigit s = false) (hds : ∀ c ∈ ds, isdigit c = true) :
    exponent_digits (pre ++ s :: ds) = ds := by
  unfold exponent_digits
  rw [List.reverse_append, List.reverse_cons, List.append_assoc,
    List.takeWhile_append_of_pos (by simpa using hds)]
  simp [List.takeWhile, hs]

/-- C7 (amended). On the exponential path of the rounding-compatible directive, when the
library's rendering ends in a non-digit (the exponent sign) and two exponent digits, the
token is that rendering with a `'0'` inserted immediately before the two digits, so its
exponent field has exactly three digits; a rendering whose last three characters start
with a digit (a three-digit exponent) is returned unchanged. -/
theorem rounding_exponent_padding (lib : math_library) (bw : format_specs → Real64 → List Char)
    (fuel : ℕ) (specs : format_specs) (v : Real64) (hR : specs.type = 'R')
    (hexp : should_be_fixed_output v = false) :
    (∀ (pre : List Char) (s d1 d2 : Char), pre ≠ [] → isdigit s = false →
        isdigit d1 = true → isdigit d2 = true →
        bw { specs with type := 'E' } (adjusted_value lib v specs.precision) =
            pre ++ [s, d1, d2] →
        call_specs lib bw (fuel + 1) specs v =
            .ok (pre ++ [s, '0', d1, d2], { specs with type := 'E' }) ∧
          exponent_digits (pre ++ [s, '0', d1, d2]) = ['0', d1, d2]) ∧
      (∀ (pre : List Char) (d0 d1 d2 : Char), isdigit d0 = true →
        bw { specs with type := 'E' } (adjusted_value lib v specs.precision) =
            pre ++ [d0, d1, d2] →
        call_specs lib bw (fuel + 1) specs v =
          .ok (pre ++ [d0, d1, d2], { specs with type := 'E' })) := by
  have hcall := call_specs_rounding_exponential lib bw fuel specs v hR hexp
  constructor
  · intro pre s d1 d2 hpre hs hd1 hd2 hstd
    rw [hcall, hstd, pad_exponent_insert pre s d1 d2 hpre hs]
    refine ⟨rfl, exponent_digits_of_sign pre s ['0', d1, d2] hs ?_⟩
    intro c hc
    simp only [List.mem_cons, List.mem_singleton, List.not_mem_nil, or_false] at hc
    rcases hc with rfl | rfl | rfl
    · decide
    · exact hd1
    · exact hd2
  · intro pre d0 d1 d2 hd0 hstd
    rw [hcall, hstd, pad_exponent_keep pre d0 d1 d2 hd0]

/-- C7 (witness). `0.03125` with the directive `{:.3R}`: the library renders the nudged
value as `3.125E-02` and the token is `3.125E-002`. -/
theorem rounding_exponent_padding_witness :
    call_specs libm fmtlib.fmt_write (0 + 1) specs_R_3 value_thirty_second =
        .ok ("3.125E".toList ++ ['-', '0', '0', '2'], { specs_R_3 with type := 'E' }) ∧
      exponent_digits ("3.125E".toList ++ ['-', '0', '0', '2']) = ['0', '0', '2'] :=
  (rounding_exponent_padding libm fmtlib.fmt_write 0 specs_R_3 value_thirty_second rfl
    (by decide!)).1 "3.125E".toList '-' '0' '2' (by decide) (by decide) (by decide) (by decide)
    (by decide!)

/-- C7 (counterexample). For `0.03125` with the directive `{:.3R}` the library renders a
two-digit exponent, `3.125E-02`, and the token is `3.125E-002`: its exponent field has
three digits, not two. -/
theorem rounding_exponent_three_digits :
    should_be_fixed_output value_thirty_second = false ∧
      fmtlib.fmt_write ⟨0, 3, 'E', false⟩ (adjusted_value libm value_thirty_second 3) =
        "3.125E-02".toList ∧
      call libm fmtlib.fmt_write 2 (some specs_R_3) value_thirty_second =
        .ok ("3.125E-002".toList, some ⟨0, 3, 'E', false⟩) ∧
      (exponent_digits "3.125E-002".toList).length = 3 := by
  decide!

/-! ## Sign symmetry -/

theorem should_be_fixed_output_negate (v : Real64) :
    should_be_fixed_output v.negate = should_be_fixed_output v := by
  rw [Bool.eq_iff_iff, should_be_fixed_output_eq, should_be_fixed_output_eq, Real64.mag_negate]

theorem log10_int_negate (lib : math_library) (v : Real64) :
    log10_int lib v.negate = log10_int lib v := rfl

theorem fixed_will_fit_negate (lib : math_library) (v : Real64) (places : ℤ) :
    fixed_will_fit lib v.negate places = fixed_will_fit lib v places := by
  unfold fixed_will_fit
  simp only [Real64.toRat_lt_one_iff, Real64.mag_negate, log10_int_negate]

theorem legacy_fixed_specs_negate (lib : math_library) (specs : format_specs) (v : Real64) :
    legacy_fixed_specs lib specs v.negate = legacy_fixed_specs lib specs v := by
  unfold legacy_fixed_specs
  simp only [Real64.toRat_lt_one_iff, Real64.toRat_eq_zero_iff, Real64.mag_negate,
    log10_int_negate]

theorem digit_sequence_append (a b : List Char) :
    digit_sequence (a ++ b) = digit_sequence a ++ digit_sequence b := by
  unfold digit_sequence; exact List.filter_append a b

theorem digit_sequence_pad_left (w : ℤ) (body : List Char) :
    digit_sequence (fmtlib.pad_left w body) = digit_sequence body := by
  unfold fmtlib.pad_left
  rw [digit_sequence_append]
  have : digit_sequence (List.replicate (w.toNat - body.length) ' ') = [] := by
    unfold digit_sequence
    rw [List.filter_eq_nil_iff]
    intro c hc
    rw [List.eq_of_mem_replicate hc]
    decide
  rw [this, List.nil_append]

theorem digit_sequence_sign_chars (v : Real64) : digit_sequence (fmtlib.sign_chars v) = [] := by
  unfold fmtlib.sign_chars
  cases v.neg <;> decide

/-- The digits of a fixed rendering by the modelled library do not depend on the sign. -/
theorem digit_sequence_fmt_write_negate (specs : format_specs) (v : Real64)
    (hF : specs.type = 'F') :
    digit_sequence (fmtlib.fmt_write specs v.negate) =
      digit_sequence (fmtlib.fmt_write specs v) := by
  unfold fmtlib.fmt_write
  simp only [hF, true_or, if_true, digit_sequence_pad_left, digit_sequence_append,
    digit_sequence_sign_chars, Real64.mag_negate]

/-! ## The sign and the position swap -/

theorem digit_sequence_map_blank_minus (t : List Char) :
    digit_sequence (t.map blank_minus) = digit_sequence t := by
  unfold digit_sequence
  induction t with
  | nil => rfl
  | cons c cs ih =>
    rw [List.map_cons, List.filter_cons, List.filter_cons, ih]
    unfold blank_minus
    by_cases hc : c = '-'
    · subst hc
      rfl
    · rw [if_neg hc]

/-- The position swap commutes with a character map that keeps `'0'` and the space. -/
theorem leading_zero_swap_map (f : Char → Char) (hf0 : f '0' = '0') (hfs : f ' ' = ' ')
    (s : List Char) (a : ℤ) :
    leading_zero_swap (s.map f) a = (leading_zero_swap s a).map (List.map f) := by
  have hg : ∀ (l : List Char) (i : ℕ), (l.map f).getD i ' ' = f (l.getD i ' ') := by
    intro l i
    have := List.getD_map l ' ' (n := i) f
    rwa [hfs] at this
  have hset0 : ∀ (l : List Char) (i : ℕ), (l.map f).set i '0' = (l.set i '0').map f := by
    intro l i
    rw [List.map_set, hf0]
  unfold leading_zero_swap
  simp only [List.length_map]
  split_ifs
  · simp only [hg, ← List.map_set, hset0]
    rfl
  · rfl

theorem mul_negate (v m : Real64) : v.negate.mul m = (v.mul m).negate := by
  unfold Real64.mul
  simp only [Real64.mag_negate]
  split_ifs <;> apply real64_eq <;>
    first
      | rfl
      | (simp only [Real64.negate, Real64.mk_abs, Real64.infinity]
         cases v.neg <;> cases m.neg <;> rfl)

theorem pad_left_length (w : ℤ) (s : List Char) (h : (s.length : ℤ) ≤ w) :
    (fmtlib.pad_left w s).length = w.toNat := by
  unfold fmtlib.pad_left
  rw [List.length_append, List.length_replicate]
  omega

/-- A minus sign in front of a rendering that leaves room in the field takes the place
of the last padding space. -/
theorem pad_left_minus_blank (w : ℤ) (body : List Char) (h : (body.length : ℤ) < w) :
    (fmtlib.pad_left w ('-' :: body)).map blank_minus =
      (fmtlib.pad_left w body).map blank_minus := by
  unfold fmtlib.pad_left
  have hk : w.toNat - body.length = (w.toNat - ('-' :: body).length) + 1 := by
    rw [List.length_cons]; omega
  rw [hk, List.replicate_succ', List.append_assoc, List.map_append, List.map_append,
    List.map_cons]
  rfl

/-- With the modelled library writer, an exponential rendering that leaves room for the
sign in its field has the width of the field, and the renderings of `x` and `-x` differ
in the sign character only. -/
theorem fmt_write_exp_negate (specs : format_specs) (x : Real64) (hE : specs.type = 'E')
    (hroom : ((fmtlib.fmt_write { specs with width := 0 } x.abs).length : ℤ) < specs.width) :
    (fmtlib.fmt_write specs x.negate).map blank_minus =
        (fmtlib.fmt_write specs x).map blank_minus ∧
      (fmtlib.fmt_write specs x).length = specs.width.toNat ∧
      (fmtlib.fmt_write specs x.negate).length = specs.width.toNat := by
  have hF : ¬ (specs.type = 'F' ∨ specs.type = 'f') := by rw [hE]; decide
  have hF' : ¬ (('E' : Char) = 'F' ∨ ('E' : Char) = 'f') := by decide
  unfold fmtlib.fmt_write at hroom ⊢
  simp only [hF, hF', if_false, hE, true_or, if_true, Real64.mag_negate] at hroom ⊢
  have habs : x.abs.mag = x.mag := rfl
  have hsa : fmtlib.sign_chars x.abs = [] := rfl
  rw [habs, hsa, List.nil_append] at hroom
  unfold fmtlib.pad_left at hroom
  simp only [Int.toNat_zero, Nat.zero_sub, List.replicate_zero, List.nil_append] at hroom
  unfold fmtlib.sign_chars Real64.negate
  cases hs : x.neg
  · simp only [Bool.not_false, if_true, Bool.false_eq_true, if_false, List.nil_append,
      List.singleton_append]
    refine ⟨pad_left_minus_blank _ _ hroom, pad_left_length _ _ hroom.le, ?_⟩
    apply pad_left_length
    rw [List.length_cons]; push_cast; omega
  · simp only [Bool.not_true, if_true, Bool.false_eq_true, if_false, List.nil_append,
      List.singleton_append]
    refine ⟨(pad_left_minus_blank _ _ hroom).symm, ?_, pad_left_length _ _ hroom.le⟩
    apply pad_left_length
    rw [List.length_cons]; push_cast; omega

/-- On the exponential path of the legacy-G directive, with the modelled library writer,
`v` and `-v` give tokens that differ in the sign character only, and so have the same
digit sequence, when `P ≥ 1`, `W ≥ P + 7` and the unsigned rendering leaves room for the
sign. -/
theorem legacy_exponential_digits_negate (lib : math_library) (fuel : ℕ)
    (specs : format_specs) (v : Real64) (hT : specs.type = 'T')
    (hexp : (should_be_fixed_output v && fixed_will_fit lib v (specs.width - 5)) = false)
    (hP : 1 ≤ specs.precision) (hW : specs.precision + 7 ≤ specs.width)
    (hroom : ((fmtlib.fmt_write ⟨0, specs.precision - 1, 'E', true⟩
      (v.mul (Real64.ofNat 10)).abs).length : ℤ) < specs.width) :
    ∃ t t' s, call_specs lib fmtlib.fmt_write (fuel + 1) specs v = .ok (t, s) ∧
      call_specs lib fmtlib.fmt_write (fuel + 1) specs v.negate = .ok (t', s) ∧
      t'.map blank_minus = t.map blank_minus ∧ digit_sequence t' = digit_sequence t := by
  have hexp' : (should_be_fixed_output v.negate &&
      fixed_will_fit lib v.negate (specs.width - 5)) = false := by
    rw [should_be_fixed_output_negate, fixed_will_fit_negate]; exact hexp
  have h1 := call_specs_legacy_exponential lib fmtlib.fmt_write fuel specs v hT hexp
  have h2 := call_specs_legacy_exponential lib fmtlib.fmt_write fuel specs v.negate hT hexp'
  rw [mul_negate] at h2
  obtain ⟨hmap, hl1, hl2⟩ := fmt_write_exp_negate
    { specs with type := 'E', alt := true, precision := specs.precision - 1 }
    (v.mul (Real64.ofNat 10)) rfl hroom
  have hb1 : (0 : ℤ) ≤ specs.width - (specs.precision - 1 + 8) ∧
      specs.width - (specs.precision - 1 + 8) + 3 <
        ((fmtlib.fmt_write
          { specs with type := 'E', alt := true, precision := specs.precision - 1 }
          (v.mul (Real64.ofNat 10))).length : ℤ) := by
    rw [hl1]; dsimp only; omega
  have hb2 : (0 : ℤ) ≤ specs.width - (specs.precision - 1 + 8) ∧
      specs.width - (specs.precision - 1 + 8) + 3 <
        ((fmtlib.fmt_write
          { specs with type := 'E', alt := true, precision := specs.precision - 1 }
          (v.mul (Real64.ofNat 10)).negate).length : ℤ) := by
    rw [hl2]; dsimp only; omega
  have hswap := leading_zero_swap_map blank_minus rfl rfl
  have hs1 := hswap (fmtlib.fmt_write
    { specs with type := 'E', alt := true, precision := specs.precision - 1 }
    (v.mul (Real64.ofNat 10))) (specs.width - (specs.precision - 1 + 8))
  have hs2 := hswap (fmtlib.fmt_write
    { specs with type := 'E', alt := true, precision := specs.precision - 1 }
    (v.mul (Real64.ofNat 10)).negate) (specs.width - (specs.precision - 1 + 8))
  rw [hmap, hs1] at hs2
  unfold leading_zero_swap at h1 h2 hs2
  rw [if_pos hb1] at h1 hs2
  rw [if_pos hb2] at h2 hs2
  simp only [Except.map, Except.ok.injEq] at hs2
  refine ⟨_, _, _, h1, h2, hs2.symm, ?_⟩
  rw [← digit_sequence_map_blank_minus, ← hs2, digit_sequence_map_blank_minus]

/-! ## The length of the library's exponential rendering -/

theorem toDigitsCore_bounds (f n : ℕ) (hf : n < f) :
    n < 10 ^ (Nat.toDigitsCore 10 f n []).length ∧
      (0 < n → 10 ^ ((Nat.toDigitsCore 10 f n []).length - 1) ≤ n) := by
  induction f generalizing n with
  | zero => exact absurd hf (Nat.not_lt_zero n)
  | succ f ih =>
    simp only [Nat.toDigitsCore]
    by_cases h : n / 10 = 0
    · rw [if_pos h]
      have hlt : n < 10 := by omega
      simp only [List.length_singleton, pow_one, Nat.sub_self, pow_zero]
      exact ⟨hlt, fun hpos => hpos⟩
    · rw [if_neg h, Nat.toDigitsCore_lens_eq]
      have hdiv : n / 10 < f := by omega
      obtain ⟨h1, h2⟩ := ih (n / 10) hdiv
      have hpos : 0 < n / 10 := Nat.pos_of_ne_zero h
      have h2 := h2 hpos
      have hlen : 1 ≤ (Nat.toDigitsCore 10 f (n / 10) []).length := by
        by_contra hc
        have h0 : (Nat.toDigitsCore 10 f (n / 10) []).length = 0 := by omega
        rw [h0, pow_zero] at h1
        omega
      refine ⟨?_, fun _ => ?_⟩
      · rw [pow_succ]
        omega
      · rw [Nat.add_sub_cancel]
        have : 10 ^ (Nat.toDigitsCore 10 f (n / 10) []).length =
            10 ^ ((Nat.toDigitsCore 10 f (n / 10) []).length - 1) * 10 := by
          rw [← pow_succ]
          congr 1
          omega
        rw [this]
        omega

theorem toDigits_lt (n : ℕ) : n < 10 ^ (Nat.toDigits 10 n).length :=
  (toDigitsCore_bounds (n + 1) n (Nat.lt_succ_self n)).1

theorem toDigits_le (n : ℕ) (h : 0 < n) : 10 ^ ((Nat.toDigits 10 n).length - 1) ≤ n :=
  (toDigitsCore_bounds (n + 1) n (Nat.lt_succ_self n)).2 h

theorem toDigits_length_le (n k : ℕ) (h : n < 10 ^ k) (hk : 0 < k) :
    (Nat.toDigits 10 n).length ≤ k :=
  Nat.toDigitsCore_length 10 (by norm_num) (n + 1) n k h hk

theorem toDigits_length_pos (n : ℕ) : 0 < (Nat.toDigits 10 n).length := by
  by_contra hc
  have h0 : (Nat.toDigits 10 n).length = 0 := by omega
  have := toDigits_lt n
  rw [h0, pow_zero] at this
  have hn : n = 0 := by omega
  subst hn
  revert h0
  decide

theorem zero_padded_length (len n : ℕ) (h : n < 10 ^ len) (hlen : 0 < len) :
    (fmtlib.zero_padded len n).length = len := by
  unfold fmtlib.zero_padded
  rw [List.length_append, List.length_replicate]
  have := toDigits_length_le n len h hlen
  omega

theorem zero_padded_length_le (len n k : ℕ) (h : n < 10 ^ k) (hk : len ≤ k) (hlen : 0 < len) :
    (fmtlib.zero_padded len n).length ≤ k := by
  unfold fmtlib.zero_padded
  rw [List.length_append, List.length_replicate]
  have := toDigits_length_le n k h (by omega)
  omega

/-- The decimal exponent of the library model brackets a positive rational between two
consecutive powers of ten. -/
theorem floor_log10_spec (q : ℚ) (hq : 0 < q) :
    (10 : ℚ) ^ fmtlib.floor_log10 q ≤ q ∧ q < (10 : ℚ) ^ (fmtlib.floor_log10 q + 1) := by
  have h10 : (10 : ℚ) ≠ 0 := by norm_num
  have key : ∀ t : ℚ, 1 ≤ t →
      (10 : ℚ) ^ (((Nat.toDigits 10 ⌊t⌋.toNat).length : ℤ) - 1) ≤ t ∧
        t < (10 : ℚ) ^ (((Nat.toDigits 10 ⌊t⌋.toNat).length : ℤ) - 1 + 1) := by
    intro t ht
    have hfl : (1 : ℤ) ≤ ⌊t⌋ := Int.le_floor.mpr (by exact_mod_cast ht)
    have hn : 0 < ⌊t⌋.toNat := by omega
    have hcast : ((⌊t⌋.toNat : ℕ) : ℚ) = (⌊t⌋ : ℚ) := by
      have : ((⌊t⌋.toNat : ℕ) : ℤ) = ⌊t⌋ := Int.toNat_of_nonneg (by omega)
      exact_mod_cast congrArg (Int.cast : ℤ → ℚ) this
    have h1 : ((⌊t⌋.toNat : ℕ) : ℚ) ≤ t := by rw [hcast]; exact Int.floor_le t
    have h2 : t < ((⌊t⌋.toNat : ℕ) : ℚ) + 1 := by rw [hcast]; exact Int.lt_floor_add_one t
    have hlen := toDigits_length_pos ⌊t⌋.toNat
    have hlo := toDigits_le ⌊t⌋.toNat hn
    have hhi := toDigits_lt ⌊t⌋.toNat
    constructor
    · have e : (((Nat.toDigits 10 ⌊t⌋.toNat).length : ℤ) - 1) =
          (((Nat.toDigits 10 ⌊t⌋.toNat).length - 1 : ℕ) : ℤ) := by omega
      rw [e, zpow_natCast]
      have : ((10 : ℚ) ^ ((Nat.toDigits 10 ⌊t⌋.toNat).length - 1)) ≤ ((⌊t⌋.toNat : ℕ) : ℚ) := by
        exact_mod_cast hlo
      linarith
    · rw [sub_add_cancel, zpow_natCast]
      have : ((⌊t⌋.toNat : ℕ) : ℚ) + 1 ≤ (10 : ℚ) ^ (Nat.toDigits 10 ⌊t⌋.toNat).length := by
        exact_mod_cast hhi
      linarith
  unfold fmtlib.floor_log10
  by_cases h1 : 1 ≤ q
  · rw [if_pos h1]
    exact key q h1
  · rw [if_neg h1]
    have hlt : q < 1 := not_le.mp h1
    have hinv : 1 ≤ 1 / q := by
      rw [le_div_iff₀ hq]; linarith
    obtain ⟨k1, k2⟩ := key (1 / q) hinv
    simp only
    set k : ℤ := ((Nat.toDigits 10 ⌊1 / q⌋.toNat).length : ℤ) - 1 with hk
    have hpk : (0 : ℚ) < (10 : ℚ) ^ k := zpow_pos (by norm_num) k
    have hpk1 : (0 : ℚ) < (10 : ℚ) ^ (k + 1) := zpow_pos (by norm_num) (k + 1)
    have k1' : q * (10 : ℚ) ^ k ≤ 1 := by
      have := (le_div_iff₀ hq).mp k1
      linarith
    have k2' : 1 < q * (10 : ℚ) ^ (k + 1) := by
      have := (div_lt_iff₀ hq).mp k2
      linarith
    by_cases hc : 1 ≤ q * (10 : ℚ) ^ k
    · rw [if_pos hc]
      constructor
      · rw [zpow_neg, ← one_div, div_le_iff₀ hpk]; exact hc
      · rw [show -k + 1 = -(k - 1) by ring, zpow_neg, ← one_div, lt_div_iff₀ (zpow_pos (by norm_num) _)]
        have e : (10 : ℚ) ^ k = (10 : ℚ) ^ (k - 1) * 10 := by
          rw [← zpow_add_one₀ h10]; congr 1; ring
        rw [e] at k1'
        have hp := zpow_pos (by norm_num : (0 : ℚ) < 10) (k - 1)
        nlinarith
    · rw [if_neg hc]
      constructor
      · rw [zpow_neg, ← one_div, div_le_iff₀ hpk1]; linarith
      · rw [show -(k + 1) + 1 = -k by ring, zpow_neg, ← one_div, lt_div_iff₀ hpk]
        exact not_le.mp hc

theorem round_half_even_le (t : ℚ) (ht : 0 ≤ t) :
    ((fmtlib.round_half_even t : ℕ) : ℚ) ≤ t + 1 / 2 := by
  have hf : (0 : ℤ) ≤ ⌊t⌋ := Int.floor_nonneg.mpr ht
  have hcast : ((⌊t⌋.toNat : ℕ) : ℚ) = (⌊t⌋ : ℚ) := by
    have : ((⌊t⌋.toNat : ℕ) : ℤ) = ⌊t⌋ := Int.toNat_of_nonneg hf
    exact_mod_cast congrArg (Int.cast : ℤ → ℚ) this
  have h1 : (⌊t⌋ : ℚ) ≤ t := Int.floor_le t
  unfold fmtlib.round_half_even
  simp only [hcast]
  split_ifs <;> push_cast <;> simp only [hcast] <;> linarith

/-- The unsigned exponential rendering of the library model, for a magnitude in the
range of binary64, has one digit, the point or nothing, `p` digits, the exponent
character, the exponent sign and two or three exponent digits. -/
theorem exp_body_length_le (mag : ℚ) (p : ℕ) (alt : Bool) (c : Char)
    (hr : mag = 0 ∨ ((2 : ℚ) ^ (-1074 : ℤ) ≤ mag ∧ mag < (2 : ℚ) ^ (1024 : ℤ))) :
    (fmtlib.exp_body mag p alt c).length ≤ p + 7 := by
  have h10 : (10 : ℚ) ≠ 0 := by norm_num
  -- the significand and the exponent
  have hmain : ∀ (e0 : ℤ) (n0 : ℕ),
      e0 = (if mag = 0 then 0 else fmtlib.floor_log10 mag) →
      n0 = fmtlib.round_half_even (mag / (10 : ℚ) ^ (e0 - (p : ℤ))) →
      n0 ≤ 10 ^ (p + 1) ∧ -324 ≤ e0 ∧ e0 ≤ 308 := by
    intro e0 n0 he0 hn0
    rcases hr with hz | ⟨hlo, hhi⟩
    · rw [if_pos hz] at he0
      subst he0
      rw [hz, zero_div] at hn0
      have : n0 = 0 := by rw [hn0]; decide!
      subst this
      exact ⟨Nat.zero_le _, by norm_num, by norm_num⟩
    · have hpos : 0 < mag := lt_of_lt_of_le (by positivity) hlo
      rw [if_neg hpos.ne'] at he0
      obtain ⟨s1, s2⟩ := floor_log10_spec mag hpos
      rw [← he0] at s1 s2
      have hden : (0 : ℚ) < (10 : ℚ) ^ (e0 - (p : ℤ)) := zpow_pos (by norm_num) _
      have hquot : mag / (10 : ℚ) ^ (e0 - (p : ℤ)) < (10 : ℚ) ^ (p + 1) := by
        rw [div_lt_iff₀ hden]
        have e : (10 : ℚ) ^ (p + 1) * (10 : ℚ) ^ (e0 - (p : ℤ)) = (10 : ℚ) ^ (e0 + 1) := by
          rw [← zpow_natCast, ← zpow_add₀ h10]
          congr 1
          push_cast
          ring
        rw [e]; exact s2
      have hround := round_half_even_le (mag / (10 : ℚ) ^ (e0 - (p : ℤ)))
        (div_nonneg hpos.le hden.le)
      rw [← hn0] at hround
      have hn : (n0 : ℚ) < (10 : ℚ) ^ (p + 1) + 1 := by linarith
      have hn' : n0 < 10 ^ (p + 1) + 1 := by exact_mod_cast hn
      refine ⟨by omega, ?_, ?_⟩
      · have h1 : (10 : ℚ) ^ (-324 : ℤ) < (10 : ℚ) ^ (e0 + 1) := by
          have hnum : (10 : ℚ) ^ (-324 : ℤ) ≤ (2 : ℚ) ^ (-1074 : ℤ) := by
            rw [zpow_neg, zpow_neg, inv_le_inv₀ (by positivity) (by positivity)]
            norm_num
          linarith
        have := (zpow_lt_zpow_iff_right₀ (by norm_num : (1 : ℚ) < 10)).mp h1
        omega
      · have h1 : (10 : ℚ) ^ e0 < (10 : ℚ) ^ (309 : ℤ) := by
          have hnum : (2 : ℚ) ^ (1024 : ℤ) ≤ (10 : ℚ) ^ (309 : ℤ) := by
            norm_num
          linarith
        have := (zpow_lt_zpow_iff_right₀ (by norm_num : (1 : ℚ) < 10)).mp h1
        omega
  obtain ⟨hn0, he1, he2⟩ := hmain _ _ rfl rfl
  unfold fmtlib.exp_body
  simp only
  set e0 : ℤ := (if mag = 0 then 0 else fmtlib.floor_log10 mag) with he0
  set n0 := fmtlib.round_half_even (mag / (10 : ℚ) ^ (e0 - (p : ℤ))) with hn0def
  have hn : (if decide (10 ^ (p + 1) ≤ n0) = true then n0 / 10 else n0) < 10 ^ (p + 1) := by
    split_ifs with hc
    · rw [decide_eq_true_eq] at hc
      have : n0 = 10 ^ (p + 1) := le_antisymm hn0 hc
      rw [this, pow_succ, Nat.mul_div_cancel _ (by norm_num)]
      have : 0 < 10 ^ p := by positivity
      omega
    · rw [decide_eq_true_eq] at hc
      omega
  have he : (if decide (10 ^ (p + 1) ≤ n0) = true then e0 + 1 else e0).natAbs < 10 ^ 3 := by
    split_ifs <;> omega
  have hds := zero_padded_length (p + 1) _ hn (Nat.succ_pos p)
  have hexp := zero_padded_length_le 2 _ 3 he (by norm_num) (by norm_num)
  have hpt : (fmtlib.point p alt).length ≤ 1 := by
    unfold fmtlib.point
    split <;> simp
  simp only [List.length_append, List.length_take, List.length_drop, hds, List.length_cons,
    List.length_nil]
  omega

/-- A rounded magnitude is zero or at least the smallest positive binary64 value. -/
theorem to_binary64_range (q : ℚ) :
    Real64.to_binary64 q = 0 ∨ (2 : ℚ) ^ (-1074 : ℤ) ≤ Real64.to_binary64 q := by
  unfold Real64.to_binary64
  split_ifs with h1 h2
  · exact Or.inl rfl
  · right
    unfold Real64.infinity_mag
    have : (2 : ℚ) ^ (-1074 : ℤ) ≤ 1 := by
      rw [zpow_neg]
      exact inv_le_one_of_one_le₀ (one_le_zpow₀ (by norm_num) (by norm_num))
    have h2 : (1 : ℚ) ≤ 2 ^ 1024 := one_le_pow₀ (by norm_num)
    linarith
  · by_cases hz : Real64.ties_to_even (q / Real64.ulp_above q) = 0
    · left; rw [hz]; simp
    · right
      have hge : (1 : ℚ) ≤ ((Real64.ties_to_even (q / Real64.ulp_above q) : ℕ) : ℚ) := by
        exact_mod_cast Nat.one_le_iff_ne_zero.mpr hz
      have hu : (2 : ℚ) ^ (-1074 : ℤ) ≤ Real64.ulp_above q := by
        unfold Real64.ulp_above
        apply zpow_le_zpow_right₀ (by norm_num)
        omega
      have hupos := ulp_above_pos q
      exact le_trans hu (le_mul_of_one_le_left hupos.le hge)

/-- The magnitude of a product is zero or at least the smallest positive binary64
value. -/
theorem mul_mag_range (a b : Real64) :
    (a.mul b).mag = 0 ∨ (2 : ℚ) ^ (-1074 : ℤ) ≤ (a.mul b).mag := by
  have hinf : (2 : ℚ) ^ (-1074 : ℤ) ≤ Real64.infinity_mag := by
    unfold Real64.infinity_mag
    have h1 : (2 : ℚ) ^ (-1074 : ℤ) ≤ 1 := by
      rw [zpow_neg]
      exact inv_le_one_of_one_le₀ (one_le_zpow₀ (by norm_num) (by norm_num))
    have h2 : (1 : ℚ) ≤ 2 ^ 1024 := one_le_pow₀ (by norm_num)
    linarith
  unfold Real64.mul
  split_ifs
  · exact Or.inl rfl
  · exact Or.inr hinf
  · show |Real64.to_binary64 (a.mag * b.mag)| = 0 ∨ _ ≤ |Real64.to_binary64 (a.mag * b.mag)|
    rw [abs_of_nonneg (to_binary64_nonneg _)]
    exact to_binary64_range _

/-- For `P ≥ 1` and `W ≥ P + 7` the unsigned exponential rendering of `10 * v` by the
modelled library writer at precision `P - 1` leaves room for the sign in the field. -/
theorem legacy_exponential_room (specs : format_specs) (v : Real64)
    (hP : 1 ≤ specs.precision) (hW : specs.precision + 7 ≤ specs.width) :
    ((fmtlib.fmt_write ⟨0, specs.precision - 1, 'E', true⟩
      (v.mul (Real64.ofNat 10)).abs).length : ℤ) < specs.width := by
  have hF : ¬ (('E' : Char) = 'F' ∨ ('E' : Char) = 'f') := by decide
  have hp : ¬ (specs.precision - 1 < 0) := by omega
  have hmag : (v.mul (Real64.ofNat 10)).abs.mag = (v.mul (Real64.ofNat 10)).mag := rfl
  have hsa : fmtlib.sign_chars (v.mul (Real64.ofNat 10)).abs = [] := rfl
  unfold fmtlib.fmt_write
  simp only [hF, if_false, true_or, if_true, hp, hsa, List.nil_append]
  unfold fmtlib.pad_left
  simp only [Int.toNat_zero, Nat.zero_sub, List.replicate_zero, List.nil_append]
  split_ifs with hinf
  · have : (fmtlib.infinity_body 'E').length = 3 := by decide
    rw [this]; omega
  · have hlt : (v.mul (Real64.ofNat 10)).abs.mag < (2 : ℚ) ^ (1024 : ℤ) := by
      have e : Real64.infinity_mag = (2 : ℚ) ^ (1024 : ℤ) :=
        (zpow_natCast (2 : ℚ) 1024).symm
      rw [← e]
      exact not_le.mp hinf
    have hr : (v.mul (Real64.ofNat 10)).abs.mag = 0 ∨
        ((2 : ℚ) ^ (-1074 : ℤ) ≤ (v.mul (Real64.ofNat 10)).abs.mag ∧
          (v.mul (Real64.ofNat 10)).abs.mag < (2 : ℚ) ^ (1024 : ℤ)) := by
      rcases mul_mag_range v (Real64.ofNat 10) with h | h
      · left; rw [hmag]; exact h
      · right; exact ⟨by rw [hmag]; exact h, hlt⟩
    have := exp_body_length_le _ (specs.precision - 1).toNat true 'E' hr
    omega

/-- C8 (amended). Under either directive `v` and `-v` choose the same notation:
eligibility and the fit test do not depend on the sign, and the calls return the same
spec. Under the legacy-G directive both are rendered with the same adjusted width and
precision, and, with the modelled library writer, the two tokens have the same digit
sequence on the fixed path and, for `P ≥ 1` and `W ≥ P + 7`, on the exponential path,
where they differ in the sign character only (a minus sign against a space).
Under the rounding-compatible directive the nudge `10^-(P+10)` is added to the signed
value of both, and both are moved toward `1.0` on the exponential path. Both `+0.0` and
`-0.0` are fixed-eligible, take the fixed path under legacy-G and get the zero
precision decrement there. -/
theorem sign_symmetry :
    (∀ v : Real64, should_be_fixed_output v.negate = should_be_fixed_output v) ∧
      (∀ (lib : math_library) (v : Real64) (places : ℤ),
        fixed_will_fit lib v.negate places = fixed_will_fit lib v places) ∧
      (∀ (lib : math_library) (specs : format_specs) (v : Real64),
        legacy_fixed_specs lib specs v.negate = legacy_fixed_specs lib specs v) ∧
      (∀ (lib : math_library) (fuel : ℕ) (specs : format_specs) (v : Real64),
        specs.type = 'T' →
        (should_be_fixed_output v && fixed_will_fit lib v (specs.width - 5)) = true →
        ∃ t t' s, call_specs lib fmtlib.fmt_write (fuel + 2) specs v = .ok (t, s) ∧
          call_specs lib fmtlib.fmt_write (fuel + 2) specs v.negate = .ok (t', s) ∧
          digit_sequence t' = digit_sequence t) ∧
      (∀ (lib : math_library) (fuel : ℕ) (specs : format_specs) (v : Real64),
        specs.type = 'T' →
        (should_be_fixed_output v && fixed_will_fit lib v (specs.width - 5)) = false →
        1 ≤ specs.precision → specs.precision + 7 ≤ specs.width →
        ∃ t t' s, call_specs lib fmtlib.fmt_write (fuel + 2) specs v = .ok (t, s) ∧
          call_specs lib fmtlib.fmt_write (fuel + 2) specs v.negate = .ok (t', s) ∧
          t'.map blank_minus = t.map blank_minus ∧ digit_sequence t' = digit_sequence t) ∧
      (∀ (lib : math_library) (bw : format_specs → Real64 → List Char) (fuel : ℕ)
        (specs : format_specs) (v : Real64), specs.type = 'R' →
        (∃ t t' s, call_specs lib bw (fuel + 2) specs v = .ok (t, s) ∧
          call_specs lib bw (fuel + 2) specs v.negate = .ok (t', s)) ∧
        (v.toRat ≠ 0 → should_be_fixed_output v = true →
          adjusted_value lib v specs.precision =
              v.add (lib.pow10 (-(specs.precision + 10))) ∧
            adjusted_value lib v.negate specs.precision =
              v.negate.add (lib.pow10 (-(specs.precision + 10)))) ∧
        (should_be_fixed_output v = false →
          adjusted_value lib v specs.precision = v.nextafter_one ∧
            adjusted_value lib v.negate specs.precision = v.negate.nextafter_one)) ∧
      (∀ (lib : math_library) (specs : format_specs),
        (should_be_fixed_output positive_zero &&
            fixed_will_fit lib positive_zero (specs.width - 5)) = true ∧
          (should_be_fixed_output negative_zero &&
            fixed_will_fit lib negative_zero (specs.width - 5)) = true ∧
          (legacy_fixed_specs lib specs positive_zero).precision =
            max 0 (specs.precision - 1) ∧
          (legacy_fixed_specs lib specs negative_zero).precision =
            max 0 (specs.precision - 1)) := by
  refine ⟨should_be_fixed_output_negate, fixed_will_fit_negate, legacy_fixed_specs_negate,
    ?_, ?_, ?_, ?_⟩
  · intro lib fuel specs v hT hfix
    have hfix' : (should_be_fixed_output v.negate &&
        fixed_will_fit lib v.negate (specs.width - 5)) = true := by
      rw [should_be_fixed_output_negate, fixed_will_fit_negate]; exact hfix
    have h1 := call_specs_legacy_fixed lib fmtlib.fmt_write fuel specs v hT hfix
    have h2 := call_specs_legacy_fixed lib fmtlib.fmt_write fuel specs v.negate hT hfix'
    rw [legacy_fixed_specs_negate] at h2
    refine ⟨_, _, _, h1, h2, ?_⟩
    simp only [digit_sequence_append]
    rw [digit_sequence_fmt_write_negate _ _ (legacy_fixed_specs_type lib specs v)]
  · intro lib fuel specs v hT hexp hP hW
    exact legacy_exponential_digits_negate lib (fuel + 1) specs v hT hexp hP hW
      (legacy_exponential_room specs v hP hW)
  · intro lib bw fuel specs v hR
    have hne : v.toRat ≠ 0 → v.negate.toRat ≠ 0 := by
      intro h; rw [Real64.toRat_negate]; exact neg_ne_zero.mpr h
    refine ⟨?_, fun h0 hfix => ⟨adjusted_value_fixed lib v _ h0 hfix,
      adjusted_value_fixed lib v.negate _ (hne h0)
        (by rw [should_be_fixed_output_negate]; exact hfix)⟩,
      fun hexp => ⟨adjusted_value_exponential lib v _ hexp,
        adjusted_value_exponential lib v.negate _
          (by rw [should_be_fixed_output_negate]; exact hexp)⟩⟩
    cases hfix : should_be_fixed_output v
    · exact ⟨_, _, _, call_specs_rounding_exponential lib bw (fuel + 1) specs v hR hfix,
        call_specs_rounding_exponential lib bw (fuel + 1) specs v.negate hR
          (by rw [should_be_fixed_output_negate]; exact hfix)⟩
    · exact ⟨_, _, _, call_specs_rounding_fixed lib bw fuel specs v hR hfix,
        call_specs_rounding_fixed lib bw fuel specs v.negate hR
          (by rw [should_be_fixed_output_negate]; exact hfix)⟩
  · intro lib specs
    have hp : binary64_precision_decrement lib positive_zero 1 := Or.inl ⟨by decide!, rfl⟩
    have hn : binary64_precision_decrement lib negative_zero 1 := Or.inl ⟨by decide!, rfl⟩
    refine ⟨?_, ?_, ?_, ?_⟩
    · rw [Bool.and_eq_true]
      exact ⟨by decide!, by unfold fixed_will_fit; rw [if_pos (by decide!)]⟩
    · rw [Bool.and_eq_true]
      exact ⟨by decide!, by unfold fixed_will_fit; rw [if_pos (by decide!)]⟩
    · rw [legacy_fixed_specs_eq lib specs positive_zero 1 hp]
    · rw [legacy_fixed_specs_eq lib specs negative_zero 1 hn]

/-- C8 (witness). The fixed-path statement at `123.456` and the directive `{:14.6T}`,
and the exponential-path statement at `2^-400` and the directive `{:12.4T}`, where both
signs give `" 308.73E-120"`. -/
theorem sign_symmetry_witness :
    (∃ t t' s,
      call_specs libm fmtlib.fmt_write (0 + 2) specs_T_14_6 value_123_456 = .ok (t, s) ∧
      call_specs libm fmtlib.fmt_write (0 + 2) specs_T_14_6 value_123_456.negate = .ok (t', s) ∧
      digit_sequence t' = digit_sequence t) ∧
    (∃ t t' s,
      call_specs libm fmtlib.fmt_write (0 + 2) specs_T_12_4 value_two_pow_minus_400 =
        .ok (t, s) ∧
      call_specs libm fmtlib.fmt_write (0 + 2) specs_T_12_4 value_two_pow_minus_400.negate =
        .ok (t', s) ∧
      t'.map blank_minus = t.map blank_minus ∧ digit_sequence t' = digit_sequence t) ∧
    call libm fmtlib.fmt_write 2 (some specs_T_12_4) value_two_pow_minus_400.negate =
      .ok (" 308.73E-120".toList, some ⟨12, 3, 'E', true⟩) :=
  ⟨sign_symmetry.2.2.2.1 libm 0 specs_T_14_6 value_123_456 rfl (by decide!),
    sign_symmetry.2.2.2.2.1 libm 0 specs_T_12_4 value_two_pow_minus_400 rfl (by decide!)
      (by decide) (by decide),
    by decide!⟩

/-- C8 (counterexample). Under the rounding-compatible directive at precision 2, `0.125`
gives `0.13` and `-0.125` gives `-0.12` on the fixed path, and `0.03125` gives
`3.13E-002` and `-0.03125` gives `-3.12E-002` on the exponential path: the value, not
its magnitude, is pushed up, and the digit sequences differ. Under the legacy-G
directive with `{:12.0T}`, where the rendering leaves no room for the sign, `0.0123456`
gives `1.23460E0-01` and `-0.0123456` gives `-1.235006E-01`. -/
theorem sign_symmetry_rounding_fails :
    call libm fmtlib.fmt_write 2 (some specs_R_2) value_eighth =
        .ok ("0.13".toList, some ⟨0, 2, 'F', false⟩) ∧
      call libm fmtlib.fmt_write 2 (some specs_R_2) value_eighth.negate =
        .ok ("-0.12".toList, some ⟨0, 2, 'F', false⟩) ∧
      digit_sequence "0.13".toList ≠ digit_sequence "-0.12".toList ∧
      call libm fmtlib.fmt_write 2 (some specs_R_2) value_thirty_second =
        .ok ("3.13E-002".toList, some ⟨0, 2, 'E', false⟩) ∧
      call libm fmtlib.fmt_write 2 (some specs_R_2) value_thirty_second.negate =
        .ok ("-3.12E-002".toList, some ⟨0, 2, 'E', false⟩) ∧
      digit_sequence "3.13E-002".toList ≠ digit_sequence "-3.12E-002".toList ∧
      call libm fmtlib.fmt_write 2 (some specs_T_12_0) value_0_0123456 =
        .ok ("1.23460E0-01".toList, some ⟨12, -1, 'E', true⟩) ∧
      call libm fmtlib.fmt_write 2 (some specs_T_12_0) value_0_0123456.negate =
        .ok ("-1.235006E-01".toList, some ⟨12, -1, 'E', true⟩) ∧
      digit_sequence "1.23460E0-01".toList ≠ digit_sequence "-1.235006E-01".toList := by
  decide!

/-! ## Zero and mode selection under the `'R'` directive -/

theorem adjusted_value_zero (lib : math_library) (v : Real64) (P : ℤ) (h0 : v.toRat = 0) :
    adjusted_value lib v P = v := by
  unfold adjusted_value
  simp [h0]

theorem rounded_value_zero (lib : math_library) (v : Real64) (P : ℤ) (h0 : v.mag = 0) :
    rounded_value lib v P = v := by
  have hmul : v.mul (lib.pow10 P) = ⟨xor v.neg (lib.pow10 P).neg, 0, le_refl 0⟩ := by
    unfold Real64.mul
    rw [if_pos (Or.inl h0)]
  have hround : (v.mul (lib.pow10 P)).round = ⟨xor v.neg (lib.pow10 P).neg, 0, le_refl 0⟩ := by
    rw [hmul]
    apply real64_eq
    · rfl
    · show ((⌊(0 : ℚ) + 1 / 2⌋.toNat : ℕ) : ℚ) = 0
      norm_num
  unfold rounded_value
  simp only
  rw [hround]
  unfold Real64.div
  rw [if_pos rfl]
  apply real64_eq
  · show xor (xor v.neg (lib.pow10 P).neg) (lib.pow10 P).neg = v.neg
    cases v.neg <;> cases (lib.pow10 P).neg <;> rfl
  · exact h0.symm

/-- C9 (amended). For `+0.0` and for `-0.0` under the rounding-compatible directive no
nudge is applied and the value itself is rendered in fixed notation by the library at the
requested width and the requested precision: the precision is not decremented and no
trailing pad is written. -/
theorem rounding_zero (lib : math_library) (bw : format_specs → Real64 → List Char)
    (fuel : ℕ) (specs : format_specs) (hR : specs.type = 'R') :
    adjusted_value lib positive_zero specs.precision = positive_zero ∧
      adjusted_value lib negative_zero specs.precision = negative_zero ∧
      call_specs lib bw (fuel + 2) specs positive_zero =
        .ok (bw { specs with type := 'F' } positive_zero, { specs with type := 'F' }) ∧
      call_specs lib bw (fuel + 2) specs negative_zero =
        .ok (bw { specs with type := 'F' } negative_zero, { specs with type := 'F' }) := by
  have hp : positive_zero.toRat = 0 := by decide!
  have hn : negative_zero.toRat = 0 := by decide!
  refine ⟨adjusted_value_zero lib _ _ hp, adjusted_value_zero lib _ _ hn, ?_, ?_⟩
  · rw [call_specs_rounding_fixed lib bw fuel specs positive_zero hR (by decide!),
      adjusted_value_zero lib _ _ hp, rounded_value_zero lib _ _ rfl]
  · rw [call_specs_rounding_fixed lib bw fuel specs negative_zero hR (by decide!),
      adjusted_value_zero lib _ _ hn, rounded_value_zero lib _ _ rfl]

/-- C9 (witness). The statement with the modelled library writer and the directive
`{:10.4R}`. -/
theorem rounding_zero_witness :
    adjusted_value libm positive_zero specs_R_10_4.precision = positive_zero ∧
      adjusted_value libm negative_zero specs_R_10_4.precision = negative_zero ∧
      call_specs libm fmtlib.fmt_write (0 + 2) specs_R_10_4 positive_zero =
        .ok (fmtlib.fmt_write { specs_R_10_4 with type := 'F' } positive_zero,
          { specs_R_10_4 with type := 'F' }) ∧
      call_specs libm fmtlib.fmt_write (0 + 2) specs_R_10_4 negative_zero =
        .ok (fmtlib.fmt_write { specs_R_10_4 with type := 'F' } negative_zero,
          { specs_R_10_4 with type := 'F' }) :=
  rounding_zero libm fmtlib.fmt_write 0 specs_R_10_4 rfl

/-- C9 (counterexample). `0.0` with the directive `{:10.4R}` is rendered with four
fraction digits and the spec keeps precision 4, while the zero rule of the legacy-G
fixed path decrements the precision to 3, whose rendering has three fraction digits. -/
theorem rounding_zero_keeps_precision :
    call libm fmtlib.fmt_write 2 (some specs_R_10_4) positive_zero =
        .ok ("    0.0000".toList, some ⟨10, 4, 'F', false⟩) ∧
      (legacy_fixed_specs libm specs_T_10_4 positive_zero).precision = 3 ∧
      fmtlib.fmt_write ⟨10, 3, 'F', false⟩ positive_zero = "     0.000".toList := by
  decide!

/-- C10 (amended). The rounding-compatible directive renders in fixed notation exactly
when the value is fixed-eligible, whatever the width, and in exponential notation
otherwise; its choice is the legacy-G directive's choice for the same value and width
exactly when the value is not eligible or fixed fits within `W - 5` by the test of the
source (`|v| < 1.0`, or the integer part of the library's binary64 `log10(|v|)` is below
`W - 5`), which is the specification's test `floor(log10(|v|)) < W - 5` wherever the
library's logarithm has the integer part of the real one. -/
theorem rounding_mode_selection (lib : math_library) (bw : format_specs → Real64 → List Char)
    (fuel : ℕ) (specs : format_specs) (v : Real64) (hR : specs.type = 'R') :
    (should_be_fixed_output v = true →
        call_specs lib bw (fuel + 2) specs v =
          .ok (bw { specs with type := 'F' }
                (rounded_value lib (adjusted_value lib v specs.precision) specs.precision),
              { specs with type := 'F' })) ∧
      (should_be_fixed_output v = false →
        call_specs lib bw (fuel + 2) specs v =
          .ok (pad_exponent (bw { specs with type := 'E' }
                (adjusted_value lib v specs.precision)),
              { specs with type := 'E' })) ∧
      (should_be_fixed_output v =
          (should_be_fixed_output v && fixed_will_fit lib v (specs.width - 5)) ↔
        (should_be_fixed_output v = false ∨ fixed_fits_binary64 lib v specs.width)) ∧
      (log10_floor_exact lib v →
        (should_be_fixed_output v =
            (should_be_fixed_output v && fixed_will_fit lib v (specs.width - 5)) ↔
          (should_be_fixed_output v = false ∨ spec_fixed_fits v specs.width))) := by
  have hfit : fixed_will_fit lib v (specs.width - 5) = true ↔
      fixed_fits_binary64 lib v specs.width := fixed_will_fit_iff lib v (specs.width - 5)
  have hthird : should_be_fixed_output v =
      (should_be_fixed_output v && fixed_will_fit lib v (specs.width - 5)) ↔
      (should_be_fixed_output v = false ∨ fixed_fits_binary64 lib v specs.width) := by
    rw [← hfit]
    cases should_be_fixed_output v <;> cases fixed_will_fit lib v (specs.width - 5) <;> simp
  refine ⟨call_specs_rounding_fixed lib bw fuel specs v hR,
    call_specs_rounding_exponential lib bw (fuel + 1) specs v hR, hthird, fun hex => ?_⟩
  rw [hthird, fixed_fits_binary64_iff_spec lib v specs.width hex]

/-- C10 (witness). `123.456` with the directive `{:14.6R}` is rendered in fixed
notation; the library's logarithm has the integer part of the real one, fixed fits
within `14 - 5` in the words of the specification, and the legacy-G mode selection
chooses fixed as well. -/
theorem rounding_mode_selection_witness :
    call_specs libm fmtlib.fmt_write (0 + 2) specs_R_14_6 value_123_456 =
        .ok ("    123.456000".toList, { specs_R_14_6 with type := 'F' }) ∧
      spec_fixed_fits value_123_456 specs_R_14_6.width ∧
      should_be_fixed_output value_123_456 =
        (should_be_fixed_output value_123_456 &&
          fixed_will_fit libm value_123_456 (specs_R_14_6.width - 5)) :=
  have hspec : spec_fixed_fits value_123_456 specs_R_14_6.width := by
    refine Or.inr ?_
    rw [abs_cast_toRat, floor_logb_eq _ 2 (by decide!) (by decide!)]
    decide
  ⟨((rounding_mode_selection libm fmtlib.fmt_write 0 specs_R_14_6 value_123_456 rfl).1
      (by decide!)).trans (by decide!),
    hspec,
    ((rounding_mode_selection libm fmtlib.fmt_write 0 specs_R_14_6 value_123_456 rfl).2.2.2
      log10_floor_exact_123_456).mpr (Or.inr hspec)⟩

/-- C10 (counterexample). For `123456789.0` and width 10 the legacy-G mode selection
does not choose fixed (the value is eligible but `floor(log10) = 8` is not below
`10 - 5`), so legacy-G renders it in exponential notation, yet the rounding-compatible
directive renders it in fixed notation. -/
theorem rounding_mode_ignores_width :
    (should_be_fixed_output value_123456789 &&
        fixed_will_fit libm value_123456789 ((10 : ℤ) - 5)) = false ∧
      ¬ spec_fixed_fits value_123456789 10 ∧
      call libm fmtlib.fmt_write 2 (some ⟨10, 2, 'T', false⟩) value_123456789 =
        .ok ("  0.12E+09".toList, some ⟨10, 1, 'E', true⟩) ∧
      call libm fmtlib.fmt_write 2 (some specs_R_10_2) value_123456789 =
        .ok ("123456789.00".toList, some ⟨10, 2, 'F', false⟩) := by
  refine ⟨by decide!, ?_, by decide!, by decide!⟩
  rintro (h | h)
  · revert h; decide!
  · rw [abs_cast_toRat, floor_logb_eq _ 8 (by decide!) (by decide!)] at h
    revert h; decide

/-! ## Width of the fixed-path token -/

/-- C17. For every legacy-G fixed-path rendering (with a library writer that pads and
never truncates) the call returns a token; when the unpadded standard rendering at the
adjusted precision is no longer than the working width, the token has exactly `W`
characters, and when it exceeds the working width by `e > 0`, the token has `W + e`
characters. The working width is `W - 5` when the adjusted precision is `0` and `W - 4`
when it is positive. (The bound `W ≥ 5` of the claim is not needed.) -/
theorem legacy_fixed_width_conditional (lib : math_library) (bw : format_specs → Real64 → List Char)
    (fuel : ℕ) (specs : format_specs) (v : Real64) (hT : specs.type = 'T')
    (hfix : (should_be_fixed_output v && fixed_will_fit lib v (specs.width - 5)) = true)
    (hpad : pads_to_width bw) :
    ∃ out s, call_specs lib bw (fuel + 2) specs v = .ok (out, s) ∧
      (legacy_fixed_specs lib specs v).width =
        (if (legacy_fixed_specs lib specs v).precision = 0 then specs.width - 5
          else specs.width - 4) ∧
      (((bw { legacy_fixed_specs lib specs v with width := 0 } v).length : ℤ) ≤
          (legacy_fixed_specs lib specs v).width → (out.length : ℤ) = specs.width) ∧
      (∀ e : ℤ, 0 < e →
        ((bw { legacy_fixed_specs lib specs v with width := 0 } v).length : ℤ) =
          (legacy_fixed_specs lib specs v).width + e → (out.length : ℤ) = specs.width + e) := by
  refine ⟨_, _, call_specs_legacy_fixed lib bw fuel specs v hT hfix,
    legacy_fixed_specs_width lib specs v, ?_, ?_⟩
  · intro hroom
    have hlen := hpad (legacy_fixed_specs lib specs v) v (legacy_fixed_specs_type lib specs v)
    have hw := legacy_fixed_specs_width lib specs v
    dsimp only at hroom hlen
    simp only [List.length_append, hlen]
    split_ifs at hw ⊢ with h0 <;> simp <;> omega
  · intro e he hover
    have hlen := hpad (legacy_fixed_specs lib specs v) v (legacy_fixed_specs_type lib specs v)
    have hw := legacy_fixed_specs_width lib specs v
    dsimp only at hover hlen
    simp only [List.length_append, hlen]
    split_ifs at hw ⊢ with h0 <;> simp <;> omega

/-- C17 (witness). `1.5` with the directive `{:10.8T}`: the unpadded rendering has nine
characters, three more than the working width six, and the token has thirteen. -/
theorem legacy_fixed_width_conditional_witness :
    ∃ out s,
      call_specs libm fmtlib.fmt_write (0 + 2) specs_T_10_8 value_one_and_half = .ok (out, s) ∧
      (legacy_fixed_specs libm specs_T_10_8 value_one_and_half).width =
        (if (legacy_fixed_specs libm specs_T_10_8 value_one_and_half).precision = 0
          then specs_T_10_8.width - 5 else specs_T_10_8.width - 4) ∧
      (((fmtlib.fmt_write
            { legacy_fixed_specs libm specs_T_10_8 value_one_and_half with width := 0 }
            value_one_and_half).length : ℤ) ≤
          (legacy_fixed_specs libm specs_T_10_8 value_one_and_half).width →
        (out.length : ℤ) = specs_T_10_8.width) ∧
      (∀ e : ℤ, 0 < e →
        ((fmtlib.fmt_write
            { legacy_fixed_specs libm specs_T_10_8 value_one_and_half with width := 0 }
            value_one_and_half).length : ℤ) =
          (legacy_fixed_specs libm specs_T_10_8 value_one_and_half).width + e →
        (out.length : ℤ) = specs_T_10_8.width + e) :=
  legacy_fixed_width_conditional libm fmtlib.fmt_write 0 specs_T_10_8 value_one_and_half rfl
    (by decide!) fmt_write_pads_to_width

/-! ## The position swap of the exponential branch -/

theorem leading_zero_swap_ok (str : List Char) (a : ℕ) (h : a + 3 < str.length) :
    leading_zero_swap str (a : ℤ) =
      .ok (((((str.set a (str.getD (a + 1) ' ')).set (a + 1) (str.getD a ' ')).set (a + 2)
              (((str.set a (str.getD (a + 1) ' ')).set (a + 1) (str.getD a ' ')).getD
                (a + 3) ' ')).set (a + 3)
              (((str.set a (str.getD (a + 1) ' ')).set (a + 1) (str.getD a ' ')).getD
                (a + 2) ' ')).set (a + 1) '0') := by
  unfold leading_zero_swap
  have hb : 0 ≤ (a : ℤ) ∧ (a : ℤ) + 3 < (str.length : ℤ) := by
    constructor <;> omega
  rw [if_pos hb]
  simp only [Int.toNat_ofNat]

theorem leading_zero_swap_ne_out_of_fuel (str : List Char) (anchor : ℤ) :
    leading_zero_swap str anchor ≠ .error Fault.out_of_fuel := by
  unfold leading_zero_swap
  split
  · intro h; cases h
  · intro h; cases h

/-- C18. On the exponential path of the legacy-G directive, when `P ≥ 1`, `W ≥ P + 7` and
the rendered string has at least `W` characters, the four positions `anchor` to
`anchor + 3`, with `anchor = W - (P - 1 + 8)`, are positions of the rendered string, and
the call returns a token. -/
theorem leading_zero_swap_in_bounds (lib : math_library) (bw : format_specs → Real64 → List Char)
    (fuel : ℕ) (specs : format_specs) (v : Real64) (hT : specs.type = 'T')
    (hexp : (should_be_fixed_output v && fixed_will_fit lib v (specs.width - 5)) = false)
    (hP : 1 ≤ specs.precision) (hW : specs.precision + 7 ≤ specs.width)
    (hlen : specs.width ≤
      ((bw { specs with type := 'E', alt := true, precision := specs.precision - 1 }
        (v.mul (Real64.ofNat 10))).length : ℤ)) :
    0 ≤ specs.width - (specs.precision - 1 + 8) ∧
      specs.width - (specs.precision - 1 + 8) + 3 <
        ((bw { specs with type := 'E', alt := true, precision := specs.precision - 1 }
          (v.mul (Real64.ofNat 10))).length : ℤ) ∧
      ∃ token, call_specs lib bw (fuel + 1) specs v =
        .ok (token, { specs with type := 'E', alt := true,
                                  precision := specs.precision - 1 }) := by
  have h0 : 0 ≤ specs.width - (specs.precision - 1 + 8) := by omega
  have h3 : specs.width - (specs.precision - 1 + 8) + 3 <
      ((bw { specs with type := 'E', alt := true, precision := specs.precision - 1 }
        (v.mul (Real64.ofNat 10))).length : ℤ) := by omega
  refine ⟨h0, h3, ?_⟩
  rw [call_specs_legacy_exponential lib bw fuel specs v hT hexp]
  obtain ⟨a, ha⟩ := Int.eq_ofNat_of_zero_le h0
  rw [ha] at h3 ⊢
  rw [leading_zero_swap_ok _ a (by omega)]
  exact ⟨_, rfl⟩

/-- C18 (witness). `123456789.0` with the directive `{:10.2T}`. -/
theorem leading_zero_swap_in_bounds_witness :
    0 ≤ specs_T_10_2.width - (specs_T_10_2.precision - 1 + 8) ∧
      specs_T_10_2.width - (specs_T_10_2.precision - 1 + 8) + 3 <
        ((fmtlib.fmt_write
          { specs_T_10_2 with type := 'E', alt := true,
                              precision := specs_T_10_2.precision - 1 }
          (value_123456789.mul (Real64.ofNat 10))).length : ℤ) ∧
      ∃ token, call_specs libm fmtlib.fmt_write (0 + 1) specs_T_10_2 value_123456789 =
        .ok (token, { specs_T_10_2 with type := 'E', alt := true,
                                        precision := specs_T_10_2.precision - 1 }) :=
  leading_zero_swap_in_bounds libm fmtlib.fmt_write 0 specs_T_10_2 value_123456789 rfl
    (by decide!) (by decide) (by decide) (by decide!)

theorem leading_zero_swap_positions (s : List Char) (a : ℕ) (h : a + 3 < s.length) :
    ∃ t, leading_zero_swap s (a : ℤ) = .ok t ∧ t.length = s.length ∧
      t[a]? = s[a + 1]? ∧ t[a + 1]? = some '0' ∧ t[a + 2]? = s[a + 3]? ∧
      t[a + 3]? = s[a + 2]? ∧ ∀ i, (i < a ∨ a + 3 < i) → t[i]? = s[i]? := by
  rw [leading_zero_swap_ok s a h]
  have h0 : a < s.length := by omega
  have h1 : a + 1 < s.length := by omega
  have h2 : a + 2 < s.length := by omega
  refine ⟨_, rfl, by simp, ?_, ?_, ?_, ?_, ?_⟩
  · simp [List.getElem?_set, List.getD_eq_getElem?_getD, List.getElem?_eq_getElem, h0, h1, h2, h]
  · simp [List.getElem?_set, List.getD_eq_getElem?_getD, List.getElem?_eq_getElem, h0, h1, h2, h]
  · simp [List.getElem?_set, List.getD_eq_getElem?_getD, List.getElem?_eq_getElem, h0, h1, h2, h]
  · simp [List.getElem?_set, List.getD_eq_getElem?_getD, List.getElem?_eq_getElem, h0, h1, h2, h]
  · intro i hi
    have e0 : a ≠ i := by omega
    have e1 : a + 1 ≠ i := by omega
    have e2 : a + 2 ≠ i := by omega
    have e3 : a + 3 ≠ i := by omega
    simp [List.getElem?_set, e0, e1, e2, e3]

/-- C16. On the exponential path of the legacy-G directive let `s` be the rendered
string and `a = W - (p + 8)` the anchor, `p = P - 1` being the post-decrement precision.
When `a` is a position of `s`, `s[a+2]` is the leading digit `d` and `s[a+3]` is `'.'`,
the token has the length of `s`, holds at `a` the character `s` had at `a + 1` (a `-`
sign moves there), `'0'` at `a + 1`, `'.'` at `a + 2` and `d` at `a + 3`, and equals `s`
at every position outside `a` to `a + 3`. -/
theorem leading_zero_swap_effect (lib : math_library) (bw : format_specs → Real64 → List Char)
    (fuel : ℕ) (specs : format_specs) (v : Real64) (hT : specs.type = 'T')
    (hexp : (should_be_fixed_output v && fixed_will_fit lib v (specs.width - 5)) = false)
    (a : ℕ) (d : Char) (ha : (a : ℤ) = specs.width - (specs.precision - 1 + 8))
    (hd : (bw { specs with type := 'E', alt := true, precision := specs.precision - 1 }
      (v.mul (Real64.ofNat 10)))[a + 2]? = some d)
    (hp : (bw { specs with type := 'E', alt := true, precision := specs.precision - 1 }
      (v.mul (Real64.ofNat 10)))[a + 3]? = some '.') :
    ∃ token, call_specs lib bw (fuel + 1) specs v =
        .ok (token, { specs with type := 'E', alt := true,
                                  precision := specs.precision - 1 }) ∧
      token.length =
        (bw { specs with type := 'E', alt := true, precision := specs.precision - 1 }
          (v.mul (Real64.ofNat 10))).length ∧
      token[a]? =
        (bw { specs with type := 'E', alt := true, precision := specs.precision - 1 }
          (v.mul (Real64.ofNat 10)))[a + 1]? ∧
      token[a + 1]? = some '0' ∧ token[a + 2]? = some '.' ∧ token[a + 3]? = some d ∧
      ∀ i, (i < a ∨ a + 3 < i) → token[i]? =
        (bw { specs with type := 'E', alt := true, precision := specs.precision - 1 }
          (v.mul (Real64.ofNat 10)))[i]? := by
  have hlen : a + 3 <
      (bw { specs with type := 'E', alt := true, precision := specs.precision - 1 }
        (v.mul (Real64.ofNat 10))).length := by
    rcases List.getElem?_eq_some.mp hp with ⟨h, _⟩
    exact h
  obtain ⟨t, hok, hl, h0, h1, h2, h3, hrest⟩ := leading_zero_swap_positions _ a hlen
  refine ⟨t, ?_, hl, h0, h1, ?_, ?_, hrest⟩
  · rw [call_specs_legacy_exponential lib bw fuel specs v hT hexp, ← ha, hok]
    rfl
  · rw [h2, hp]
  · rw [h3, hd]

/-- C16 (witness). `123456789.0` with the directive `{:10.2T}`: the rendered string is
`   1.2E+09`, the anchor is `1`, and the token is `  0.12E+09`. -/
theorem leading_zero_swap_effect_witness :
    ∃ token, call_specs libm fmtlib.fmt_write (0 + 1) specs_T_10_2 value_123456789 =
        .ok (token, { specs_T_10_2 with type := 'E', alt := true,
                                        precision := specs_T_10_2.precision - 1 }) ∧
      token.length =
        (fmtlib.fmt_write { specs_T_10_2 with type := 'E', alt := true,
                                              precision := specs_T_10_2.precision - 1 }
          (value_123456789.mul (Real64.ofNat 10))).length ∧
      token[1]? =
        (fmtlib.fmt_write { specs_T_10_2 with type := 'E', alt := true,
                                              precision := specs_T_10_2.precision - 1 }
          (value_123456789.mul (Real64.ofNat 10)))[1 + 1]? ∧
      token[1 + 1]? = some '0' ∧ token[1 + 2]? = some '.' ∧ token[1 + 3]? = some '1' ∧
      ∀ i, (i < 1 ∨ 1 + 3 < i) → token[i]? =
        (fmtlib.fmt_write { specs_T_10_2 with type := 'E', alt := true,
                                              precision := specs_T_10_2.precision - 1 }
          (value_123456789.mul (Real64.ofNat 10)))[i]? :=
  leading_zero_swap_effect libm fmtlib.fmt_write 0 specs_T_10_2 value_123456789 rfl (by decide!)
    1 '1' (by decide) (by decide!) (by decide!)

/-! ## The exponent post-processing as implemented -/

/-- C19. On the exponential path of the rounding-compatible directive the token is the
rendered string `s` after this step: when `s` has more than three characters and the
third character from the end is not a digit, one `'0'` is inserted at index `n - 2` (the
result has `n + 1` characters); otherwise, also when `n ≤ 3`, `s` is returned unchanged.
Hence a rendering that ends in `E`, a sign and two exponent digits gives a token that
ends in that sign, `0` and the same two digits, and a rendering with three exponent
digits is unchanged. -/
theorem pad_exponent_as_implemented (lib : math_library) (bw : format_specs → Real64 → List Char)
    (fuel : ℕ) (specs : format_specs) (v : Real64) (hR : specs.type = 'R')
    (hexp : should_be_fixed_output v = false) :
    call_specs lib bw (fuel + 1) specs v =
        .ok (pad_exponent (bw { specs with type := 'E' } (adjusted_value lib v specs.precision)),
          { specs with type := 'E' }) ∧
      (∀ s : List Char, pad_exponent s =
        if 3 < s.length ∧ isdigit (s.getD (s.length - 3) ' ') = false then
          s.take (s.length - 2) ++ ['0'] ++ s.drop (s.length - 2)
        else s) ∧
      (∀ s : List Char, 3 < s.length → isdigit (s.getD (s.length - 3) ' ') = false →
        (pad_exponent s).length = s.length + 1) ∧
      (∀ (pre : List Char) (sign d1 d2 : Char), sign = '+' ∨ sign = '-' →
        pad_exponent (pre ++ ['E', sign, d1, d2]) = pre ++ ['E', sign, '0', d1, d2]) ∧
      (∀ (pre : List Char) (d0 d1 d2 : Char), isdigit d0 = true →
        pad_exponent (pre ++ [d0, d1, d2]) = pre ++ [d0, d1, d2]) := by
  have hdef : ∀ s : List Char, pad_exponent s =
      if 3 < s.length ∧ isdigit (s.getD (s.length - 3) ' ') = false then
        s.take (s.length - 2) ++ ['0'] ++ s.drop (s.length - 2)
      else s := by
    intro s
    unfold pad_exponent
    by_cases h3 : 3 < s.length
    · cases hdig : isdigit (s.getD (s.length - 3) ' ') <;> simp [h3, hdig]
    · simp [h3]
  refine ⟨call_specs_rounding_exponential lib bw fuel specs v hR hexp, hdef, ?_, ?_, ?_⟩
  · intro s h3 hdig
    rw [hdef s, if_pos ⟨h3, hdig⟩]
    simp only [List.length_append, List.length_take, List.length_drop, List.length_cons,
      List.length_nil]
    omega
  · intro pre sign d1 d2 hsign
    have hs : isdigit sign = false := by
      rcases hsign with rfl | rfl <;> decide
    have h := pad_exponent_insert (pre ++ ['E']) sign d1 d2 (by simp) hs
    simpa using h
  · intro pre d0 d1 d2 hd0
    exact pad_exponent_keep pre d0 d1 d2 hd0

/-- C19 (witness). `0.03125` with the directive `{:.3R}`. -/
theorem pad_exponent_as_implemented_witness :
    call_specs libm fmtlib.fmt_write (0 + 1) specs_R_3 value_thirty_second =
        .ok (pad_exponent (fmtlib.fmt_write { specs_R_3 with type := 'E' }
              (adjusted_value libm value_thirty_second specs_R_3.precision)),
          { specs_R_3 with type := 'E' }) ∧
      (∀ s : List Char, pad_exponent s =
        if 3 < s.length ∧ isdigit (s.getD (s.length - 3) ' ') = false then
          s.take (s.length - 2) ++ ['0'] ++ s.drop (s.length - 2)
        else s) ∧
      (∀ s : List Char, 3 < s.length → isdigit (s.getD (s.length - 3) ' ') = false →
        (pad_exponent s).length = s.length + 1) ∧
      (∀ (pre : List Char) (sign d1 d2 : Char), sign = '+' ∨ sign = '-' →
        pad_exponent (pre ++ ['E', sign, d1, d2]) = pre ++ ['E', sign, '0', d1, d2]) ∧
      (∀ (pre : List Char) (d0 d1 d2 : Char), isdigit d0 = true →
        pad_exponent (pre ++ [d0, d1, d2]) = pre ++ [d0, d1, d2]) :=
  pad_exponent_as_implemented libm fmtlib.fmt_write 0 specs_R_3 value_thirty_second rfl
    (by decide!)

/-! ## Standard directives and the depth of the recursion -/

/-- With two levels of recursion budget every call already has its final result, which is
never a failure for lack of budget. -/
theorem call_specs_fuel_two (lib : math_library) (bw : format_specs → Real64 → List Char)
    (fuel : ℕ) (specs : format_specs) (v : Real64) :
    call_specs lib bw (fuel + 2) specs v = call_specs lib bw 2 specs v ∧
      call_specs lib bw 2 specs v ≠ .error Fault.out_of_fuel := by
  by_cases hT : specs.type = 'T'
  · cases hfix : (should_be_fixed_output v && fixed_will_fit lib v (specs.width - 5))
    · have h1 := call_specs_legacy_exponential lib bw (fuel + 1) specs v hT hfix
      have h2 := call_specs_legacy_exponential lib bw 1 specs v hT hfix
      refine ⟨h1.trans h2.symm, ?_⟩
      rw [h2]
      have hne := leading_zero_swap_ne_out_of_fuel
        (bw { specs with type := 'E', alt := true, precision := specs.precision - 1 }
          (v.mul (Real64.ofNat 10)))
        (specs.width - (specs.precision - 1 + 8))
      cases hsw : leading_zero_swap
        (bw { specs with type := 'E', alt := true, precision := specs.precision - 1 }
          (v.mul (Real64.ofNat 10)))
        (specs.width - (specs.precision - 1 + 8)) with
      | error e =>
        rw [hsw] at hne
        intro h
        apply hne
        cases h
        rfl
      | ok str => intro h; cases h
    · have h1 := call_specs_legacy_fixed lib bw fuel specs v hT hfix
      have h2 := call_specs_legacy_fixed lib bw 0 specs v hT hfix
      refine ⟨h1.trans h2.symm, ?_⟩
      rw [h2]
      intro h; cases h
  · by_cases hR : specs.type = 'R'
    · cases hfix : should_be_fixed_output v
      · have h1 := call_specs_rounding_exponential lib bw (fuel + 1) specs v hR hfix
        have h2 := call_specs_rounding_exponential lib bw 1 specs v hR hfix
        refine ⟨h1.trans h2.symm, ?_⟩
        rw [h2]
        intro h; cases h
      · have h1 := call_specs_rounding_fixed lib bw fuel specs v hR hfix
        have h2 := call_specs_rounding_fixed lib bw 0 specs v hR hfix
        refine ⟨h1.trans h2.symm, ?_⟩
        rw [h2]
        intro h; cases h
    · have h1 := call_specs_standard lib bw (fuel + 1) specs v hT hR
      have h2 := call_specs_standard lib bw 1 specs v hT hR
      refine ⟨h1.trans h2.symm, ?_⟩
      rw [h2]
      intro h; cases h

/-- C20. For every value, a call without a spec or with a spec whose type is neither
`'T'` nor `'R'` returns the standard formatter's output for that value and spec and
leaves the spec as it was. The spec the legacy-G fixed path recurses with has type `'F'`,
so the recursive call returns the standard formatter's output directly; dispatch recurses
at most once: two levels of budget give every call its final result. -/
theorem standard_pass_through (lib : math_library) (bw : format_specs → Real64 → List Char)
    (fuel : ℕ) :
    (∀ v : Real64, call lib bw (fuel + 1) none v = .ok (bw default_specs v, none)) ∧
      (∀ (specs : format_specs) (v : Real64), specs.type ≠ 'T' → specs.type ≠ 'R' →
        call lib bw (fuel + 1) (some specs) v = .ok (bw specs v, some specs)) ∧
      (∀ (specs : format_specs) (v : Real64),
        (legacy_fixed_specs lib specs v).type = 'F' ∧
          call_specs lib bw (fuel + 1) (legacy_fixed_specs lib specs v) v =
            .ok (bw (legacy_fixed_specs lib specs v) v, legacy_fixed_specs lib specs v)) ∧
      (∀ (specs : format_specs) (v : Real64),
        call_specs lib bw (fuel + 2) specs v = call_specs lib bw 2 specs v ∧
          call_specs lib bw 2 specs v ≠ .error Fault.out_of_fuel) := by
  refine ⟨fun v => rfl, ?_, ?_, fun specs v => call_specs_fuel_two lib bw fuel specs v⟩
  · intro specs v hT hR
    simp only [call, call_specs_standard lib bw fuel specs v hT hR]
  · intro specs v
    refine ⟨legacy_fixed_specs_type lib specs v, ?_⟩
    exact call_specs_standard lib bw fuel _ v
      (by rw [legacy_fixed_specs_type]; decide) (by rw [legacy_fixed_specs_type]; decide)

/-- C20 (witness). The pass-through at `123.456` and the standard directive `{:8.3f}`. -/
theorem standard_pass_through_witness :
    call libm fmtlib.fmt_write (0 + 1) (some specs_f_8_3) value_123_456 =
      .ok (fmtlib.fmt_write specs_f_8_3 value_123_456, some specs_f_8_3) :=
  (standard_pass_through libm fmtlib.fmt_write 0).2.1 specs_f_8_3 value_123_456 (by decide)
    (by decide)

/-! ## Exact ties under the `'R'` directive -/

/-- C15 (amended). For a fixed-eligible value `v` and a precision `P` such that
`v * 10^P` lies exactly halfway between the integers `n` and `n + 1`, the value the
rounding-compatible fixed path renders is the binary64 value nearest to
`(n + 1) / 10^P`, with the sign of `v`, provided the nudge survives (`nudge_survives`):
`0 ≤ P ≤ 22` and the library computes `10^P` exactly, the nudge `10^-(P+10)` is positive
and below `|v|`, `v` is finite and the product cannot overflow, and the nudge scaled by
`10^P` exceeds the rounding slack (half the spacing of binary64 values at the sum, scaled
by `10^P`, plus half the spacing at the product) and together with the slack stays below
`1`. -/
theorem rounding_ties_upward (lib : math_library) (bw : format_specs → Real64 → List Char)
    (fuel : ℕ) (specs : format_specs) (v : Real64) (n : ℤ) (hR : specs.type = 'R')
    (hfix : should_be_fixed_output v = true)
    (htie : v.toRat * (10 : ℚ) ^ specs.precision = (n : ℚ) + 1 / 2)
    (hnudge : nudge_survives lib v specs.precision) :
    call_specs lib bw (fuel + 2) specs v =
      .ok (bw { specs with type := 'F' }
            (nearest_binary64 v.neg (((n : ℚ) + 1) / (10 : ℚ) ^ specs.precision)),
          { specs with type := 'F' }) := by
  obtain ⟨hsc, hlo, hhi⟩ := hnudge
  have hne : v.toRat ≠ 0 := by
    rw [Ne, Real64.toRat_eq_zero_iff]
    intro h0
    have he0 := hsc.2.2.2.2.1
    have he1 := hsc.2.2.2.2.2.1
    rw [h0] at he1
    linarith
  have hfloor : ⌊v.toRat * (10 : ℚ) ^ specs.precision + 1 / 2⌋ = n + 1 := by
    rw [htie, Int.floor_eq_iff]
    push_cast
    constructor <;> linarith
  have hfract : Int.fract (v.toRat * (10 : ℚ) ^ specs.precision + 1 / 2) = 0 := by
    rw [Int.fract, hfloor, htie]
    push_cast
    ring
  have hcond : half_up_conditions lib v specs.precision :=
    ⟨hsc, by rw [hfract, zero_add]; exact hlo, by rw [hfract, zero_add]; exact hhi⟩
  have hcall := call_specs_rounding_fixed lib bw fuel specs v hR hfix
  rw [adjusted_value_fixed lib v _ hne hfix,
    rounded_value_eq_nearest lib v specs.precision hcond] at hcall
  rw [hcall]
  unfold spec_round_half_up
  rw [hfloor]
  push_cast
  rfl

/-- The nudge survives at `-0.125` and precision 2. -/
theorem nudge_survives_minus_eighth : nudge_survives libm value_minus_eighth 2 := by
  unfold nudge_survives scaling_conditions
  decide!

/-- C15 (witness). `-0.125` at precision 2: `-12.5` lies halfway between `-13` and
`-12`, the nudge `10^-12` survives the roundings, and the rendered value is the binary64
value nearest to `-12 / 100`, written `"-0.12"`; without the nudge `std::round` would
send the tie away from zero, to `-13`. -/
theorem rounding_ties_upward_witness :
    nudge_survives libm value_minus_eighth specs_R_2.precision ∧
      call_specs libm fmtlib.fmt_write (0 + 2) specs_R_2 value_minus_eighth =
        .ok (fmtlib.fmt_write { specs_R_2 with type := 'F' }
              (nearest_binary64 value_minus_eighth.neg
                ((((-13 : ℤ) : ℚ) + 1) / (10 : ℚ) ^ specs_R_2.precision)),
            { specs_R_2 with type := 'F' }) ∧
      fmtlib.fmt_write { specs_R_2 with type := 'F' }
          (nearest_binary64 value_minus_eighth.neg
            ((((-13 : ℤ) : ℚ) + 1) / (10 : ℚ) ^ specs_R_2.precision)) = "-0.12".toList ∧
      call libm fmtlib.fmt_write 2 (some specs_R_2) value_minus_eighth =
        .ok ("-0.12".toList, some ⟨0, 2, 'F', false⟩) :=
  ⟨nudge_survives_minus_eighth,
    rounding_ties_upward libm fmtlib.fmt_write 0 specs_R_2 value_minus_eighth (-13) rfl
      (by decide!) (by decide!) nudge_survives_minus_eighth,
    by decide!, by decide!⟩

/-- C15 (counterexample). The binary64 value `-20000.125` is non-zero and fixed-eligible
and at precision 2 lies exactly halfway: `v * 100 = -2000012.5`, between `n = -2000013`
and `n + 1 = -2000012`. The nudge `10^-12` is below half the spacing `2^-38` of binary64
values there, so the sum is `v` again, `std::round` rounds the tie away from zero to
`n`, and the token is `"-20000.13"`, not the rendering `"-20000.12"` of the upper
neighbour `(n + 1) / 100`. A positive tie can be lost as well: for the binary64 value
`100000000000000.125` the product by `100` rounds to the even `10000000000000012`, and
the token ends in `.12`, not `.13`. -/
theorem rounding_tie_absorbed :
    value_minus_20000_125.IsBinary64 ∧ value_minus_20000_125.toRat ≠ 0 ∧
      should_be_fixed_output value_minus_20000_125 = true ∧
      value_minus_20000_125.toRat * (10 : ℚ) ^ (2 : ℤ) = ((-2000013 : ℤ) : ℚ) + 1 / 2 ∧
      (adjusted_value libm value_minus_20000_125 2).toRat = value_minus_20000_125.toRat ∧
      (((adjusted_value libm value_minus_20000_125 2).mul (libm.pow10 2)).round).toRat =
        ((-2000013 : ℤ) : ℚ) ∧
      call libm fmtlib.fmt_write 2 (some specs_R_2) value_minus_20000_125 =
        .ok ("-20000.13".toList, some ⟨0, 2, 'F', false⟩) ∧
      fmtlib.fmt_write ⟨0, 2, 'F', false⟩
          (nearest_binary64 true ((((-2000013 : ℤ) : ℚ) + 1) / (10 : ℚ) ^ (2 : ℤ))) =
        "-20000.12".toList ∧
      ¬ nudge_survives libm value_minus_20000_125 2 ∧
      should_be_fixed_output value_1e14_eighth = true ∧
      value_1e14_eighth.toRat * (10 : ℚ) ^ (2 : ℤ) = ((10000000000000012 : ℤ) : ℚ) + 1 / 2 ∧
      call libm fmtlib.fmt_write 2 (some specs_R_2) value_1e14_eighth =
        .ok ("100000000000000.12".toList, some ⟨0, 2, 'F', false⟩) := by
  refine ⟨⟨160001, -3, by norm_num, by norm_num, by norm_num, ?_⟩, by decide!, by decide!,
    by decide!, by decide!, by decide!, by decide!, by decide!,
    by unfold nudge_survives scaling_conditions; decide!, by decide!, by decide!,
    by decide!⟩
  show (160001 : ℚ) / 8 = ((160001 : ℕ) : ℚ) * (2 : ℚ) ^ (-3 : ℤ)
  rw [zpow_neg]
  norm_num

/-! ## The decimal point of the fixed-path token -/

theorem isdigit_digitChar (m : ℕ) (h : m < 10) : isdigit (Nat.digitChar m) = true := by
  interval_cases m <;> decide

theorem isdigit_toDigitsCore (fuel n : ℕ) (ds : List Char)
    (hds : ∀ c ∈ ds, isdigit c = true) :
    ∀ c ∈ Nat.toDigitsCore 10 fuel n ds, isdigit c = true := by
  induction fuel generalizing n ds with
  | zero => simpa [Nat.toDigitsCore] using hds
  | succ fuel ih =>
    have hcons : ∀ c ∈ Nat.digitChar (n % 10) :: ds, isdigit c = true := by
      intro c hc
      rcases List.mem_cons.mp hc with rfl | hc
      · exact isdigit_digitChar _ (Nat.mod_lt _ (by norm_num))
      · exact hds c hc
    unfold Nat.toDigitsCore
    simp only
    split
    · exact hcons
    · exact ih _ _ hcons

theorem isdigit_zero_padded (len n : ℕ) : ∀ c ∈ fmtlib.zero_padded len n, isdigit c = true := by
  intro c hc
  unfold fmtlib.zero_padded at hc
  rcases List.mem_append.mp hc with h | h
  · rw [List.eq_of_mem_replicate h]; decide
  · exact isdigit_toDigitsCore _ _ [] (by simp) c h

theorem count_point_of_digits (ds : List Char) (h : ∀ c ∈ ds, isdigit c = true) :
    ds.count '.' = 0 := by
  rw [List.count_eq_zero]
  intro hmem
  have := h '.' hmem
  revert this
  decide

/-- The library writes one point in fixed notation when there are fraction digits or the
alternate form is set, and none otherwise. -/
theorem count_point_fixed_body (mag : ℚ) (p : ℕ) (alt : Bool) :
    (fmtlib.fixed_body mag p alt).count '.' = if 0 < p ∨ alt = true then 1 else 0 := by
  unfold fmtlib.fixed_body
  simp only [List.count_append]
  have hd := count_point_of_digits _ (isdigit_zero_padded (p + 1)
    (fmtlib.round_half_even (mag * 10 ^ p)))
  have hsplit := List.take_append_drop
    ((fmtlib.zero_padded (p + 1) (fmtlib.round_half_even (mag * 10 ^ p))).length - p)
    (fmtlib.zero_padded (p + 1) (fmtlib.round_half_even (mag * 10 ^ p)))
  have hsum : (List.take
      ((fmtlib.zero_padded (p + 1) (fmtlib.round_half_even (mag * 10 ^ p))).length - p)
      (fmtlib.zero_padded (p + 1) (fmtlib.round_half_even (mag * 10 ^ p)))).count '.' +
      (List.drop
      ((fmtlib.zero_padded (p + 1) (fmtlib.round_half_even (mag * 10 ^ p))).length - p)
      (fmtlib.zero_padded (p + 1) (fmtlib.round_half_even (mag * 10 ^ p)))).count '.' = 0 := by
    rw [← List.count_append, hsplit, hd]
  have hpt : (fmtlib.point p alt).count '.' = if 0 < p ∨ alt = true then 1 else 0 := by
    unfold fmtlib.point
    split <;> simp
  omega

theorem count_point_fmt_write (specs : format_specs) (v : Real64) (hF : specs.type = 'F')
    (hp : 0 ≤ specs.precision) (hfin : v.mag < Real64.infinity_mag) :
    (fmtlib.fmt_write specs v).count '.' =
      if 0 < specs.precision ∨ specs.alt = true then 1 else 0 := by
  unfold fmtlib.fmt_write
  have hneg : ¬ specs.precision < 0 := not_lt.mpr hp
  simp only [hF, true_or, if_true, hneg, if_false, not_le.mpr hfin, fmtlib.pad_left,
    List.count_append, count_point_fixed_body]
  have h1 : (List.replicate (specs.width.toNat -
      (fmtlib.sign_chars v ++ fmtlib.fixed_body v.mag specs.precision.toNat specs.alt).length)
      ' ').count '.' = 0 := by
    rw [List.count_eq_zero]
    intro h
    have := List.eq_of_mem_replicate h
    revert this
    decide
  have h2 : (fmtlib.sign_chars v).count '.' = 0 := by
    unfold fmtlib.sign_chars
    cases v.neg <;> decide
  rw [h1, h2]
  have hiff : (0 < specs.precision.toNat) ↔ (0 < specs.precision) := by omega
  simp only [hiff]
  omega

theorem legacy_fixed_specs_precision_nonneg (lib : math_library) (specs : format_specs)
    (v : Real64) :
    0 ≤ (legacy_fixed_specs lib specs v).precision := by
  unfold legacy_fixed_specs
  simp only
  split_ifs <;> simp_all <;> omega

/-- Without the alternate-form flag the fixed-path token of the legacy-G directive for a
finite value, with the modelled library writer, contains exactly one `.` and ends with
four spaces. -/
theorem legacy_fixed_one_point (lib : math_library) (fuel : ℕ) (specs : format_specs)
    (v : Real64) (hT : specs.type = 'T')
    (hfix : (should_be_fixed_output v && fixed_will_fit lib v (specs.width - 5)) = true)
    (halt : specs.alt = false) (hfin : v.mag < Real64.infinity_mag) :
    ∃ token s, call_specs lib fmtlib.fmt_write (fuel + 2) specs v = .ok (token, s) ∧
      token.count '.' = 1 ∧ "    ".toList <:+ token := by
  refine ⟨_, _, call_specs_legacy_fixed lib fmtlib.fmt_write fuel specs v hT hfix, ?_,
    ⟨_, rfl⟩⟩
  have hp := legacy_fixed_specs_precision_nonneg lib specs v
  have ha : (legacy_fixed_specs lib specs v).alt = false := by
    rw [legacy_fixed_specs_alt, halt]
  simp only [List.count_append,
    count_point_fmt_write _ v (legacy_fixed_specs_type lib specs v) hp hfin, ha]
  by_cases h0 : (legacy_fixed_specs lib specs v).precision = 0
  · simp [h0]
  · have hpos : 0 < (legacy_fixed_specs lib specs v).precision := by omega
    simp [h0, hpos]

/-- C14 (failing input). `123.0` with the directive `{:#10.2T}` takes the fixed path with
adjusted precision `0` and working width `5`. With the alternate-form flag the library
itself writes the point, ` 123.`, and the branch appends its literal `.` all the same:
the token is ` 123..` followed by four spaces and contains two `.` characters. -/
theorem legacy_fixed_two_points :
    (should_be_fixed_output value_123 &&
        fixed_will_fit libm value_123 (specs_T_alt_10_2.width - 5)) = true ∧
      fmtlib.fmt_write ⟨5, 0, 'F', true⟩ value_123 = " 123.".toList ∧
      call libm fmtlib.fmt_write 2 (some specs_T_alt_10_2) value_123 =
        .ok (" 123..    ".toList, some ⟨5, 0, 'F', true⟩) ∧
      (" 123..    ".toList).count '.' = 2 := by
  decide!

end custom_arg_formatter

/-! ## Claims about `vprint` -/

/-- C11. The two overloads agree: when the string overload returns a string, the stream
overload appends exactly that string to the sink and raises nothing; when the string
overload fails with an error, the stream overload fails with the same error (and leaves
the sink as it was). -/
theorem vprint_overloads_agree {Args : Type} (vformat_to : List Char → Args → pass_result)
    (os : List Char) (format_str : List Char) (args : Args) (count : ℕ) :
    match vprint_string vformat_to format_str args count with
    | .ok str => vprint_stream vformat_to os format_str args count = (os ++ str, none)
    | .error e => vprint_stream vformat_to os format_str args count = (os, some e) := by
  unfold vprint_string vprint_stream
  cases h : (vformat_to format_str args).thrown <;> simp only [h]

/-- C12. Whenever the template pass raises a format error, whatever it has written into
its buffer so far, both overloads fail with an error whose message is built from the
original template text and the supplied argument count (both occur in it), and the
stream overload leaves the sink unchanged. -/
theorem vprint_no_partial_output {Args : Type} (vformat_to : List Char → Args → pass_result)
    (os : List Char) (format_str : List Char) (args : Args) (count : ℕ) (e : format_error)
    (h : (vformat_to format_str args).thrown = some e) :
    vprint_stream vformat_to os format_str args count =
        (os, some ⟨error_message format_str count, none⟩) ∧
      vprint_string vformat_to format_str args count =
        .error ⟨error_message format_str count, none⟩ ∧
      format_str <:+: error_message format_str count ∧
      Nat.toDigits 10 count <:+: error_message format_str count := by
  refine ⟨?_, ?_, ?_, ?_⟩
  · unfold vprint_stream; simp only [h]
  · unfold vprint_string; simp only [h]
  · exact ⟨"Error with format, '".toList,
      "', passed ".toList ++ Nat.toDigits 10 count ++ " args".toList, by
        unfold error_message; simp only [List.append_assoc]⟩
  · exact ⟨"Error with format, '".toList ++ format_str ++ "', passed ".toList,
      " args".toList, by unfold error_message; simp only [List.append_assoc]⟩

/-- C12 (witness). A pass that wrote `x = ` before it threw: the sink `abc` is left as it
was and the error names the template and the count `1`. -/
theorem vprint_no_partial_output_witness :
    vprint_stream pass_index_error "abc".toList template_T_10_4 () 1 =
        ("abc".toList, some ⟨error_message template_T_10_4 1, none⟩) ∧
      vprint_string pass_index_error template_T_10_4 () 1 =
        .error ⟨error_message template_T_10_4 1, none⟩ ∧
      template_T_10_4 <:+: error_message template_T_10_4 1 ∧
      Nat.toDigits 10 1 <:+: error_message template_T_10_4 1 :=
  vprint_no_partial_output pass_index_error "abc".toList template_T_10_4 () 1
    ⟨"argument index out of range".toList, none⟩ rfl

/-- C13 (amended). When `vprint` re-raises a library-level formatting error, the error
it raises is a new `fmt::format_error` that carries only the message built from the
template text and the argument count; it has no nested cause, so two different original
failures on the same template and count give the same re-raised error. -/
theorem vprint_error_discards_cause {Args : Type}
    (vformat_to vformat_to' : List Char → Args → pass_result)
    (format_str : List Char) (args : Args) (count : ℕ) (e e' : format_error)
    (h : (vformat_to format_str args).thrown = some e)
    (h' : (vformat_to' format_str args).thrown = some e') :
    vprint_string vformat_to format_str args count =
        .error ⟨error_message format_str count, none⟩ ∧
      vprint_string vformat_to' format_str args count =
        vprint_string vformat_to format_str args count ∧
      (∀ os, vprint_stream vformat_to' os format_str args count =
        vprint_stream vformat_to os format_str args count) := by
  unfold vprint_string vprint_stream
  simp only [h, h', and_self, implies_true]

/-- C13 (witness). The statement for the two failing passes of the examples. -/
theorem vprint_error_discards_cause_witness :
    vprint_string pass_index_error template_T_10_4 () 1 =
        .error ⟨error_message template_T_10_4 1, none⟩ ∧
      vprint_string pass_type_error template_T_10_4 () 1 =
        vprint_string pass_index_error template_T_10_4 () 1 ∧
      (∀ os, vprint_stream pass_type_error os template_T_10_4 () 1 =
        vprint_stream pass_index_error os template_T_10_4 () 1) :=
  vprint_error_discards_cause pass_index_error pass_type_error template_T_10_4 () 1
    ⟨"argument index out of range".toList, none⟩ ⟨"invalid type specifier".toList, none⟩
    rfl rfl

/-- C13 (counterexample). The library fails once with "argument index out of range" and
once with "invalid type specifier"; `vprint` raises the same error both times, with no
nested cause and a message that contains neither original text, so the original failure
cannot be recovered from it. -/
theorem vprint_error_has_no_cause :
    (pass_index_error template_T_10_4 ()).thrown ≠ (pass_type_error template_T_10_4 ()).thrown ∧
      vprint_string pass_index_error template_T_10_4 () 1 =
        vprint_string pass_type_error template_T_10_4 () 1 ∧
      vprint_string pass_index_error template_T_10_4 () 1 =
        .error ⟨"Error with format, '\x7b:10.4T\x7d', passed 1 args".toList, none⟩ := by
  decide

end EnergyPlus
